import Mathlib

/-! # Cache simulator (`Assignment 2/cache_sim.c`): embedding and verified properties

The C program is embedded shallowly.  The heap objects allocated in `main`
(two block arrays, two replacement queues) and the global statistics form an
explicit `Memory` value that every function takes and returns.  A C pointer to
one of the two block arrays (`cache`) or to one of the two queues
(`block_queue *`) is a two-valued reference into `Memory`, so that passing the
same array twice (unified cache) aliases exactly as it does in C.

Array accesses outside an allocated buffer are undefined behaviour in C; here
they yield `Fault.out_of_bounds`.  `exit(0)` on an unknown access type yields
`Fault.unknown_access_type`.

Integer conventions: `uint32_t` values are naturals, with the wrap-around of
`nr_of_blocks - 1` and of bitwise complement written out modulo `2 ^ 32`;
`int` values are integers, and a comparison of an `int` with a `uint32_t`
converts the `int` modulo `2 ^ 32` as C does.  `nr_of_blocks` is
`cache_size / 64` (halved when split) for a `uint32_t` `cache_size`, hence
below `2 ^ 26`: slot indices and block addresses (`address >> 6`) kept in `int`
variables are exact, and the theorems take `nr_of_blocks < 2 ^ 32` as the
typing condition.  The `uint64_t` statistics counters are unbounded naturals
(a trace has fewer than `2 ^ 64` records).
-/

namespace CacheSim

/-! ## Data model -/

inductive cache_map_t
  | dm
  | fa
  deriving DecidableEq, Repr

inductive cache_org_t
  | uc
  | sc
  deriving DecidableEq, Repr

inductive access_t
  | instruction
  | data
  deriving DecidableEq, Repr

structure mem_access_t where
  address : Nat
  accesstype : access_t
  deriving DecidableEq, Repr

structure cache_stat_t where
  accesses : Nat
  hits : Nat
  deriving DecidableEq, Repr

structure block where
  valid : Int
  tag : Nat
  deriving DecidableEq, Repr

structure block_queue where
  block_indexes : List Int
  head : Int
  tail : Int
  deriving DecidableEq, Repr

/-- The value of a `cache` struct: its `blocks` pointer addresses one of the
two arrays that `main` allocates. -/
inductive cache
  | data_blocks
  | instruction_blocks
  deriving DecidableEq, Repr

/-- The value of a `block_queue *`: the address of one of the two queues that
`main` declares. -/
inductive queue_ptr
  | queue_data
  | queue_instructions
  deriving DecidableEq, Repr

/-- The mutable objects of a run: the two block arrays, the two queues and the
global `cache_statistics`. -/
structure Memory where
  data_blocks : List block
  instruction_blocks : List block
  queue_data : block_queue
  queue_instructions : block_queue
  cache_statistics : cache_stat_t
  deriving DecidableEq, Repr

inductive Fault
  | out_of_bounds
  | unknown_access_type
  | out_of_fuel
  deriving DecidableEq, Repr

deriving instance DecidableEq for Except

/-- The array behind a `cache` value. -/
def Memory.blocks (m : Memory) : cache → List block
  | .data_blocks => m.data_blocks
  | .instruction_blocks => m.instruction_blocks

/-- Replace the array behind a `cache` value. -/
def Memory.set_blocks (m : Memory) (c : cache) (bs : List block) : Memory :=
  match c with
  | .data_blocks => { m with data_blocks := bs }
  | .instruction_blocks => { m with instruction_blocks := bs }

/-- The queue behind a `block_queue *`. -/
def Memory.queue (m : Memory) : queue_ptr → block_queue
  | .queue_data => m.queue_data
  | .queue_instructions => m.queue_instructions

/-- Replace the queue behind a `block_queue *`. -/
def Memory.set_queue (m : Memory) (q : queue_ptr) (v : block_queue) : Memory :=
  match q with
  | .queue_data => { m with queue_data := v }
  | .queue_instructions => { m with queue_instructions := v }

/-- The statement `cache_statistics.hits += 1`. -/
def Memory.add_hit (m : Memory) : Memory :=
  { m with cache_statistics := { m.cache_statistics with hits := m.cache_statistics.hits + 1 } }

/-- The statement `cache_statistics.accesses += 1`. -/
def Memory.add_access (m : Memory) : Memory :=
  { m with cache_statistics :=
      { m.cache_statistics with accesses := m.cache_statistics.accesses + 1 } }

/-- Read `buf[i]`; an index outside the buffer is a fault. -/
def load {α : Type} (buf : List α) (i : Int) : Except Fault α :=
  if 0 ≤ i then
    match buf[i.toNat]? with
    | some x => .ok x
    | none => .error .out_of_bounds
  else .error .out_of_bounds

/-- Write `buf[i] = x`; an index outside the buffer is a fault. -/
def store {α : Type} (buf : List α) (i : Int) (x : α) : Except Fault (List α) :=
  if 0 ≤ i ∧ i.toNat < buf.length then .ok (buf.set i.toNat x)
  else .error .out_of_bounds

/-- Subtraction of `uint32_t` values. -/
def sub32 (a b : Nat) : Nat := (a % 4294967296 + 4294967296 - b % 4294967296) % 4294967296

/-- Bitwise complement of a `uint32_t` value. -/
def not32 (a : Nat) : Nat := 4294967295 - a % 4294967296

/-- The cache or queue that the `if (access.accesstype == instruction) ... else
if (access.accesstype == data) ...` chain selects. -/
def select {α : Type} (for_data for_instruction : α) : access_t → α
  | .instruction => for_instruction
  | .data => for_data

/-! ## `direct_mapped` -/

def direct_mapped (nr_of_blocks : Nat) (data_cache instruction_cache : cache)
    (access : mem_access_t) (m : Memory) : Except Fault Memory :=
  let cache := select data_cache instruction_cache access.accesstype
  let address := access.address >>> 6
  let address_mask := sub32 nr_of_blocks 1
  let index := address &&& address_mask
  let tag := address &&& not32 address_mask
  match load (m.blocks cache) (index : Int) with
  | .error e => .error e
  | .ok b =>
    if b.valid = 0 then
      match store (m.blocks cache) (index : Int) ⟨1, tag⟩ with
      | .error e => .error e
      | .ok bs => .ok (m.set_blocks cache bs)
    else if b.tag = tag then
      .ok m.add_hit
    else
      match store (m.blocks cache) (index : Int) ⟨b.valid, tag⟩ with
      | .error e => .error e
      | .ok bs => .ok (m.set_blocks cache bs)

/-! ## The replacement queue -/

def enqueue (nr_of_blocks : Nat) (queue : block_queue) (block_index : Int) :
    Except Fault block_queue :=
  let head := if queue.head = -1 then 0 else queue.head
  if queue.tail % 4294967296 = ((nr_of_blocks : Int) - 1) % 4294967296 then
    match store queue.block_indexes 0 block_index with
    | .error e => .error e
    | .ok bi => .ok ⟨bi, head, 0⟩
  else
    match store queue.block_indexes (queue.tail + 1) block_index with
    | .error e => .error e
    | .ok bi => .ok ⟨bi, head, queue.tail + 1⟩

def dequeue (nr_of_blocks : Nat) (queue : block_queue) : Except Fault (Int × block_queue) :=
  match load queue.block_indexes queue.head with
  | .error e => .error e
  | .ok block_index =>
    if queue.head % 4294967296 = ((nr_of_blocks : Int) - 1) % 4294967296 then
      .ok (block_index, ⟨queue.block_indexes, 0, queue.tail⟩)
    else
      .ok (block_index, ⟨queue.block_indexes, queue.head + 1, queue.tail⟩)

/-! ## `fully_associative` -/

/-- How the scan loop of `fully_associative` ends: by the `return` on a hit,
or by running to `nr_of_blocks` with the final value of `last_invalid`. -/
inductive scan_result
  | hit
  | no_hit (last_invalid : Int)
  deriving DecidableEq, Repr

/-- The loop `for (size_t i = 0; i < nr_of_blocks; i++)` of `fully_associative`,
entered at `i` with `remaining = nr_of_blocks - i` iterations to go. -/
def scan (blocks : List block) (address_tag : Nat) :
    Nat → Nat → Int → Except Fault scan_result
  | 0, _, last_invalid => .ok (.no_hit last_invalid)
  | remaining + 1, i, last_invalid =>
    match load blocks (i : Int) with
    | .error e => .error e
    | .ok b =>
      if b.valid ≠ 0 then
        if b.tag = address_tag then .ok .hit
        else scan blocks address_tag remaining (i + 1) last_invalid
      else scan blocks address_tag remaining (i + 1) (i : Int)

def fully_associative (nr_of_blocks : Nat) (data_cache : cache) (data_queue : queue_ptr)
    (instruction_cache : cache) (instruction_queue : queue_ptr)
    (access : mem_access_t) (m : Memory) : Except Fault Memory :=
  let cache := select data_cache instruction_cache access.accesstype
  let queue := select data_queue instruction_queue access.accesstype
  let address_tag := access.address >>> 6
  match scan (m.blocks cache) address_tag nr_of_blocks 0 (-1) with
  | .error e => .error e
  | .ok .hit => .ok m.add_hit
  | .ok (.no_hit last_invalid) =>
    if last_invalid > -1 then
      match store (m.blocks cache) last_invalid ⟨1, address_tag⟩ with
      | .error e => .error e
      | .ok bs =>
        match enqueue nr_of_blocks (m.queue queue) last_invalid with
        | .error e => .error e
        | .ok q => .ok ((m.set_blocks cache bs).set_queue queue q)
    else
      match dequeue nr_of_blocks (m.queue queue) with
      | .error e => .error e
      | .ok (replace_index, q1) =>
        match load (m.blocks cache) replace_index with
        | .error e => .error e
        | .ok b =>
          match store (m.blocks cache) replace_index ⟨b.valid, address_tag⟩ with
          | .error e => .error e
          | .ok bs =>
            match enqueue nr_of_blocks q1 replace_index with
            | .error e => .error e
            | .ok q => .ok ((m.set_blocks cache bs).set_queue queue q)

/-! ## `read_transaction` and `main` -/

/-- One `fscanf(ptr_file, "%c %x\n", ...)` on the rest of the trace file.  The
file is the list of (type character, address) pairs that successive calls
parse; at its end `fscanf` does not return 2 and the function returns address
0.  The `accesstype` of that value is left uninitialised in C and is never
read by `main`; it is `data` here. -/
def read_transaction (ptr_file : List (Char × Nat)) :
    Except Fault (mem_access_t × List (Char × Nat)) :=
  match ptr_file with
  | (type, address) :: rest =>
    if type ≠ 'I' ∧ type ≠ 'D' then .error .unknown_access_type
    else .ok (⟨address, if type = 'I' then .instruction else .data⟩, rest)
  | [] => .ok (⟨0, .data⟩, [])

/-- The body of the replay loop after the `break` test: count the access and
dispatch on mapping and organisation. -/
def cache_access (nr_of_blocks : Nat) (cache_mapping : cache_map_t) (cache_org : cache_org_t)
    (access : mem_access_t) (m : Memory) : Except Fault Memory :=
  let m := m.add_access
  match cache_mapping, cache_org with
  | .fa, .uc =>
    fully_associative nr_of_blocks .data_blocks .queue_data .data_blocks .queue_data access m
  | .fa, .sc =>
    fully_associative nr_of_blocks .data_blocks .queue_data .instruction_blocks
      .queue_instructions access m
  | .dm, .uc => direct_mapped nr_of_blocks .data_blocks .data_blocks access m
  | .dm, .sc => direct_mapped nr_of_blocks .data_blocks .instruction_blocks access m

/-- The loop `while (1)` of `main`; every iteration consumes one unit of fuel. -/
def main_loop (nr_of_blocks : Nat) (cache_mapping : cache_map_t) (cache_org : cache_org_t) :
    Nat → List (Char × Nat) → Memory → Except Fault Memory
  | 0, _, _ => .error .out_of_fuel
  | fuel + 1, ptr_file, m =>
    match read_transaction ptr_file with
    | .error e => .error e
    | .ok (access, rest) =>
      if access.address = 0 then .ok m
      else
        match cache_access nr_of_blocks cache_mapping cache_org access m with
        | .error e => .error e
        | .ok m1 => main_loop nr_of_blocks cache_mapping cache_org fuel rest m1

/-- The number of blocks per bank that `main` derives from `cache_size`
(`block_size` is 64). -/
def block_count (cache_size : Nat) (cache_org : cache_org_t) : Nat :=
  let nr_of_blocks := cache_size / 64
  if cache_org = .sc then nr_of_blocks / 2 else nr_of_blocks

/-- A queue as `main` sets it up: `head = tail = -1` over a `malloc`ed array
whose cells hold indeterminate values, given by `garbage`. -/
def empty_queue (nr_of_blocks : Nat) (garbage : Nat → Int) : block_queue :=
  ⟨(List.range nr_of_blocks).map garbage, -1, -1⟩

/-- The memory of `main` when the replay loop is entered: `calloc`ed block
arrays, empty queues, statistics reset by `memset`. -/
def init_memory (nr_of_blocks : Nat) (garbage_data garbage_instructions : Nat → Int) : Memory :=
  { data_blocks := List.replicate nr_of_blocks ⟨0, 0⟩
    instruction_blocks := List.replicate nr_of_blocks ⟨0, 0⟩
    queue_data := empty_queue nr_of_blocks garbage_data
    queue_instructions := empty_queue nr_of_blocks garbage_instructions
    cache_statistics := ⟨0, 0⟩ }

/-- The function `main` from the reset of the statistics to the values it
prints, on the parsed command line and the records of `mem_trace.txt`. -/
def main (cache_size : Nat) (cache_mapping : cache_map_t) (cache_org : cache_org_t)
    (garbage_data garbage_instructions : Nat → Int) (trace : List (Char × Nat)) :
    Except Fault cache_stat_t :=
  let nr_of_blocks := block_count cache_size cache_org
  match main_loop nr_of_blocks cache_mapping cache_org (trace.length + 1) trace
      (init_memory nr_of_blocks garbage_data garbage_instructions) with
  | .error e => .error e
  | .ok m => .ok m.cache_statistics

/-! ## The statistics output of `main`

The last `printf` of `main` evaluates `(double)cache_statistics.hits /
cache_statistics.accesses`: both counters are converted to `double` and
divided.  The conversion and the division are embedded as IEEE 754 binary64
operations (round to nearest, ties to even), with the exception flags they
raise. -/

/-- The floating-point exception flags of `fenv.h` that the embedded
operations can raise: `FE_INVALID`, `FE_DIVBYZERO` and `FE_INEXACT`. -/
structure fexcept_t where
  invalid : Bool
  divbyzero : Bool
  inexact : Bool
  deriving DecidableEq, Repr

/-- No flag raised. -/
def fexcept_t.none : fexcept_t := ⟨false, false, false⟩

/-- Write a bank-level result back: store the array and the queue and count a hit. -/
def Memory.commit (m : Memory) (c : cache) (q : queue_ptr)
    (r : List block × block_queue × Bool) : Memory :=
  if r.2.2 then ((m.set_blocks c r.1).set_queue q r.2.1).add_hit
  else (m.set_blocks c r.1).set_queue q r.2.1

/-- The effect of `direct_mapped` on the selected array, with the outcome. -/
def dm_bank (nr_of_blocks : Nat) (blocks : List block) (address : Nat) :
    Except Fault (List block × Bool) :=
  let index := (address >>> 6) &&& sub32 nr_of_blocks 1
  let tag := (address >>> 6) &&& not32 (sub32 nr_of_blocks 1)
  match load blocks (index : Int) with
  | .error e => .error e
  | .ok b =>
    if b.valid = 0 then
      match store blocks (index : Int) ⟨1, tag⟩ with
      | .error e => .error e
      | .ok bs => .ok (bs, false)
    else if b.tag = tag then .ok (blocks, true)
    else
      match store blocks (index : Int) ⟨b.valid, tag⟩ with
      | .error e => .error e
      | .ok bs => .ok (bs, false)

/-- The effect of `fully_associative` on the selected array and queue, with
the outcome. -/
def fa_bank (nr_of_blocks : Nat) (blocks : List block) (queue : block_queue)
    (address_tag : Nat) : Except Fault (List block × block_queue × Bool) :=
  match scan blocks address_tag nr_of_blocks 0 (-1) with
  | .error e => .error e
  | .ok .hit => .ok (blocks, queue, true)
  | .ok (.no_hit last_invalid) =>
    if last_invalid > -1 then
      match store blocks last_invalid ⟨1, address_tag⟩ with
      | .error e => .error e
      | .ok bs =>
        match enqueue nr_of_blocks queue last_invalid with
        | .error e => .error e
        | .ok q => .ok (bs, q, false)
    else
      match dequeue nr_of_blocks queue with
      | .error e => .error e
      | .ok (replace_index, q1) =>
        match load blocks replace_index with
        | .error e => .error e
        | .ok b =>
          match store blocks replace_index ⟨b.valid, address_tag⟩ with
          | .error e => .error e
          | .ok bs =>
            match enqueue nr_of_blocks q1 replace_index with
            | .error e => .error e
            | .ok q => .ok (bs, q, false)

/-! ## The reference FIFO cache and the representation invariant -/

/-- Position `j` places after `h` in a ring of `N` cells. -/
def ring_pos (N h j : Nat) : Nat := if h + j < N then h + j else h + j - N

/-- The relation between a fully-associative bank with its queue and the
resident block addresses `L`, oldest first, with `h` the ring position of the
oldest entry: the `j`-th oldest address sits in the slot named by the queue
cell `j` places after `h`, that cell `p` names slot `N - 1 - p`, and while the
bank is not full the slots below `N - L.length` are invalid. -/
structure FAInv (N : Nat) (blocks : List block) (q : block_queue) (L : List Nat) (h : Nat) :
    Prop where
  len_blocks : blocks.length = N
  len_queue : q.block_indexes.length = N
  len_list : L.length ≤ N
  head_lt : h < N
  fill : L.length < N → h = 0
  head_eq : q.head = if L = [] then -1 else (h : Int)
  tail_eq : q.tail = if L = [] then -1 else (ring_pos N h (L.length - 1) : Int)
  live : ∀ j t, L[j]? = some t →
    q.block_indexes[ring_pos N h j]? = some ((N - 1 - ring_pos N h j : Nat) : Int) ∧
    blocks[N - 1 - ring_pos N h j]? = some ⟨1, t⟩
  free : ∀ i, i + L.length < N → ∃ b, blocks[i]? = some b ∧ b.valid = 0

/-- The reference FIFO cache of capacity `N`, as the specification words it:
the resident block addresses are kept in insertion order; an access is a hit
exactly when its block address is in the list, which then stays as it is; on a
miss the address is appended, after dropping the oldest element when the list
already has `N` elements. -/
def fifo_access (N : Nat) (L : List Nat) (b : Nat) : Bool × List Nat :=
  if b ∈ L then (true, L)
  else if L.length = N then (false, L.tail ++ [b])
  else (false, L ++ [b])

/-- The reference cache run over a sequence of block addresses: the outcome of
every access and the list it leaves. -/
def fifo_run (N : Nat) : List Nat → List Nat → List (Bool × List Nat)
  | _, [] => []
  | L, b :: rest => fifo_access N L b :: fifo_run N (fifo_access N L b).2 rest

/-- Hand the accesses one after another to a lookup function, recording for
every call its outcome (whether it incremented `hits`) and the memory it
left. -/
def run_calls (step : mem_access_t → Memory → Except Fault Memory) :
    List mem_access_t → Memory → Except Fault (List (Bool × Memory))
  | [], _ => .ok []
  | a :: rest, m =>
    match step a m with
    | .error e => .error e
    | .ok m1 =>
      match run_calls step rest m1 with
      | .error e => .error e
      | .ok l => .ok ((decide (m1.cache_statistics.hits ≠ m.cache_statistics.hits), m1) :: l)

/-- The sequence `a, b, a, b, ...` of the given length. -/
def alternating (a b : mem_access_t) : Nat → List mem_access_t
  | 0 => []
  | n + 1 => a :: alternating b a n

/-- The block array that the dispatch in `main` routes an access kind to:
the data array for both kinds when unified, the kind's own array when split. -/
def bank_of (cache_org : cache_org_t) (kind : access_t) : cache :=
  match cache_org with
  | .uc => select cache.data_blocks cache.data_blocks kind
  | .sc => select cache.data_blocks cache.instruction_blocks kind

/-- The queue that the dispatch in `main` routes an access kind to. -/
def queue_of (cache_org : cache_org_t) (kind : access_t) : queue_ptr :=
  match cache_org with
  | .uc => select queue_ptr.queue_data queue_ptr.queue_data kind
  | .sc => select queue_ptr.queue_data queue_ptr.queue_instructions kind

/-- The states in which every access is served without leaving a buffer: both
block arrays have `N` slots and, for the fully-associative mapping, each array
with its queue satisfies the representation invariant. -/
def Ready (N : Nat) (cache_mapping : cache_map_t) (m : Memory) : Prop :=
  match cache_mapping with
  | .dm => m.data_blocks.length = N ∧ m.instruction_blocks.length = N
  | .fa =>
    (∃ L h, FAInv N m.data_blocks m.queue_data L h) ∧
    (∃ L h, FAInv N m.instruction_blocks m.queue_instructions L h)

/-- The outcomes, in order, of the accesses of one kind in a run: `l` is the
record that `run_calls` returns for `trace`. -/
def kind_outcomes (kind : access_t) (trace : List mem_access_t) (l : List (Bool × Memory)) :
    List Bool :=
  ((trace.zip l).filter (fun p => decide (p.1.accesstype = kind))).map (fun p => p.2.1)

/-- The memory of a run with two blocks per bank when the replay loop is
entered, with zeros in the `malloc`ed queue cells; used for concrete
instances. -/
def sample_memory : Memory := init_memory 2 (fun _ => 0) (fun _ => 0)

/-- A full queue over two cells, used for concrete instances. -/
def sample_queue : block_queue := ⟨[7, 8], 0, 1⟩

/-- The `index` that `direct_mapped` computes from `access.address`:
`(address >> 6) & (nr_of_blocks - 1)`. -/
def decode_index (nr_of_blocks address : Nat) : Nat :=
  (address >>> 6) &&& sub32 nr_of_blocks 1

/-- The `tag` that `direct_mapped` computes from `access.address`:
`(address >> 6) & ~(nr_of_blocks - 1)`. -/
def decode_tag (nr_of_blocks address : Nat) : Nat :=
  (address >>> 6) &&& not32 (sub32 nr_of_blocks 1)

/-- Hand the accesses one after another to a lookup function and return the
memory that the last call leaves. -/
def run_final (step : mem_access_t → Memory → Except Fault Memory) :
    List mem_access_t → Memory → Except Fault Memory
  | [], m => .ok m
  | a :: rest, m =>
    match step a m with
    | .error e => .error e
    | .ok m1 => run_final step rest m1

/-- The access that `read_transaction` returns for a record with type `I` or
`D`. -/
def record_access (r : Char × Nat) : mem_access_t :=
  ⟨r.2, if r.1 = 'I' then access_t.instruction else access_t.data⟩

/-- A fully-associative bank with its queue represents some list of pairwise
distinct resident block addresses. -/
def FAGood (N : Nat) (blocks : List block) (q : block_queue) : Prop :=
  ∃ L h, FAInv N blocks q L h ∧ L.Nodup

/-- The number of live entries of a queue over `N` cells: none while `head`
is the sentinel `-1`, otherwise the cells from `head` to `tail` around the
ring, both included. -/
def live_count (N : Nat) (q : block_queue) : Nat :=
  if q.head = -1 then 0 else (q.tail.toNat + N - q.head.toNat) % N + 1

/-- The ring positions of the live entries, from `head` to `tail`. -/
def live_positions (N : Nat) (q : block_queue) : List Nat :=
  (List.range (live_count N q)).map (fun j => (q.head.toNat + j) % N)

/-- The live entries of a queue, oldest first. -/
def live_entries (N : Nat) (q : block_queue) : List Int :=
  (live_positions N q).map (fun p => q.block_indexes.getD p 0)

/-- What C17 says of one bank with its queue.  The live entries are pairwise
distinct, each is a slot index below `N` that names a valid slot, and there
are as many as valid slots, hence at most `N`.  For the next access, with any
tag `t`, the queue calls of `fully_associative` are: none on a hit; on a fill
(`last_invalid > -1`) one `enqueue`, which writes at a position that is not
live; on a replacement (`last_invalid = -1`) the queue holds exactly `N`
entries, `dequeue` returns an index below `N`, and the `enqueue` that follows
writes at a position that is not among the positions still live after the
`dequeue`. -/
def queue_sound (N : Nat) (blocks : List block) (q : block_queue) : Prop :=
  (live_entries N q).Nodup ∧
  (∀ e ∈ live_entries N q,
    0 ≤ e ∧ e < (N : Int) ∧ ∃ b, blocks[e.toNat]? = some b ∧ b.valid ≠ 0) ∧
  (live_entries N q).length = blocks.countP (fun b => decide (b.valid ≠ 0)) ∧
  (live_entries N q).length ≤ N ∧
  (∀ t : Nat,
    scan blocks t N 0 (-1) = .ok .hit ∨
    (∃ li q1, scan blocks t N 0 (-1) = .ok (.no_hit li) ∧ li > -1 ∧
      enqueue N q li = .ok q1 ∧ q1.tail.toNat ∉ live_positions N q) ∨
    (∃ li r q1 q2, scan blocks t N 0 (-1) = .ok (.no_hit li) ∧ ¬ li > -1 ∧
      live_count N q = N ∧ dequeue N q = .ok (r, q1) ∧ 0 ≤ r ∧ r < (N : Int) ∧
      enqueue N q1 r = .ok q2 ∧ q2.tail.toNat ∉ (live_positions N q).tail))

/-- Overwrite slot `i` of the array behind a `cache` value (nothing happens
when the array has no slot `i`); used to state that a lookup does not depend
on the contents of a slot. -/
def Memory.set_slot (m : Memory) (c : cache) (i : Nat) (x : block) : Memory :=
  m.set_blocks c ((m.blocks c).set i x)

/-- Every valid slot holds the tag of one of the accesses in `seen` that the
dispatch routed to the slot's bank and that `direct_mapped` decoded to the
slot's index. -/
def Provenance (N : Nat) (cache_org : cache_org_t) (seen : List mem_access_t) (m : Memory) :
    Prop :=
  ∀ (c : cache) (i : Nat) (b : block), (m.blocks c)[i]? = some b → b.valid ≠ 0 →
    ∃ y ∈ seen, bank_of cache_org y.accesstype = c ∧ decode_index N y.address = i ∧
      decode_tag N y.address = b.tag

end CacheSim

/-! # Falling-block game (`Assignment 3/stetris.c`): the game tick

Only the part of the game that bears on `nextGameTick` is embedded: the
fields of the global `game` that `advanceLevel`, `gameOver` and the tick
update of `main` read or write.  No other statement of the program
assigns `nextGameTick`.  `unsigned int` is 32 bits wide; the width of
`unsigned long` is the parameter `ulong_bits` (32 or 64 on the targets of the
program), and its arithmetic is written out modulo `2 ^ ulong_bits`.
-/

namespace Stetris

/-- The fields of `gameConfig` that the embedded functions touch. -/
structure gameConfig where
  initNextGameTick : Nat
  level : Nat
  state : Nat
  tick : Nat
  nextGameTick : Nat
  deriving DecidableEq, Repr

/-- The initialiser of the global `game`: `.initNextGameTick = 50`, the other
embedded fields zero. -/
def game : gameConfig := ⟨50, 0, 0, 0, 0⟩

/-- The macro `GAMEOVER`. -/
def GAMEOVER : Nat := 0

/-- Subtraction of `unsigned long` values. -/
def ulong_sub (ulong_bits a b : Nat) : Nat :=
  (a % 2 ^ ulong_bits + 2 ^ ulong_bits - b % 2 ^ ulong_bits) % 2 ^ ulong_bits

def advanceLevel (ulong_bits : Nat) (game : gameConfig) : gameConfig :=
  let game := { game with level := (game.level + 1) % 4294967296 }
  if game.nextGameTick = 1 then game
  else if 2 ≤ game.nextGameTick ∧ game.nextGameTick ≤ 10 then
    { game with nextGameTick := ulong_sub ulong_bits game.nextGameTick 1 }
  else if 11 ≤ game.nextGameTick ∧ game.nextGameTick ≤ 20 then
    { game with nextGameTick := ulong_sub ulong_bits game.nextGameTick 2 }
  else
    { game with nextGameTick := ulong_sub ulong_bits game.nextGameTick 10 }

def gameOver (game : gameConfig) : gameConfig :=
  { game with state := GAMEOVER, nextGameTick := game.initNextGameTick }

/-- The statement `game.tick = (game.tick + 1) % game.nextGameTick` of the
loop of `main`; a division by zero is undefined in C and yields `none`. -/
def tick_update (ulong_bits : Nat) (game : gameConfig) : Option gameConfig :=
  if game.nextGameTick = 0 then none
  else some { game with tick := ((game.tick + 1) % 2 ^ ulong_bits) % game.nextGameTick }

/-- A call of one of the two functions that assign `nextGameTick`. -/
inductive call
  | advanceLevel
  | gameOver
  deriving DecidableEq, Repr

/-- The calls made one after another. -/
def play (ulong_bits : Nat) : List call → gameConfig → gameConfig
  | [], game => game
  | call.advanceLevel :: rest, game => play ulong_bits rest (advanceLevel ulong_bits game)
  | call.gameOver :: rest, game => play ulong_bits rest (gameOver game)

end Stetris

namespace CacheSim

/-! ## Basic facts about the helpers -/

theorem load_nat {α : Type} (buf : List α) (i : Nat) (h : i < buf.length) :
    load buf (i : Int) = .ok (buf.get ⟨i, h⟩) := by
  simp [load, List.getElem?_eq_getElem h]

theorem store_nat {α : Type} (buf : List α) (i : Nat) (h : i < buf.length) (x : α) :
    store buf (i : Int) x = .ok (buf.set i x) := by
  simp [store, h]

theorem sub32_one (N : Nat) (hN : 1 ≤ N) (hN32 : N < 4294967296) : sub32 N 1 = N - 1 := by
  unfold sub32
  omega

theorem not32_of_lt (a : Nat) (h : a < 4294967296) : not32 a = 4294967295 - a := by
  unfold not32
  rw [Nat.mod_eq_of_lt h]

theorem Memory.blocks_set_blocks (m : Memory) (c : cache) (bs : List block) :
    (m.set_blocks c bs).blocks c = bs := by
  cases c <;> rfl

theorem Memory.blocks_set_blocks_ne (m : Memory) (c c' : cache) (bs : List block)
    (h : c' ≠ c) : (m.set_blocks c bs).blocks c' = m.blocks c' := by
  cases c <;> cases c' <;> simp_all [Memory.set_blocks, Memory.blocks]

/-! ## Direct-mapped lookup -/

/-- C1: for a bank of `N ≥ 1` slots, `direct_mapped` returns, and it follows
the three-case rule on the slot at `index = (address >> 6) & (N-1)` with
`tag = (address >> 6) & ~(N-1)`: an invalid slot becomes valid holding the tag
with `hits` unchanged; a valid slot with an equal tag adds exactly 1 to `hits`
and leaves the memory otherwise unchanged; a valid slot with a different tag
gets the tag, stays valid, and `hits` is unchanged.  In every case no other
slot of the bank, no other bank, no queue and not `accesses` is modified. -/
theorem direct_mapped_three_case_rule (N : Nat) (hN : 1 ≤ N) (hN32 : N < 4294967296)
    (data_cache instruction_cache : cache) (access : mem_access_t) (m : Memory)
    (hlen : (m.blocks (select data_cache instruction_cache access.accesstype)).length = N) :
    ∃ b m1,
      (m.blocks (select data_cache instruction_cache access.accesstype))[
          (access.address >>> 6) &&& (N - 1)]? = some b ∧
      direct_mapped N data_cache instruction_cache access m = .ok m1 ∧
      (b.valid = 0 →
        (m1.blocks (select data_cache instruction_cache access.accesstype))[
            (access.address >>> 6) &&& (N - 1)]?
          = some ⟨1, (access.address >>> 6) &&& (4294967295 - (N - 1))⟩ ∧
        m1.cache_statistics.hits = m.cache_statistics.hits) ∧
      (b.valid ≠ 0 → b.tag = (access.address >>> 6) &&& (4294967295 - (N - 1)) →
        m1.cache_statistics.hits = m.cache_statistics.hits + 1 ∧
        m1.data_blocks = m.data_blocks ∧ m1.instruction_blocks = m.instruction_blocks) ∧
      (b.valid ≠ 0 → b.tag ≠ (access.address >>> 6) &&& (4294967295 - (N - 1)) →
        (m1.blocks (select data_cache instruction_cache access.accesstype))[
            (access.address >>> 6) &&& (N - 1)]?
          = some ⟨b.valid, (access.address >>> 6) &&& (4294967295 - (N - 1))⟩ ∧
        m1.cache_statistics.hits = m.cache_statistics.hits) ∧
      (∀ j, j ≠ (access.address >>> 6) &&& (N - 1) →
        (m1.blocks (select data_cache instruction_cache access.accesstype))[j]?
          = (m.blocks (select data_cache instruction_cache access.accesstype))[j]?) ∧
      (∀ c, c ≠ select data_cache instruction_cache access.accesstype →
        m1.blocks c = m.blocks c) ∧
      m1.queue_data = m.queue_data ∧ m1.queue_instructions = m.queue_instructions ∧
      m1.cache_statistics.accesses = m.cache_statistics.accesses := by
  have hidx : (access.address >>> 6) &&& (N - 1) <
      (m.blocks (select data_cache instruction_cache access.accesstype)).length := by
    have := @Nat.and_le_right (access.address >>> 6) (N - 1)
    omega
  have hmask : sub32 N 1 = N - 1 := sub32_one N hN hN32
  have hnot : not32 (N - 1) = 4294967295 - (N - 1) := not32_of_lt _ (by omega)
  refine ⟨(m.blocks (select data_cache instruction_cache access.accesstype)).get
    ⟨_, hidx⟩, ?_⟩
  unfold direct_mapped
  simp only [hmask, hnot, load_nat _ _ hidx, store_nat _ _ hidx]
  generalize select data_cache instruction_cache access.accesstype = c at hidx ⊢
  by_cases hv : ((m.blocks c).get ⟨_, hidx⟩).valid = 0
  · refine ⟨_, List.getElem?_eq_getElem hidx, by rw [if_pos hv], ?_⟩
    refine ⟨fun _ => ⟨by simp [Memory.blocks_set_blocks, hidx], by cases c <;> rfl⟩,
      fun h => absurd hv h, fun h => absurd hv h, ?_, ?_, ?_, ?_, ?_⟩
    · intro j hj
      rw [Memory.blocks_set_blocks, List.getElem?_set_ne (Ne.symm hj)]
    · intro c1 hc1
      exact Memory.blocks_set_blocks_ne _ _ _ _ hc1
    all_goals cases c <;> rfl
  · by_cases ht : ((m.blocks c).get ⟨_, hidx⟩).tag
        = (access.address >>> 6) &&& (4294967295 - (N - 1))
    · refine ⟨_, List.getElem?_eq_getElem hidx, by rw [if_neg hv, if_pos ht], ?_⟩
      exact ⟨fun h => absurd h hv, fun _ _ => ⟨rfl, rfl, rfl⟩, fun _ h => absurd ht h,
        fun _ _ => rfl, fun _ _ => rfl, rfl, rfl, rfl⟩
    · refine ⟨_, List.getElem?_eq_getElem hidx, by rw [if_neg hv, if_neg ht], ?_⟩
      refine ⟨fun h => absurd h hv, fun _ h => absurd h ht,
        fun _ _ => ⟨by simp [Memory.blocks_set_blocks, hidx], by cases c <;> rfl⟩,
        ?_, ?_, ?_, ?_, ?_⟩
      · intro j hj
        rw [Memory.blocks_set_blocks, List.getElem?_set_ne (Ne.symm hj)]
      · intro c1 hc1
        exact Memory.blocks_set_blocks_ne _ _ _ _ hc1
      all_goals cases c <;> rfl

theorem direct_mapped_three_case_rule_witness :
    (1 ≤ 2 ∧ 2 < 4294967296 ∧
      (sample_memory.blocks
        (select cache.data_blocks cache.instruction_blocks access_t.data)).length = 2) ∧
    ∃ b m1,
      (sample_memory.blocks cache.data_blocks)[
          (64 >>> 6) &&& (2 - 1)]? = some b ∧
      direct_mapped 2 cache.data_blocks cache.instruction_blocks ⟨64, access_t.data⟩
        sample_memory = .ok m1 ∧
      (b.valid = 0 →
        (m1.blocks cache.data_blocks)[(64 >>> 6) &&& (2 - 1)]?
          = some ⟨1, (64 >>> 6) &&& (4294967295 - (2 - 1))⟩ ∧
        m1.cache_statistics.hits = 0) ∧
      (b.valid ≠ 0 → b.tag = (64 >>> 6) &&& (4294967295 - (2 - 1)) →
        m1.cache_statistics.hits = 0 + 1 ∧
        m1.data_blocks = sample_memory.data_blocks ∧
        m1.instruction_blocks = sample_memory.instruction_blocks) ∧
      (b.valid ≠ 0 → b.tag ≠ (64 >>> 6) &&& (4294967295 - (2 - 1)) →
        (m1.blocks cache.data_blocks)[(64 >>> 6) &&& (2 - 1)]?
          = some ⟨b.valid, (64 >>> 6) &&& (4294967295 - (2 - 1))⟩ ∧
        m1.cache_statistics.hits = 0) ∧
      (∀ j, j ≠ (64 >>> 6) &&& (2 - 1) →
        (m1.blocks cache.data_blocks)[j]?
          = (sample_memory.blocks cache.data_blocks)[j]?) ∧
      (∀ c, c ≠ cache.data_blocks →
        m1.blocks c = sample_memory.blocks c) ∧
      m1.queue_data = sample_memory.queue_data ∧
      m1.queue_instructions = sample_memory.queue_instructions ∧
      m1.cache_statistics.accesses = 0 :=
  ⟨⟨by decide, by decide, rfl⟩,
    direct_mapped_three_case_rule 2 (by decide) (by decide) cache.data_blocks
      cache.instruction_blocks ⟨64, access_t.data⟩ sample_memory rfl⟩

theorem Memory.set_blocks_self (m : Memory) (c : cache) : m.set_blocks c (m.blocks c) = m := by
  cases c <;> rfl

theorem Memory.set_queue_self (m : Memory) (q : queue_ptr) : m.set_queue q (m.queue q) = m := by
  cases q <;> rfl

theorem direct_mapped_eq (N : Nat) (dc ic : cache) (access : mem_access_t) (m : Memory) :
    direct_mapped N dc ic access m =
      match dm_bank N (m.blocks (select dc ic access.accesstype)) access.address with
      | .error e => .error e
      | .ok r =>
        .ok (m.commit (select dc ic access.accesstype) queue_ptr.queue_data
          (r.1, m.queue_data, r.2)) := by
  unfold direct_mapped dm_bank
  simp only []
  split
  · rfl
  · split
    · split
      · rfl
      · simp only [Memory.commit]
        generalize select dc ic access.accesstype = c
        cases c <;> rfl
    · split
      · simp only [Memory.commit, Memory.set_blocks_self]
        rfl
      · split
        · rfl
        · simp only [Memory.commit]
          generalize select dc ic access.accesstype = c
          cases c <;> rfl

theorem fully_associative_eq (N : Nat) (dc : cache) (dq : queue_ptr) (ic : cache)
    (iq : queue_ptr) (access : mem_access_t) (m : Memory) :
    fully_associative N dc dq ic iq access m =
      match fa_bank N (m.blocks (select dc ic access.accesstype))
          (m.queue (select dq iq access.accesstype)) (access.address >>> 6) with
      | .error e => .error e
      | .ok r =>
        .ok (m.commit (select dc ic access.accesstype) (select dq iq access.accesstype) r) := by
  unfold fully_associative fa_bank
  simp only []
  split
  · rfl
  · simp [Memory.commit, Memory.set_blocks_self, Memory.set_queue_self]
  · split
    · split
      · rfl
      · split <;> simp [Memory.commit]
    · split
      · rfl
      · split
        · rfl
        · split
          · rfl
          · split <;> simp [Memory.commit]

/-! ## The scan loop -/

theorem load_ok_of_getElem? {α : Type} (buf : List α) (i : Nat) (x : α)
    (h : buf[i]? = some x) : load buf (i : Int) = .ok x := by
  simp [load, h]

theorem scan_hit (blocks : List block) (t : Nat) :
    ∀ (remaining i : Nat) (li : Int), i + remaining = blocks.length →
      (∃ k b, i ≤ k ∧ blocks[k]? = some b ∧ b.valid ≠ 0 ∧ b.tag = t) →
      scan blocks t remaining i li = .ok .hit := by
  intro remaining
  induction remaining with
  | zero =>
    intro i li hlen ⟨k, b, hik, hk, _, _⟩
    have := (List.getElem?_eq_some_iff.mp hk).1
    omega
  | succ r ih =>
    intro i li hlen ⟨k, b, hik, hk, hv, ht⟩
    have hi : i < blocks.length := by omega
    unfold scan
    rw [load_nat _ _ hi]
    simp only []
    by_cases hiv : (blocks.get ⟨i, hi⟩).valid ≠ 0
    · rw [if_pos hiv]
      by_cases hit : (blocks.get ⟨i, hi⟩).tag = t
      · rw [if_pos hit]
      · rw [if_neg hit]
        refine ih (i + 1) li (by omega) ⟨k, b, ?_, hk, hv, ht⟩
        rcases Nat.lt_or_ge i k with h | h
        · exact h
        · have hki : k = i := by omega
          subst hki
          rw [List.getElem?_eq_getElem hi] at hk
          injection hk with hk
          exact absurd (by simpa [hk] using ht) hit
    · rw [if_neg hiv]
      refine ih (i + 1) i (by omega) ⟨k, b, ?_, hk, hv, ht⟩
      rcases Nat.lt_or_ge i k with h | h
      · exact h
      · have hki : k = i := by omega
        subst hki
        rw [List.getElem?_eq_getElem hi] at hk
        injection hk with hk
        exact absurd (by simpa [hk] using hv) hiv

theorem scan_no_hit (blocks : List block) (t F : Nat)
    (hfree : ∀ k, k < F → ∃ b, blocks[k]? = some b ∧ b.valid = 0)
    (hused : ∀ k, F ≤ k → k < blocks.length →
      ∃ b, blocks[k]? = some b ∧ b.valid ≠ 0 ∧ b.tag ≠ t) :
    ∀ (remaining i : Nat) (li : Int), i + remaining = blocks.length →
      scan blocks t remaining i li
        = .ok (.no_hit (if i < F then ((F - 1 : Nat) : Int) else li)) := by
  intro remaining
  induction remaining with
  | zero =>
    intro i li hlen
    have hF : ¬ i < F := by
      intro h
      obtain ⟨b, hb, _⟩ := hfree i h
      have := (List.getElem?_eq_some_iff.mp hb).1
      omega
    simp [scan, hF]
  | succ r ih =>
    intro i li hlen
    have hi : i < blocks.length := by omega
    unfold scan
    by_cases hF : i < F
    · obtain ⟨b, hb, hv⟩ := hfree i hF
      rw [load_ok_of_getElem? _ _ _ hb]
      simp only [hv, ne_eq, not_true_eq_false, if_false]
      rw [ih (i + 1) i (by omega)]
      by_cases h1 : i + 1 < F
      · simp [h1, hF]
      · have : F - 1 = i := by omega
        simp [h1, hF, this]
    · obtain ⟨b, hb, hv, ht⟩ := hused i (by omega) hi
      rw [load_ok_of_getElem? _ _ _ hb]
      simp only [hv, ne_eq, not_false_eq_true, if_true, ht, if_false]
      rw [ih (i + 1) li (by omega)]
      have h1 : ¬ i + 1 < F := by omega
      simp [h1, hF]

/-! ## One fully-associative access under the invariant -/

theorem FAInv.slot_used {N : Nat} {blocks : List block} {q : block_queue} {L : List Nat}
    {h : Nat} (inv : FAInv N blocks q L h) (i : Nat) (hi : i < N) (hu : N ≤ i + L.length) :
    ∃ t, t ∈ L ∧ blocks[i]? = some ⟨1, t⟩ := by
  have hlt := inv.head_lt
  have hll := inv.len_list
  have hfill := inv.fill
  let j := if h ≤ N - 1 - i then N - 1 - i - h else N - 1 - i + N - h
  have hj : j < L.length := by
    show (if h ≤ N - 1 - i then N - 1 - i - h else N - 1 - i + N - h) < L.length
    split <;> omega
  have hp : ring_pos N h j = N - 1 - i := by
    show ring_pos N h (if h ≤ N - 1 - i then N - 1 - i - h else N - 1 - i + N - h) = N - 1 - i
    unfold ring_pos
    split <;> split <;> omega
  have hget : L[j]? = some (L.get ⟨j, hj⟩) := List.getElem?_eq_getElem hj
  have h2 := (inv.live j _ hget).2
  rw [hp] at h2
  have hi2 : N - 1 - (N - 1 - i) = i := by omega
  rw [hi2] at h2
  exact ⟨_, List.get_mem L j hj, h2⟩

theorem fa_bank_hit {N : Nat} {blocks : List block} {q : block_queue} {L : List Nat}
    {h : Nat} (inv : FAInv N blocks q L h) (t : Nat) (ht : t ∈ L) :
    fa_bank N blocks q t = .ok (blocks, q, true) := by
  obtain ⟨j, hj⟩ := List.mem_iff_getElem?.mp ht
  have hb := (inv.live j t hj).2
  have hs : scan blocks t N 0 (-1) = .ok .hit :=
    scan_hit blocks t N 0 (-1) (by rw [inv.len_blocks]; omega)
      ⟨_, _, Nat.zero_le _, hb, by simp, rfl⟩
  simp [fa_bank, hs]

theorem fa_bank_scan_miss {N : Nat} {blocks : List block} {q : block_queue} {L : List Nat}
    {h : Nat} (inv : FAInv N blocks q L h) (t : Nat) (ht : t ∉ L) :
    scan blocks t N 0 (-1)
      = .ok (.no_hit (if 0 < N - L.length then ((N - L.length - 1 : Nat) : Int) else -1)) := by
  have hlen := inv.len_blocks
  refine scan_no_hit blocks t (N - L.length) ?_ ?_ N 0 (-1) (by omega)
  · intro k hk
    exact inv.free k (by omega)
  · intro k hk1 hk2
    obtain ⟨u, hu, hb⟩ := inv.slot_used k (by omega) (by omega)
    refine ⟨_, hb, by simp, ?_⟩
    intro h
    exact ht (by simpa [← h] using hu)

theorem FAInv.tail_succ_of_fill {N : Nat} {blocks : List block} {q : block_queue}
    {L : List Nat} {h : Nat} (inv : FAInv N blocks q L h) (hlen : L.length < N) :
    q.tail + 1 = (L.length : Int) := by
  have h0 := inv.fill hlen
  have ht := inv.tail_eq
  by_cases hL : L = []
  · subst hL
    simp at ht
    simp [ht]
  · rw [if_neg hL] at ht
    have hpos : 0 < L.length := List.length_pos.mpr hL
    have hr : ring_pos N h (L.length - 1) = L.length - 1 := by
      unfold ring_pos
      split <;> omega
    rw [hr] at ht
    omega

theorem fa_bank_fill_eq {N : Nat} {blocks : List block} {q : block_queue} {L : List Nat}
    {h : Nat} (inv : FAInv N blocks q L h) (hN32 : N < 4294967296) (t : Nat) (ht : t ∉ L)
    (hlen : L.length < N) :
    fa_bank N blocks q t
      = .ok (blocks.set (N - L.length - 1) ⟨1, t⟩,
          ⟨q.block_indexes.set L.length ((N - L.length - 1 : Nat) : Int), 0,
            (L.length : Int)⟩, false) := by
  have hs := fa_bank_scan_miss inv t ht
  have hpos : 0 < N - L.length := by omega
  rw [if_pos hpos] at hs
  have htail := inv.tail_succ_of_fill hlen
  have hcond : ¬ q.tail % 4294967296 = ((N : Int) - 1) % 4294967296 := by omega
  have hhead : (if q.head = -1 then 0 else q.head) = 0 := by
    have h0 := inv.fill hlen
    have hh := inv.head_eq
    by_cases hL : L = []
    · simp [hh, hL]
    · simp [hh, hL, h0]
  have hgt : ((N - L.length - 1 : Nat) : Int) > -1 := by omega
  unfold fa_bank
  rw [hs]
  simp only []
  rw [if_pos hgt, store_nat _ _ (by rw [inv.len_blocks]; omega)]
  simp only [enqueue]
  rw [if_neg hcond, htail, store_nat _ _ (by rw [inv.len_queue]; omega), hhead]

theorem FAInv.fill_step {N : Nat} {blocks : List block} {q : block_queue} {L : List Nat}
    {h : Nat} (inv : FAInv N blocks q L h) (t : Nat) (hlen : L.length < N) :
    FAInv N (blocks.set (N - L.length - 1) ⟨1, t⟩)
      ⟨q.block_indexes.set L.length ((N - L.length - 1 : Nat) : Int), 0, (L.length : Int)⟩
      (L ++ [t]) 0 := by
  have h0 := inv.fill hlen
  subst h0
  have hlb := inv.len_blocks
  have hlq := inv.len_queue
  refine ⟨by simp [hlb], by simp [hlq], by simp; omega, by omega, fun _ => rfl, by simp, ?_,
    ?_, ?_⟩
  · have hr : ring_pos N 0 L.length = L.length := by
      unfold ring_pos
      split <;> omega
    simp [hr]
  · intro j u hj
    have hjl : j < (L ++ [t]).length := (List.getElem?_eq_some_iff.mp hj).1
    rw [List.length_append, List.length_singleton] at hjl
    have hr : ring_pos N 0 j = j := by
      unfold ring_pos
      split <;> omega
    rw [hr]
    by_cases hjL : j < L.length
    · rw [List.getElem?_append_left hjL] at hj
      have hold := inv.live j u hj
      rw [hr] at hold
      constructor
      · simp only []
        rw [List.getElem?_set_ne (by omega)]
        exact hold.1
      · rw [List.getElem?_set_ne (by omega)]
        exact hold.2
    · have hje : j = L.length := by omega
      subst hje
      rw [List.getElem?_append_right (le_refl _)] at hj
      simp at hj
      subst hj
      have e : N - 1 - L.length = N - L.length - 1 := by omega
      constructor
      · simp only []
        rw [List.getElem?_set_self (by omega), e]
      · rw [e, List.getElem?_set_self (by omega)]
  · intro i hi
    rw [List.length_append, List.length_singleton] at hi
    rw [List.getElem?_set_ne (by omega)]
    exact inv.free i (by omega)

theorem enqueue_eq (N : Nat) (hN : 1 ≤ N) (hN32 : N < 4294967296) (q : block_queue)
    (x : Int) (T : Nat) (hT : T ≤ N) (htail : q.tail = (T : Int) - 1)
    (hlen : q.block_indexes.length = N) :
    enqueue N q x
      = .ok ⟨q.block_indexes.set (if T = N then 0 else T) x,
          if q.head = -1 then 0 else q.head, ((if T = N then 0 else T : Nat) : Int)⟩ := by
  unfold enqueue
  by_cases hTN : T = N
  · have hc : q.tail % 4294967296 = ((N : Int) - 1) % 4294967296 := by
      rw [htail, hTN]
    rw [if_pos hc, if_pos hTN]
    have := store_nat q.block_indexes 0 (by omega) x
    simp only [Nat.cast_zero] at this
    rw [this]
    rfl
  · have hc : ¬ q.tail % 4294967296 = ((N : Int) - 1) % 4294967296 := by
      rw [htail]
      omega
    have e : q.tail + 1 = (T : Int) := by omega
    rw [if_neg hc, if_neg hTN, e, store_nat _ _ (by omega)]

theorem dequeue_eq (N : Nat) (hN32 : N < 4294967296) (q : block_queue) (H : Nat) (v : Int)
    (hH : H < N) (hhead : q.head = (H : Int)) (hv : q.block_indexes[H]? = some v) :
    dequeue N q
      = .ok (v, ⟨q.block_indexes, ((if H + 1 < N then H + 1 else 0 : Nat) : Int), q.tail⟩) := by
  unfold dequeue
  rw [hhead, load_ok_of_getElem? _ _ _ hv]
  simp only []
  by_cases hh : H + 1 < N
  · have hc : ¬ (H : Int) % 4294967296 = ((N : Int) - 1) % 4294967296 := by omega
    rw [if_neg hc, if_pos hh]
    simp
  · have hc : (H : Int) % 4294967296 = ((N : Int) - 1) % 4294967296 := by
      have : (H : Int) = (N : Int) - 1 := by omega
      rw [this]
    rw [if_pos hc, if_neg hh]
    simp

theorem fa_bank_replace_eq {N : Nat} {blocks : List block} {q : block_queue} {L : List Nat}
    {h : Nat} (inv : FAInv N blocks q L h) (hN : 1 ≤ N) (hN32 : N < 4294967296) (t : Nat)
    (ht : t ∉ L) (hlen : L.length = N) :
    fa_bank N blocks q t
      = .ok (blocks.set (N - 1 - h) ⟨1, t⟩,
          ⟨q.block_indexes.set h ((N - 1 - h : Nat) : Int),
            ((if h + 1 < N then h + 1 else 0 : Nat) : Int), (h : Int)⟩, false) := by
  have hs := fa_bank_scan_miss inv t ht
  have hpos : ¬ 0 < N - L.length := by omega
  rw [if_neg hpos] at hs
  have hlt := inv.head_lt
  have hL : L ≠ [] := by
    intro h0
    rw [h0] at hlen
    simp at hlen
    omega
  have hhead : q.head = (h : Int) := by
    have := inv.head_eq
    rwa [if_neg hL] at this
  have htail : q.tail = (ring_pos N h (N - 1) : Int) := by
    have := inv.tail_eq
    rwa [if_neg hL, hlen] at this
  have h0 : L[0]? = some (L.get ⟨0, by omega⟩) := List.getElem?_eq_getElem (by omega)
  have hr0 : ring_pos N h 0 = h := by
    unfold ring_pos
    split <;> omega
  have hlive := inv.live 0 _ h0
  rw [hr0] at hlive
  have hngt : ¬ (-1 : Int) > -1 := by omega
  have hT : ring_pos N h (N - 1) + 1 ≤ N ∧
      (if ring_pos N h (N - 1) + 1 = N then 0 else ring_pos N h (N - 1) + 1) = h := by
    unfold ring_pos
    split <;> split <;> omega
  have hq1 : (if ((if h + 1 < N then h + 1 else 0 : Nat) : Int) = -1 then (0 : Int)
      else ((if h + 1 < N then h + 1 else 0 : Nat) : Int))
      = ((if h + 1 < N then h + 1 else 0 : Nat) : Int) := by
    rw [if_neg (by omega)]
  unfold fa_bank
  rw [hs]
  simp only []
  rw [if_neg hngt, dequeue_eq N hN32 q h _ hlt hhead hlive.1]
  simp only []
  rw [load_ok_of_getElem? _ _ _ hlive.2]
  simp only []
  rw [store_nat _ _ (by rw [inv.len_blocks]; omega),
    enqueue_eq N hN hN32 _ _ (ring_pos N h (N - 1) + 1) hT.1 (by simp [htail])
      (by simp [inv.len_queue])]
  simp only [hT.2, hq1]

theorem FAInv.replace_step {N : Nat} {blocks : List block} {q : block_queue} {L : List Nat}
    {h : Nat} (inv : FAInv N blocks q L h) (hN : 1 ≤ N) (t : Nat) (hlen : L.length = N) :
    FAInv N (blocks.set (N - 1 - h) ⟨1, t⟩)
      ⟨q.block_indexes.set h ((N - 1 - h : Nat) : Int),
        ((if h + 1 < N then h + 1 else 0 : Nat) : Int), (h : Int)⟩
      (L.tail ++ [t]) (if h + 1 < N then h + 1 else 0) := by
  have hlt := inv.head_lt
  have hlb := inv.len_blocks
  have hlq := inv.len_queue
  have hlen2 : (L.tail ++ [t]).length = N := by
    rw [List.length_append, List.length_tail, List.length_singleton]
    omega
  have hne : L.tail ++ [t] ≠ [] := by simp
  refine ⟨by simp [hlb], by simp [hlq], by omega, by split <;> omega, fun hc => by omega,
    by rw [if_neg hne], ?_, ?_, fun i hi => by omega⟩
  · rw [if_neg hne, hlen2]
    have : ring_pos N (if h + 1 < N then h + 1 else 0) (N - 1) = h := by
      unfold ring_pos
      split <;> split <;> omega
    rw [this]
  · intro j u hj
    have hjl : j < (L.tail ++ [t]).length := (List.getElem?_eq_some_iff.mp hj).1
    rw [hlen2] at hjl
    by_cases hjL : j < N - 1
    · rw [List.getElem?_append_left (by rw [List.length_tail]; omega),
        List.getElem?_tail] at hj
      have hold := inv.live (j + 1) u hj
      have hr : ring_pos N h (j + 1) = ring_pos N (if h + 1 < N then h + 1 else 0) j := by
        unfold ring_pos
        split <;> split <;> split <;> omega
      have hneh : ring_pos N (if h + 1 < N then h + 1 else 0) j ≠ h := by
        unfold ring_pos
        split <;> split <;> omega
      have hlt2 : ring_pos N (if h + 1 < N then h + 1 else 0) j < N := by
        unfold ring_pos
        split <;> split <;> omega
      rw [hr] at hold
      constructor
      · simp only []
        rw [List.getElem?_set_ne (Ne.symm hneh)]
        exact hold.1
      · rw [List.getElem?_set_ne (by omega)]
        exact hold.2
    · have hje : j = N - 1 := by omega
      subst hje
      rw [List.getElem?_append_right (by rw [List.length_tail]; omega)] at hj
      rw [List.length_tail, hlen] at hj
      simp at hj
      subst hj
      have hr : ring_pos N (if h + 1 < N then h + 1 else 0) (N - 1) = h := by
        unfold ring_pos
        split <;> split <;> omega
      rw [hr]
      constructor
      · simp only []
        rw [List.getElem?_set_self (by omega)]
      · rw [List.getElem?_set_self (by omega)]

theorem fa_bank_step {N : Nat} {blocks : List block} {q : block_queue} {L : List Nat}
    {h : Nat} (inv : FAInv N blocks q L h) (hN : 1 ≤ N) (hN32 : N < 4294967296) (t : Nat) :
    ∃ bs q1 h1, fa_bank N blocks q t = .ok (bs, q1, (fifo_access N L t).1) ∧
      FAInv N bs q1 (fifo_access N L t).2 h1 := by
  unfold fifo_access
  by_cases ht : t ∈ L
  · rw [if_pos ht]
    exact ⟨blocks, q, h, fa_bank_hit inv t ht, inv⟩
  · rw [if_neg ht]
    by_cases hlen : L.length = N
    · rw [if_pos hlen]
      exact ⟨_, _, _, fa_bank_replace_eq inv hN hN32 t ht hlen, inv.replace_step hN t hlen⟩
    · rw [if_neg hlen]
      have hlt : L.length < N := lt_of_le_of_ne inv.len_list hlen
      exact ⟨_, _, _, fa_bank_fill_eq inv hN32 t ht hlt, inv.fill_step t hlt⟩

theorem FAInv.of_empty (N : Nat) (hN : 1 ≤ N) (blocks : List block) (q : block_queue)
    (hlen : blocks.length = N) (hfree : ∀ b ∈ blocks, b.valid = 0)
    (hq : q.block_indexes.length = N) (hhead : q.head = -1) (htail : q.tail = -1) :
    FAInv N blocks q [] 0 := by
  refine ⟨hlen, hq, by simp, by omega, fun _ => rfl, by simp [hhead], by simp [htail], ?_, ?_⟩
  · intro j t hj
    simp at hj
  · intro i hi
    simp at hi
    have hi2 : i < blocks.length := by omega
    exact ⟨_, List.getElem?_eq_getElem hi2, hfree _ (List.get_mem blocks i hi2)⟩

theorem FAInv.valid_tags {N : Nat} {blocks : List block} {q : block_queue} {L : List Nat}
    {h : Nat} (inv : FAInv N blocks q L h) (t : Nat) :
    (∃ b ∈ blocks, b.valid ≠ 0 ∧ b.tag = t) ↔ t ∈ L := by
  constructor
  · rintro ⟨b, hb, hv, ht⟩
    obtain ⟨i, hi⟩ := List.mem_iff_getElem?.mp hb
    have hil : i < blocks.length := (List.getElem?_eq_some_iff.mp hi).1
    rw [inv.len_blocks] at hil
    by_cases hf : i + L.length < N
    · obtain ⟨b2, hb2, hv2⟩ := inv.free i hf
      rw [hi] at hb2
      injection hb2 with hb2
      subst hb2
      exact absurd hv2 hv
    · obtain ⟨u, hu, hb2⟩ := inv.slot_used i hil (by omega)
      rw [hi] at hb2
      injection hb2 with hb2
      subst hb2
      subst ht
      exact hu
  · intro ht
    obtain ⟨j, hj⟩ := List.mem_iff_getElem?.mp ht
    have hb := (inv.live j t hj).2
    exact ⟨_, List.mem_iff_getElem?.mpr ⟨_, hb⟩, by simp, rfl⟩

theorem Memory.blocks_commit (m : Memory) (c : cache) (q : queue_ptr)
    (r : List block × block_queue × Bool) : (m.commit c q r).blocks c = r.1 := by
  unfold Memory.commit
  cases c <;> cases q <;> cases r.2.2 <;> rfl

theorem Memory.queue_commit (m : Memory) (c : cache) (q : queue_ptr)
    (r : List block × block_queue × Bool) : (m.commit c q r).queue q = r.2.1 := by
  unfold Memory.commit
  cases c <;> cases q <;> cases r.2.2 <;> rfl

theorem Memory.hits_commit (m : Memory) (c : cache) (q : queue_ptr)
    (r : List block × block_queue × Bool) :
    (m.commit c q r).cache_statistics.hits
      = m.cache_statistics.hits + (if r.2.2 then 1 else 0) := by
  unfold Memory.commit
  cases c <;> cases q <;> cases r.2.2 <;> rfl

theorem Memory.accesses_commit (m : Memory) (c : cache) (q : queue_ptr)
    (r : List block × block_queue × Bool) :
    (m.commit c q r).cache_statistics.accesses = m.cache_statistics.accesses := by
  unfold Memory.commit
  cases c <;> cases q <;> cases r.2.2 <;> rfl

/-- One `fully_associative` call on a memory whose selected bank and queue
satisfy the invariant: it returns, its outcome is the reference outcome, and
the invariant holds again for the reference list. -/
theorem fully_associative_step {N : Nat} (hN : 1 ≤ N) (hN32 : N < 4294967296)
    (dc : cache) (dq : queue_ptr) (ic : cache) (iq : queue_ptr) (access : mem_access_t)
    (m : Memory) (L : List Nat) (h : Nat)
    (inv : FAInv N (m.blocks (select dc ic access.accesstype))
      (m.queue (select dq iq access.accesstype)) L h) :
    ∃ m1 h1, fully_associative N dc dq ic iq access m = .ok m1 ∧
      FAInv N (m1.blocks (select dc ic access.accesstype))
        (m1.queue (select dq iq access.accesstype))
        (fifo_access N L (access.address >>> 6)).2 h1 ∧
      m1.cache_statistics.hits = m.cache_statistics.hits
        + (if (fifo_access N L (access.address >>> 6)).1 then 1 else 0) ∧
      m1.cache_statistics.accesses = m.cache_statistics.accesses := by
  obtain ⟨bs, q1, h1, heq, inv1⟩ := fa_bank_step inv hN hN32 (access.address >>> 6)
  refine ⟨m.commit (select dc ic access.accesstype) (select dq iq access.accesstype)
    (bs, q1, (fifo_access N L (access.address >>> 6)).1), h1, ?_, ?_, ?_, ?_⟩
  · rw [fully_associative_eq, heq]
  · rw [Memory.blocks_commit, Memory.queue_commit]
    exact inv1
  · rw [Memory.hits_commit]
  · rw [Memory.accesses_commit]

/-! ## Runs of `fully_associative` against the reference FIFO cache -/

theorem fa_run_inv {N : Nat} (hN : 1 ≤ N) (hN32 : N < 4294967296)
    (dc : cache) (dq : queue_ptr) (ic : cache) (iq : queue_ptr) (c : cache) (qp : queue_ptr) :
    ∀ (trace : List mem_access_t) (m : Memory) (L : List Nat) (h : Nat),
      (∀ a ∈ trace, select dc ic a.accesstype = c ∧ select dq iq a.accesstype = qp) →
      FAInv N (m.blocks c) (m.queue qp) L h →
      ∃ l, run_calls (fully_associative N dc dq ic iq) trace m = .ok l ∧
        List.Forall₂
          (fun (x : Bool × Memory) (y : Bool × List Nat) =>
            x.1 = y.1 ∧ ∃ h1, FAInv N (x.2.blocks c) (x.2.queue qp) y.2 h1)
          l (fifo_run N L (trace.map (fun a => a.address >>> 6))) := by
  intro trace
  induction trace with
  | nil =>
    intro m L h _ _
    exact ⟨[], rfl, List.Forall₂.nil⟩
  | cons a rest ih =>
    intro m L h hroute inv
    obtain ⟨hc, hq⟩ := hroute a (List.mem_cons_self _ _)
    rw [← hc, ← hq] at inv
    obtain ⟨m1, h1, hstep, inv1, hhits, _⟩ :=
      fully_associative_step hN hN32 dc dq ic iq a m L h inv
    rw [hc, hq] at inv1
    obtain ⟨l, hrun, hrel⟩ :=
      ih m1 _ h1 (fun x hx => hroute x (List.mem_cons_of_mem _ hx)) inv1
    refine ⟨(decide (m1.cache_statistics.hits ≠ m.cache_statistics.hits), m1) :: l,
      by simp only [run_calls, hstep, hrun], ?_⟩
    simp only [List.map_cons, fifo_run]
    refine List.Forall₂.cons ⟨?_, h1, inv1⟩ hrel
    rw [hhits]
    cases (fifo_access N L (a.address >>> 6)).1 <;> simp

/-- C2: for every block count `N ≥ 1` and every sequence of accesses routed to
one bank and queue, starting with every slot of that bank invalid and the
queue empty (`head = tail = -1`), the run of `fully_associative` calls returns,
the outcome of every call is the outcome of the reference FIFO cache of
capacity `N` on the block addresses `address >> 6`, and after every call the
tags held in valid slots are exactly the elements of the reference list. -/
theorem fully_associative_refines_fifo (N : Nat) (hN : 1 ≤ N) (hN32 : N < 4294967296)
    (dc : cache) (dq : queue_ptr) (ic : cache) (iq : queue_ptr) (c : cache) (qp : queue_ptr)
    (trace : List mem_access_t) (m : Memory)
    (hroute : ∀ a ∈ trace, select dc ic a.accesstype = c ∧ select dq iq a.accesstype = qp)
    (hlen : (m.blocks c).length = N) (hempty : ∀ b ∈ m.blocks c, b.valid = 0)
    (hqlen : (m.queue qp).block_indexes.length = N)
    (hhead : (m.queue qp).head = -1) (htail : (m.queue qp).tail = -1) :
    ∃ l, run_calls (fully_associative N dc dq ic iq) trace m = .ok l ∧
      List.Forall₂
        (fun (x : Bool × Memory) (y : Bool × List Nat) =>
          x.1 = y.1 ∧ ∀ t, (∃ b ∈ x.2.blocks c, b.valid ≠ 0 ∧ b.tag = t) ↔ t ∈ y.2)
        l (fifo_run N [] (trace.map (fun a => a.address >>> 6))) := by
  obtain ⟨l, hrun, hrel⟩ := fa_run_inv hN hN32 dc dq ic iq c qp trace m [] 0 hroute
    (FAInv.of_empty N hN _ _ hlen hempty hqlen hhead htail)
  refine ⟨l, hrun, hrel.imp ?_⟩
  rintro x y ⟨ho, h1, inv⟩
  exact ⟨ho, fun t => inv.valid_tags t⟩

theorem fully_associative_refines_fifo_witness :
    (1 ≤ 2 ∧ 2 < 4294967296 ∧ (sample_memory.blocks cache.data_blocks).length = 2 ∧
      (∀ b ∈ sample_memory.blocks cache.data_blocks, b.valid = 0) ∧
      (sample_memory.queue queue_ptr.queue_data).head = -1) ∧
    ∃ l, run_calls
        (fully_associative 2 cache.data_blocks queue_ptr.queue_data cache.data_blocks
          queue_ptr.queue_data)
        [⟨0, access_t.data⟩, ⟨64, access_t.instruction⟩, ⟨0, access_t.data⟩,
          ⟨128, access_t.data⟩] sample_memory = .ok l ∧
      List.Forall₂
        (fun (x : Bool × Memory) (y : Bool × List Nat) =>
          x.1 = y.1 ∧
          ∀ t, (∃ b ∈ x.2.blocks cache.data_blocks, b.valid ≠ 0 ∧ b.tag = t) ↔ t ∈ y.2)
        l (fifo_run 2 [] ([(⟨0, access_t.data⟩ : mem_access_t), ⟨64, access_t.instruction⟩,
          ⟨0, access_t.data⟩, ⟨128, access_t.data⟩].map (fun a => a.address >>> 6))) :=
  ⟨⟨by decide, by decide, rfl, by decide, rfl⟩,
    fully_associative_refines_fifo 2 (by decide) (by decide) cache.data_blocks
      queue_ptr.queue_data cache.data_blocks queue_ptr.queue_data cache.data_blocks
      queue_ptr.queue_data
      [⟨0, access_t.data⟩, ⟨64, access_t.instruction⟩, ⟨0, access_t.data⟩,
        ⟨128, access_t.data⟩] sample_memory
      (by decide) rfl (by decide) rfl rfl rfl⟩

/-! ## Direct-mapped bank lemmas -/

theorem dm_index_lt (N x : Nat) (hN : 1 ≤ N) : x &&& (N - 1) < N := by
  have := @Nat.and_le_right x (N - 1)
  omega

theorem dm_bank_eq (N : Nat) (hN : 1 ≤ N) (hN32 : N < 4294967296) (blocks : List block)
    (a : Nat) (b : block) (hb : blocks[(a >>> 6) &&& (N - 1)]? = some b) :
    dm_bank N blocks a
      = .ok (if b.valid = 0 then
            (blocks.set ((a >>> 6) &&& (N - 1)) ⟨1, (a >>> 6) &&& (4294967295 - (N - 1))⟩, false)
          else if b.tag = (a >>> 6) &&& (4294967295 - (N - 1)) then (blocks, true)
          else
            (blocks.set ((a >>> 6) &&& (N - 1))
              ⟨b.valid, (a >>> 6) &&& (4294967295 - (N - 1))⟩, false)) := by
  have hidx : (a >>> 6) &&& (N - 1) < blocks.length := (List.getElem?_eq_some_iff.mp hb).1
  unfold dm_bank
  simp only [sub32_one N hN hN32, not32_of_lt (N - 1) (by omega),
    load_ok_of_getElem? _ _ _ hb, store_nat _ _ hidx]
  split
  · rfl
  · split <;> rfl

theorem dm_bank_after (N : Nat) (hN : 1 ≤ N) (hN32 : N < 4294967296) (blocks : List block)
    (a : Nat) (hlen : blocks.length = N) :
    ∃ bs o v, dm_bank N blocks a = .ok (bs, o) ∧ bs.length = N ∧ v ≠ 0 ∧
      bs[(a >>> 6) &&& (N - 1)]? = some ⟨v, (a >>> 6) &&& (4294967295 - (N - 1))⟩ := by
  have hidx : (a >>> 6) &&& (N - 1) < blocks.length := by
    rw [hlen]
    exact dm_index_lt N _ hN
  have hb := List.getElem?_eq_getElem hidx
  rw [dm_bank_eq N hN hN32 blocks a _ hb]
  by_cases hv : (blocks[(a >>> 6) &&& (N - 1)]).valid = 0
  · rw [if_pos hv]
    exact ⟨_, _, 1, rfl, by simp [hlen], by decide, List.getElem?_set_self hidx⟩
  · rw [if_neg hv]
    by_cases ht : (blocks[(a >>> 6) &&& (N - 1)]).tag = (a >>> 6) &&& (4294967295 - (N - 1))
    · rw [if_pos ht]
      refine ⟨_, _, _, rfl, hlen, hv, ?_⟩
      rw [hb, ← ht]
    · rw [if_neg ht]
      exact ⟨_, _, _, rfl, by simp [hlen], hv, List.getElem?_set_self hidx⟩

theorem dm_bank_second (N : Nat) (hN : 1 ≤ N) (hN32 : N < 4294967296) (blocks : List block)
    (a : Nat) (v : Int) (u : Nat) (hv : v ≠ 0)
    (hb : blocks[(a >>> 6) &&& (N - 1)]? = some ⟨v, u⟩) :
    dm_bank N blocks a
      = .ok (if u = (a >>> 6) &&& (4294967295 - (N - 1)) then (blocks, true)
          else
            (blocks.set ((a >>> 6) &&& (N - 1)) ⟨v, (a >>> 6) &&& (4294967295 - (N - 1))⟩,
              false)) := by
  rw [dm_bank_eq N hN hN32 blocks a _ hb]
  simp only [hv, if_false]

theorem direct_mapped_first (N : Nat) (hN : 1 ≤ N) (hN32 : N < 4294967296) (dc ic : cache)
    (access : mem_access_t) (m : Memory)
    (hlen : (m.blocks (select dc ic access.accesstype)).length = N) :
    ∃ m1 v, direct_mapped N dc ic access m = .ok m1 ∧
      (m1.blocks (select dc ic access.accesstype)).length = N ∧ v ≠ 0 ∧
      (m1.blocks (select dc ic access.accesstype))[(access.address >>> 6) &&& (N - 1)]?
        = some ⟨v, (access.address >>> 6) &&& (4294967295 - (N - 1))⟩ ∧
      ((∀ b ∈ m.blocks (select dc ic access.accesstype), b.valid = 0) →
        m1.cache_statistics.hits = m.cache_statistics.hits) := by
  have hidx : (access.address >>> 6) &&& (N - 1)
      < (m.blocks (select dc ic access.accesstype)).length := by
    rw [hlen]
    exact dm_index_lt N _ hN
  obtain ⟨bs, o, v, hbank, hl, hv, hslot⟩ := dm_bank_after N hN hN32 _ access.address hlen
  refine ⟨_, v, by rw [direct_mapped_eq, hbank], ?_, hv, ?_, ?_⟩
  · rw [Memory.blocks_commit]
    exact hl
  · rw [Memory.blocks_commit]
    exact hslot
  · intro hempty
    have hb := List.getElem?_eq_getElem hidx
    have hz := hempty _ (List.getElem_mem hidx)
    rw [dm_bank_eq N hN hN32 _ _ _ hb, if_pos hz] at hbank
    injection hbank with hbank
    injection hbank with _ ho
    rw [Memory.hits_commit]
    simp [← ho]

theorem direct_mapped_second (N : Nat) (hN : 1 ≤ N) (hN32 : N < 4294967296) (dc ic : cache)
    (access : mem_access_t) (m : Memory) (v : Int) (u : Nat) (hv : v ≠ 0)
    (hb : (m.blocks (select dc ic access.accesstype))[(access.address >>> 6) &&& (N - 1)]?
      = some ⟨v, u⟩) :
    ∃ m1, direct_mapped N dc ic access m = .ok m1 ∧
      (m1.blocks (select dc ic access.accesstype)).length
        = (m.blocks (select dc ic access.accesstype)).length ∧
      (m1.blocks (select dc ic access.accesstype))[(access.address >>> 6) &&& (N - 1)]?
        = some ⟨v, (access.address >>> 6) &&& (4294967295 - (N - 1))⟩ ∧
      m1.cache_statistics.hits = m.cache_statistics.hits
        + (if u = (access.address >>> 6) &&& (4294967295 - (N - 1)) then 1 else 0) := by
  have hidx := (List.getElem?_eq_some_iff.mp hb).1
  refine ⟨_, by rw [direct_mapped_eq, dm_bank_second N hN hN32 _ _ v u hv hb], ?_, ?_, ?_⟩
  · rw [Memory.blocks_commit]
    split <;> simp
  · rw [Memory.blocks_commit]
    split
    · rename_i h
      simp only []
      rw [hb, h]
    · exact List.getElem?_set_self hidx
  · rw [Memory.hits_commit]
    split <;> simp

/-- C9: two back-to-back `direct_mapped` accesses to the same address with the
same access kind both return, and the second is a hit (`hits` grows by
exactly 1) from every state of a bank of `N ≥ 1` slots; when the bank starts
with every slot invalid, the first is a miss (`hits` unchanged). -/
theorem direct_mapped_reaccess (N : Nat) (hN : 1 ≤ N) (hN32 : N < 4294967296)
    (dc ic : cache) (access : mem_access_t) (m : Memory)
    (hlen : (m.blocks (select dc ic access.accesstype)).length = N) :
    ∃ m1 m2, direct_mapped N dc ic access m = .ok m1 ∧
      direct_mapped N dc ic access m1 = .ok m2 ∧
      m2.cache_statistics.hits = m1.cache_statistics.hits + 1 ∧
      ((∀ b ∈ m.blocks (select dc ic access.accesstype), b.valid = 0) →
        m1.cache_statistics.hits = m.cache_statistics.hits) := by
  obtain ⟨m1, v, h1, _, hv, hslot, hmiss⟩ := direct_mapped_first N hN hN32 dc ic access m hlen
  obtain ⟨m2, h2, _, _, hhit⟩ := direct_mapped_second N hN hN32 dc ic access m1 v _ hv hslot
  refine ⟨m1, m2, h1, h2, ?_, hmiss⟩
  rw [hhit, if_pos rfl]

theorem direct_mapped_reaccess_witness :
    (1 ≤ 2 ∧ 2 < 4294967296 ∧ (sample_memory.blocks cache.data_blocks).length = 2) ∧
    ∃ m1 m2, direct_mapped 2 cache.data_blocks cache.instruction_blocks ⟨64, access_t.data⟩ sample_memory = .ok m1 ∧
      direct_mapped 2 cache.data_blocks cache.instruction_blocks ⟨64, access_t.data⟩ m1 = .ok m2 ∧
      m2.cache_statistics.hits = m1.cache_statistics.hits + 1 ∧
      ((∀ b ∈ sample_memory.blocks cache.data_blocks, b.valid = 0) →
        m1.cache_statistics.hits = sample_memory.cache_statistics.hits) :=
  ⟨⟨by decide, by decide, rfl⟩,
    direct_mapped_reaccess 2 (by decide) (by decide) cache.data_blocks
      cache.instruction_blocks ⟨64, access_t.data⟩ sample_memory rfl⟩

theorem dm_alternating_misses (N : Nat) (hN : 1 ≤ N) (hN32 : N < 4294967296) (dc ic : cache) :
    ∀ (n : Nat) (a b : mem_access_t) (m : Memory) (v : Int),
      select dc ic a.accesstype = select dc ic b.accesstype →
      (a.address >>> 6) &&& (N - 1) = (b.address >>> 6) &&& (N - 1) →
      (a.address >>> 6) &&& (4294967295 - (N - 1))
        ≠ (b.address >>> 6) &&& (4294967295 - (N - 1)) →
      v ≠ 0 →
      (m.blocks (select dc ic a.accesstype))[(a.address >>> 6) &&& (N - 1)]?
        = some ⟨v, (b.address >>> 6) &&& (4294967295 - (N - 1))⟩ →
      ∃ l, run_calls (direct_mapped N dc ic) (alternating a b n) m = .ok l ∧
        l.length = n ∧ ∀ x ∈ l, x.1 = false := by
  intro n
  induction n with
  | zero =>
    intro a b m v _ _ _ _ _
    exact ⟨[], rfl, rfl, by simp⟩
  | succ k ih =>
    intro a b m v hbank hidx htag hv hslot
    obtain ⟨m1, h1, _, hslot1, hhits⟩ :=
      direct_mapped_second N hN hN32 dc ic a m v _ hv hslot
    rw [if_neg (Ne.symm htag)] at hhits
    rw [hbank, hidx] at hslot1
    obtain ⟨l, hrun, hl, hall⟩ := ih b a m1 v hbank.symm hidx.symm (Ne.symm htag) hv hslot1
    refine ⟨(decide (m1.cache_statistics.hits ≠ m.cache_statistics.hits), m1) :: l,
      by simp only [alternating, run_calls, h1, hrun], by simp [hl], ?_⟩
    intro x hx
    rcases List.mem_cons.mp hx with hx | hx
    · subst hx
      simp [hhits]
    · exact hall x hx

/-- C8: for a bank of `N ≥ 1` slots in any state and two accesses `a`, `b`
routed to the same bank whose addresses have the same index
`(address >> 6) & (N-1)` but different tags `(address >> 6) & ~(N-1)`: the
calls for `a` then `b` both return and the second is a miss, likewise for `b`
then `a`; and the alternating sequence `a, b, a, b, ...` of any length returns
with no hit after its first access. -/
theorem direct_mapped_conflict (N : Nat) (hN : 1 ≤ N) (hN32 : N < 4294967296)
    (dc ic : cache) (a b : mem_access_t) (m : Memory)
    (hlen : (m.blocks (select dc ic a.accesstype)).length = N)
    (hbank : select dc ic a.accesstype = select dc ic b.accesstype)
    (hidx : (a.address >>> 6) &&& (N - 1) = (b.address >>> 6) &&& (N - 1))
    (htag : (a.address >>> 6) &&& (4294967295 - (N - 1))
      ≠ (b.address >>> 6) &&& (4294967295 - (N - 1))) :
    (∃ m1 m2, direct_mapped N dc ic a m = .ok m1 ∧ direct_mapped N dc ic b m1 = .ok m2 ∧
      m2.cache_statistics.hits = m1.cache_statistics.hits) ∧
    (∃ m1 m2, direct_mapped N dc ic b m = .ok m1 ∧ direct_mapped N dc ic a m1 = .ok m2 ∧
      m2.cache_statistics.hits = m1.cache_statistics.hits) ∧
    (∀ n, ∃ l, run_calls (direct_mapped N dc ic) (alternating a b n) m = .ok l ∧
      l.length = n ∧ ∀ x ∈ l.tail, x.1 = false) := by
  refine ⟨?_, ?_, ?_⟩
  · obtain ⟨m1, v, h1, _, hv, hslot, _⟩ := direct_mapped_first N hN hN32 dc ic a m hlen
    rw [hbank, hidx] at hslot
    obtain ⟨m2, h2, _, _, hhits⟩ := direct_mapped_second N hN hN32 dc ic b m1 v _ hv hslot
    rw [if_neg htag] at hhits
    exact ⟨m1, m2, h1, h2, by simpa using hhits⟩
  · obtain ⟨m1, v, h1, _, hv, hslot, _⟩ :=
      direct_mapped_first N hN hN32 dc ic b m (by rw [← hbank]; exact hlen)
    rw [← hbank, ← hidx] at hslot
    obtain ⟨m2, h2, _, _, hhits⟩ := direct_mapped_second N hN hN32 dc ic a m1 v _ hv hslot
    rw [if_neg (Ne.symm htag)] at hhits
    exact ⟨m1, m2, h1, h2, by simpa using hhits⟩
  · intro n
    cases n with
    | zero => exact ⟨[], rfl, rfl, by simp⟩
    | succ k =>
      obtain ⟨m1, v, h1, _, hv, hslot, _⟩ := direct_mapped_first N hN hN32 dc ic a m hlen
      rw [hbank, hidx] at hslot
      obtain ⟨l, hrun, hl, hall⟩ := dm_alternating_misses N hN hN32 dc ic k b a m1 v
        hbank.symm hidx.symm (Ne.symm htag) hv hslot
      exact ⟨(decide (m1.cache_statistics.hits ≠ m.cache_statistics.hits), m1) :: l,
        by simp only [alternating, run_calls, h1, hrun], by simp [hl], by simpa using hall⟩

theorem direct_mapped_conflict_witness :
    (1 ≤ 2 ∧ 2 < 4294967296 ∧
      (0 >>> 6) &&& (2 - 1) = (128 >>> 6) &&& (2 - 1) ∧
      (0 >>> 6) &&& (4294967295 - (2 - 1)) ≠ (128 >>> 6) &&& (4294967295 - (2 - 1))) ∧
    ((∃ m1 m2, direct_mapped 2 cache.data_blocks cache.instruction_blocks ⟨0, access_t.data⟩ sample_memory = .ok m1 ∧
      direct_mapped 2 cache.data_blocks cache.instruction_blocks ⟨128, access_t.data⟩ m1 = .ok m2 ∧
      m2.cache_statistics.hits = m1.cache_statistics.hits) ∧
    (∃ m1 m2, direct_mapped 2 cache.data_blocks cache.instruction_blocks ⟨128, access_t.data⟩ sample_memory = .ok m1 ∧
      direct_mapped 2 cache.data_blocks cache.instruction_blocks ⟨0, access_t.data⟩ m1 = .ok m2 ∧
      m2.cache_statistics.hits = m1.cache_statistics.hits) ∧
    (∀ n, ∃ l, run_calls (direct_mapped 2 cache.data_blocks cache.instruction_blocks)
        (alternating ⟨0, access_t.data⟩ ⟨128, access_t.data⟩ n) sample_memory = .ok l ∧
      l.length = n ∧ ∀ x ∈ l.tail, x.1 = false)) :=
  ⟨⟨by decide, by decide, by decide, by decide⟩,
    direct_mapped_conflict 2 (by decide) (by decide) cache.data_blocks
      cache.instruction_blocks ⟨0, access_t.data⟩ ⟨128, access_t.data⟩ sample_memory rfl rfl
      (by decide) (by decide)⟩

/-! ## The replay loop at a record with address 0 -/

/-- C3: on the well-formed one-record trace `D 0` the replay loop hands
nothing to the cache: `main` ends with `accesses = 0` although the trace has
one record, because the record's address equals the end-of-input marker. -/
theorem main_drops_zero_address_record :
    main 128 cache_map_t.dm cache_org_t.uc (fun _ => 0) (fun _ => 0) [('D', 0)]
      = .ok ⟨0, 0⟩ ∧
    [('D', 0)].length = 1 ∧ block_count 128 cache_org_t.uc = 2 := by
  decide

/-- C5: Scenario A on the code: with direct-mapped mapping, unified
organisation and cache size 128 the trace `D 0x0`, `D 0x40`, `D 0x0` ends with
`accesses = 0` and `hits = 0`, the loop stopping at the first record; handed
straight to `direct_mapped`, the same three accesses give one hit. -/
theorem scenarioA_on_code :
    main 128 cache_map_t.dm cache_org_t.uc (fun _ => 0) (fun _ => 0)
        [('D', 0x0), ('D', 0x40), ('D', 0x0)] = .ok ⟨0, 0⟩ ∧
    (run_calls (direct_mapped 2 cache.data_blocks cache.data_blocks)
        [⟨0x0, access_t.data⟩, ⟨0x40, access_t.data⟩, ⟨0x0, access_t.data⟩]
        sample_memory).map (fun l => l.map (fun x => x.1))
      = .ok [false, false, true] := by
  decide

/-! ## Scenario B -/

/-- C6: Scenario B: from the empty unified fully-associative bank with two
slots and the empty queue, the data accesses `0x0`, `0x40`, `0x80` handed to
`fully_associative` are three misses (`hits` stays 0); after the first two both
slots are valid, slot 1 holding block address 0 and slot 0 block address 1; the
third overwrites slot 1, which held block address 0, and leaves block
addresses 1 and 2 resident.  The contents of the `malloc`ed queue cells do not
matter. -/
theorem scenarioB_fully_associative (g1 g2 : Nat → Int) :
    run_calls
        (fully_associative 2 cache.data_blocks queue_ptr.queue_data cache.data_blocks
          queue_ptr.queue_data)
        [⟨0x0, access_t.data⟩, ⟨0x40, access_t.data⟩, ⟨0x80, access_t.data⟩]
        (init_memory 2 g1 g2)
      = .ok [
          (false,
            { data_blocks := [⟨0, 0⟩, ⟨1, 0⟩]
              instruction_blocks := [⟨0, 0⟩, ⟨0, 0⟩]
              queue_data := ⟨[1, g1 1], 0, 0⟩
              queue_instructions := ⟨[g2 0, g2 1], -1, -1⟩
              cache_statistics := ⟨0, 0⟩ }),
          (false,
            { data_blocks := [⟨1, 1⟩, ⟨1, 0⟩]
              instruction_blocks := [⟨0, 0⟩, ⟨0, 0⟩]
              queue_data := ⟨[1, 0], 0, 1⟩
              queue_instructions := ⟨[g2 0, g2 1], -1, -1⟩
              cache_statistics := ⟨0, 0⟩ }),
          (false,
            { data_blocks := [⟨1, 1⟩, ⟨1, 2⟩]
              instruction_blocks := [⟨0, 0⟩, ⟨0, 0⟩]
              queue_data := ⟨[1, 0], 1, 0⟩
              queue_instructions := ⟨[g2 0, g2 1], -1, -1⟩
              cache_statistics := ⟨0, 0⟩ })] := by
  rfl

/-! ## The dispatch of `main` and the statistics counters -/

theorem Memory.blocks_commit_ne (m : Memory) (c c1 : cache) (q : queue_ptr)
    (r : List block × block_queue × Bool) (h : c1 ≠ c) :
    (m.commit c q r).blocks c1 = m.blocks c1 := by
  unfold Memory.commit
  cases c <;> cases c1 <;> cases q <;> cases r.2.2 <;> first | rfl | exact absurd rfl h

theorem Memory.queue_commit_ne (m : Memory) (c : cache) (q q1 : queue_ptr)
    (r : List block × block_queue × Bool) (h : q1 ≠ q) :
    (m.commit c q r).queue q1 = m.queue q1 := by
  unfold Memory.commit
  cases c <;> cases q <;> cases q1 <;> cases r.2.2 <;> first | rfl | exact absurd rfl h

theorem cache_access_fa (N : Nat) (cache_org : cache_org_t) (access : mem_access_t)
    (m : Memory) :
    cache_access N cache_map_t.fa cache_org access m =
      match fa_bank N (m.blocks (bank_of cache_org access.accesstype))
          (m.queue (queue_of cache_org access.accesstype)) (access.address >>> 6) with
      | .error e => .error e
      | .ok r =>
        .ok (m.add_access.commit (bank_of cache_org access.accesstype)
          (queue_of cache_org access.accesstype) r) := by
  cases cache_org <;>
    · simp only [cache_access, fully_associative_eq, bank_of, queue_of]
      rfl

theorem cache_access_dm (N : Nat) (cache_org : cache_org_t) (access : mem_access_t)
    (m : Memory) :
    cache_access N cache_map_t.dm cache_org access m =
      match dm_bank N (m.blocks (bank_of cache_org access.accesstype)) access.address with
      | .error e => .error e
      | .ok r =>
        .ok (m.add_access.commit (bank_of cache_org access.accesstype) queue_ptr.queue_data
          (r.1, m.queue_data, r.2)) := by
  cases cache_org <;>
    · simp only [cache_access, direct_mapped_eq, bank_of]
      rfl

theorem cache_access_counts (N : Nat) (cache_mapping : cache_map_t) (cache_org : cache_org_t)
    (access : mem_access_t) (m m1 : Memory)
    (h : cache_access N cache_mapping cache_org access m = .ok m1) :
    m1.cache_statistics.accesses = m.cache_statistics.accesses + 1 ∧
    (m1.cache_statistics.hits = m.cache_statistics.hits ∨
      m1.cache_statistics.hits = m.cache_statistics.hits + 1) := by
  cases cache_mapping with
  | fa =>
    rw [cache_access_fa] at h
    split at h
    · cases h
    · injection h with h
      subst h
      rw [Memory.accesses_commit, Memory.hits_commit]
      refine ⟨rfl, ?_⟩
      split
      · exact Or.inr rfl
      · exact Or.inl rfl
  | dm =>
    rw [cache_access_dm] at h
    split at h
    · cases h
    · injection h with h
      subst h
      rw [Memory.accesses_commit, Memory.hits_commit]
      refine ⟨rfl, ?_⟩
      split
      · exact Or.inr rfl
      · exact Or.inl rfl

theorem route_pair (cache_org : cache_org_t) (kind : access_t) :
    (bank_of cache_org kind = cache.data_blocks ∧
      queue_of cache_org kind = queue_ptr.queue_data) ∨
    (bank_of cache_org kind = cache.instruction_blocks ∧
      queue_of cache_org kind = queue_ptr.queue_instructions) := by
  cases cache_org <;> cases kind <;> simp [bank_of, queue_of, select]

theorem Memory.commit_data_blocks (m : Memory) (c : cache) (q : queue_ptr)
    (r : List block × block_queue × Bool) :
    (m.commit c q r).data_blocks
      = match c with
        | .data_blocks => r.1
        | .instruction_blocks => m.data_blocks := by
  unfold Memory.commit
  cases c <;> cases q <;> cases r.2.2 <;> rfl

theorem Memory.commit_instruction_blocks (m : Memory) (c : cache) (q : queue_ptr)
    (r : List block × block_queue × Bool) :
    (m.commit c q r).instruction_blocks
      = match c with
        | .data_blocks => m.instruction_blocks
        | .instruction_blocks => r.1 := by
  unfold Memory.commit
  cases c <;> cases q <;> cases r.2.2 <;> rfl

theorem Memory.commit_queue_data (m : Memory) (c : cache) (q : queue_ptr)
    (r : List block × block_queue × Bool) :
    (m.commit c q r).queue_data
      = match q with
        | .queue_data => r.2.1
        | .queue_instructions => m.queue_data := by
  unfold Memory.commit
  cases c <;> cases q <;> cases r.2.2 <;> rfl

theorem Memory.commit_queue_instructions (m : Memory) (c : cache) (q : queue_ptr)
    (r : List block × block_queue × Bool) :
    (m.commit c q r).queue_instructions
      = match q with
        | .queue_data => m.queue_instructions
        | .queue_instructions => r.2.1 := by
  unfold Memory.commit
  cases c <;> cases q <;> cases r.2.2 <;> rfl

theorem cache_access_ready (N : Nat) (hN : 1 ≤ N) (hN32 : N < 4294967296)
    (cache_mapping : cache_map_t) (cache_org : cache_org_t) (access : mem_access_t)
    (m : Memory) (hr : Ready N cache_mapping m) :
    ∃ m1, cache_access N cache_mapping cache_org access m = .ok m1 ∧
      Ready N cache_mapping m1 := by
  cases cache_mapping with
  | dm =>
    obtain ⟨hd, hi⟩ := hr
    have hlen : (m.blocks (bank_of cache_org access.accesstype)).length = N := by
      cases bank_of cache_org access.accesstype
      · exact hd
      · exact hi
    obtain ⟨bs, o, v, hbank, hl, _, _⟩ := dm_bank_after N hN hN32 _ access.address hlen
    refine ⟨_, by rw [cache_access_dm, hbank], ?_⟩
    generalize bank_of cache_org access.accesstype = c
    show _ ∧ _
    rw [Memory.commit_data_blocks, Memory.commit_instruction_blocks]
    cases c
    · exact ⟨hl, hi⟩
    · exact ⟨hd, hl⟩
  | fa =>
    obtain ⟨⟨Ld, hd, invd⟩, ⟨Li, hi, invi⟩⟩ := hr
    rcases route_pair cache_org access.accesstype with ⟨hc, hq⟩ | ⟨hc, hq⟩
    · obtain ⟨bs, q1, h1, heq, inv1⟩ := fa_bank_step invd hN hN32 (access.address >>> 6)
      refine ⟨m.add_access.commit cache.data_blocks queue_ptr.queue_data
        (bs, q1, (fifo_access N Ld (access.address >>> 6)).1), ?_, ?_⟩
      · rw [cache_access_fa, hc, hq]
        simp only [Memory.blocks, Memory.queue]
        rw [heq]
      · show _ ∧ _
        rw [Memory.commit_data_blocks, Memory.commit_instruction_blocks,
          Memory.commit_queue_data, Memory.commit_queue_instructions]
        exact ⟨⟨_, h1, inv1⟩, ⟨Li, hi, invi⟩⟩
    · obtain ⟨bs, q1, h1, heq, inv1⟩ := fa_bank_step invi hN hN32 (access.address >>> 6)
      refine ⟨m.add_access.commit cache.instruction_blocks queue_ptr.queue_instructions
        (bs, q1, (fifo_access N Li (access.address >>> 6)).1), ?_, ?_⟩
      · rw [cache_access_fa, hc, hq]
        simp only [Memory.blocks, Memory.queue]
        rw [heq]
      · show _ ∧ _
        rw [Memory.commit_data_blocks, Memory.commit_instruction_blocks,
          Memory.commit_queue_data, Memory.commit_queue_instructions]
        exact ⟨⟨Ld, hd, invd⟩, ⟨_, h1, inv1⟩⟩

theorem Ready.of_init_memory (N : Nat) (hN : 1 ≤ N) (cache_mapping : cache_map_t)
    (g1 g2 : Nat → Int) : Ready N cache_mapping (init_memory N g1 g2) := by
  have hfree : ∀ b ∈ List.replicate N (⟨0, 0⟩ : block), b.valid = 0 := by
    intro b hb
    rw [List.eq_of_mem_replicate hb]
  cases cache_mapping with
  | dm => exact ⟨by simp [init_memory], by simp [init_memory]⟩
  | fa =>
    exact ⟨⟨[], 0, FAInv.of_empty N hN _ _ (by simp [init_memory]) hfree
        (by simp [init_memory, empty_queue]) rfl rfl⟩,
      ⟨[], 0, FAInv.of_empty N hN _ _ (by simp [init_memory]) hfree
        (by simp [init_memory, empty_queue]) rfl rfl⟩⟩

theorem cache_access_run (N : Nat) (hN : 1 ≤ N) (hN32 : N < 4294967296)
    (cache_mapping : cache_map_t) (cache_org : cache_org_t) :
    ∀ (accs : List mem_access_t) (m : Memory), Ready N cache_mapping m →
      m.cache_statistics.hits ≤ m.cache_statistics.accesses →
      ∃ l, run_calls (cache_access N cache_mapping cache_org) accs m = .ok l ∧
        l.length = accs.length ∧
        ∀ x ∈ l, x.2.cache_statistics.hits ≤ x.2.cache_statistics.accesses := by
  intro accs
  induction accs with
  | nil =>
    intro m _ _
    exact ⟨[], rfl, rfl, by simp⟩
  | cons a rest ih =>
    intro m hr hle
    obtain ⟨m1, hstep, hr1⟩ := cache_access_ready N hN hN32 cache_mapping cache_org a m hr
    obtain ⟨hacc, hhit⟩ := cache_access_counts N cache_mapping cache_org a m m1 hstep
    have hle1 : m1.cache_statistics.hits ≤ m1.cache_statistics.accesses := by omega
    obtain ⟨l, hrun, hl, hall⟩ := ih m1 hr1 hle1
    refine ⟨(decide (m1.cache_statistics.hits ≠ m.cache_statistics.hits), m1) :: l,
      by simp only [run_calls, hstep, hrun], by simp [hl], ?_⟩
    intro x hx
    rcases List.mem_cons.mp hx with hx | hx
    · subst hx
      exact hle1
    · exact hall x hx

theorem main_loop_counts (N : Nat) (hN : 1 ≤ N) (hN32 : N < 4294967296)
    (cache_mapping : cache_map_t) (cache_org : cache_org_t) :
    ∀ (trace : List (Char × Nat)) (fuel : Nat) (m : Memory), trace.length < fuel →
      Ready N cache_mapping m →
      m.cache_statistics.hits ≤ m.cache_statistics.accesses →
      ((∃ r ∈ trace, r.1 ≠ 'I' ∧ r.1 ≠ 'D') ∧
        main_loop N cache_mapping cache_org fuel trace m = .error Fault.unknown_access_type) ∨
      ∃ m1, main_loop N cache_mapping cache_org fuel trace m = .ok m1 ∧
        m1.cache_statistics.hits ≤ m1.cache_statistics.accesses := by
  intro trace
  induction trace with
  | nil =>
    intro fuel m hf _ hle
    cases fuel with
    | zero => simp at hf
    | succ f => exact Or.inr ⟨m, by simp [main_loop, read_transaction], hle⟩
  | cons r rest ih =>
    intro fuel m hf hr hle
    cases fuel with
    | zero => simp at hf
    | succ f =>
      obtain ⟨ty, addr⟩ := r
      by_cases hty : ty ≠ 'I' ∧ ty ≠ 'D'
      · exact Or.inl ⟨⟨(ty, addr), List.mem_cons_self _ _, hty⟩,
          by simp only [main_loop, read_transaction]; rw [if_pos hty]⟩
      · by_cases h0 : addr = 0
        · exact Or.inr ⟨m, by simp [main_loop, read_transaction, hty, h0], hle⟩
        · obtain ⟨m1, hstep, hr1⟩ := cache_access_ready N hN hN32 cache_mapping cache_org
            ⟨addr, if ty = 'I' then access_t.instruction else access_t.data⟩ m hr
          obtain ⟨hacc, hhit⟩ := cache_access_counts N cache_mapping cache_org _ m m1 hstep
          have hstepped : main_loop N cache_mapping cache_org (f + 1) ((ty, addr) :: rest) m
              = main_loop N cache_mapping cache_org f rest m1 := by
            simp only [main_loop, read_transaction, hty, if_false, h0, hstep]
          rw [hstepped]
          rcases ih f m1 (by simp at hf; omega) hr1 (by omega) with ⟨⟨x, hx, hbad⟩, herr⟩ | hok
          · exact Or.inl ⟨⟨x, List.mem_cons_of_mem _ hx, hbad⟩, herr⟩
          · exact Or.inr hok

/-- C4: for both mappings, both organisations and every block count `N ≥ 1`
(a `uint32_t` value): every access handed to the cache that returns increases
`accesses` by exactly 1 and `hits` by 0 or 1; from zeroed statistics and empty
banks every sequence of accesses is served, with `hits ≤ accesses` after each
of them; on every trace `main` either leaves through `exit(0)` at a record
whose type is neither `I` nor `D`, or returns statistics with
`hits ≤ accesses`, and it returns them when all records are `I` or `D`. -/
theorem counters_invariant (N : Nat) (hN : 1 ≤ N) (hN32 : N < 4294967296)
    (cache_mapping : cache_map_t) (cache_org : cache_org_t) (g1 g2 : Nat → Int) :
    (∀ access m m1, cache_access N cache_mapping cache_org access m = .ok m1 →
      m1.cache_statistics.accesses = m.cache_statistics.accesses + 1 ∧
      (m1.cache_statistics.hits = m.cache_statistics.hits ∨
        m1.cache_statistics.hits = m.cache_statistics.hits + 1)) ∧
    (∀ accs : List mem_access_t,
      ∃ l, run_calls (cache_access N cache_mapping cache_org) accs (init_memory N g1 g2)
          = .ok l ∧
        l.length = accs.length ∧
        ∀ x ∈ l, x.2.cache_statistics.hits ≤ x.2.cache_statistics.accesses) ∧
    (∀ (cache_size : Nat) (trace : List (Char × Nat)),
      block_count cache_size cache_org = N →
      ((∃ r ∈ trace, r.1 ≠ 'I' ∧ r.1 ≠ 'D') ∧
        main cache_size cache_mapping cache_org g1 g2 trace
          = .error Fault.unknown_access_type) ∨
      ∃ stats, main cache_size cache_mapping cache_org g1 g2 trace = .ok stats ∧
        stats.hits ≤ stats.accesses) ∧
    (∀ (cache_size : Nat) (trace : List (Char × Nat)),
      block_count cache_size cache_org = N → (∀ r ∈ trace, r.1 = 'I' ∨ r.1 = 'D') →
      ∃ stats, main cache_size cache_mapping cache_org g1 g2 trace = .ok stats ∧
        stats.hits ≤ stats.accesses) := by
  have hmain : ∀ (cache_size : Nat) (trace : List (Char × Nat)),
      block_count cache_size cache_org = N →
      ((∃ r ∈ trace, r.1 ≠ 'I' ∧ r.1 ≠ 'D') ∧
        main cache_size cache_mapping cache_org g1 g2 trace
          = .error Fault.unknown_access_type) ∨
      ∃ stats, main cache_size cache_mapping cache_org g1 g2 trace = .ok stats ∧
        stats.hits ≤ stats.accesses := by
    intro cache_size trace hbc
    rcases main_loop_counts N hN hN32 cache_mapping cache_org trace
      (trace.length + 1) (init_memory N g1 g2) (Nat.lt_succ_self _)
      (Ready.of_init_memory N hN cache_mapping g1 g2) (Nat.le_refl _) with
      ⟨hbad, herr⟩ | ⟨m1, hrun, hle⟩
    · exact Or.inl ⟨hbad, by simp only [main, hbc, herr]⟩
    · exact Or.inr ⟨m1.cache_statistics, by simp only [main, hbc, hrun], hle⟩
  refine ⟨cache_access_counts N cache_mapping cache_org, ?_, hmain, ?_⟩
  · intro accs
    exact cache_access_run N hN hN32 cache_mapping cache_org accs _
      (Ready.of_init_memory N hN cache_mapping g1 g2) (Nat.le_refl _)
  · intro cache_size trace hbc hwf
    rcases hmain cache_size trace hbc with ⟨⟨r, hr, h1, h2⟩, _⟩ | hok
    · rcases hwf r hr with h | h
      · exact absurd h h1
      · exact absurd h h2
    · exact hok

theorem counters_invariant_witness :
    (1 ≤ 2 ∧ 2 < 4294967296) ∧
    ((∀ access m m1, cache_access 2 cache_map_t.fa cache_org_t.sc access m = .ok m1 →
      m1.cache_statistics.accesses = m.cache_statistics.accesses + 1 ∧
      (m1.cache_statistics.hits = m.cache_statistics.hits ∨
        m1.cache_statistics.hits = m.cache_statistics.hits + 1)) ∧
    (∀ accs : List mem_access_t,
      ∃ l, run_calls (cache_access 2 cache_map_t.fa cache_org_t.sc) accs sample_memory = .ok l ∧
        l.length = accs.length ∧
        ∀ x ∈ l, x.2.cache_statistics.hits ≤ x.2.cache_statistics.accesses) ∧
    (∀ (cache_size : Nat) (trace : List (Char × Nat)),
      block_count cache_size cache_org_t.sc = 2 →
      ((∃ r ∈ trace, r.1 ≠ 'I' ∧ r.1 ≠ 'D') ∧
        main cache_size cache_map_t.fa cache_org_t.sc (fun _ => 0) (fun _ => 0) trace
          = .error Fault.unknown_access_type) ∨
      ∃ stats, main cache_size cache_map_t.fa cache_org_t.sc (fun _ => 0) (fun _ => 0) trace
          = .ok stats ∧
        stats.hits ≤ stats.accesses) ∧
    (∀ (cache_size : Nat) (trace : List (Char × Nat)),
      block_count cache_size cache_org_t.sc = 2 → (∀ r ∈ trace, r.1 = 'I' ∨ r.1 = 'D') →
      ∃ stats, main cache_size cache_map_t.fa cache_org_t.sc (fun _ => 0) (fun _ => 0) trace
          = .ok stats ∧
        stats.hits ≤ stats.accesses)) :=
  ⟨⟨by decide, by decide⟩,
    counters_invariant 2 (by decide) (by decide) cache_map_t.fa cache_org_t.sc
      (fun _ => 0) (fun _ => 0)⟩

/-! ## Split organisation: the two halves do not interact -/

theorem bank_of_sc_ne (k k1 : access_t) (h : k1 ≠ k) :
    bank_of cache_org_t.sc k ≠ bank_of cache_org_t.sc k1 ∧
    queue_of cache_org_t.sc k ≠ queue_of cache_org_t.sc k1 := by
  cases k <;> cases k1 <;> simp_all [bank_of, queue_of, select]

theorem split_step_frame (N : Nat) (cache_mapping : cache_map_t) (k : access_t)
    (a : mem_access_t) (m m1 : Memory) (hk : a.accesstype ≠ k)
    (h : cache_access N cache_mapping cache_org_t.sc a m = .ok m1) :
    m1.blocks (bank_of cache_org_t.sc k) = m.blocks (bank_of cache_org_t.sc k) ∧
    m1.queue (queue_of cache_org_t.sc k) = m.queue (queue_of cache_org_t.sc k) := by
  obtain ⟨hb, hq⟩ := bank_of_sc_ne k a.accesstype hk
  cases cache_mapping with
  | fa =>
    rw [cache_access_fa] at h
    split at h
    · cases h
    · injection h with h
      subst h
      rw [Memory.blocks_commit_ne _ _ _ _ _ hb, Memory.queue_commit_ne _ _ _ _ _ hq]
      exact ⟨by cases bank_of cache_org_t.sc k <;> rfl,
        by cases queue_of cache_org_t.sc k <;> rfl⟩
  | dm =>
    rw [cache_access_dm] at h
    split at h
    · cases h
    · injection h with h
      subst h
      rw [Memory.blocks_commit_ne _ _ _ _ _ hb]
      refine ⟨by cases bank_of cache_org_t.sc k <;> rfl, ?_⟩
      cases hqk : queue_of cache_org_t.sc k
      · rw [Memory.queue_commit]
        rfl
      · rw [Memory.queue_commit_ne _ _ _ _ _ (by decide)]
        rfl

theorem split_step_congr (N : Nat) (cache_mapping : cache_map_t) (a : mem_access_t)
    (m m1 n : Memory)
    (hb : m.blocks (bank_of cache_org_t.sc a.accesstype)
      = n.blocks (bank_of cache_org_t.sc a.accesstype))
    (hq : m.queue (queue_of cache_org_t.sc a.accesstype)
      = n.queue (queue_of cache_org_t.sc a.accesstype))
    (h : cache_access N cache_mapping cache_org_t.sc a m = .ok m1) :
    ∃ n1, cache_access N cache_mapping cache_org_t.sc a n = .ok n1 ∧
      m1.blocks (bank_of cache_org_t.sc a.accesstype)
        = n1.blocks (bank_of cache_org_t.sc a.accesstype) ∧
      m1.queue (queue_of cache_org_t.sc a.accesstype)
        = n1.queue (queue_of cache_org_t.sc a.accesstype) ∧
      decide (m1.cache_statistics.hits ≠ m.cache_statistics.hits)
        = decide (n1.cache_statistics.hits ≠ n.cache_statistics.hits) := by
  cases cache_mapping with
  | fa =>
    rw [cache_access_fa] at h
    rw [cache_access_fa, ← hb, ← hq]
    split at h
    · cases h
    · rename_i r hr
      injection h with h
      subst h
      refine ⟨_, rfl, ?_, ?_, ?_⟩
      · rw [Memory.blocks_commit, Memory.blocks_commit]
      · rw [Memory.queue_commit, Memory.queue_commit]
      · rw [Memory.hits_commit, Memory.hits_commit]
        cases r.2.2 <;> simp [Memory.add_access]
  | dm =>
    rw [cache_access_dm] at h
    rw [cache_access_dm, ← hb]
    split at h
    · cases h
    · rename_i r hr
      injection h with h
      subst h
      refine ⟨_, rfl, ?_, ?_, ?_⟩
      · rw [Memory.blocks_commit, Memory.blocks_commit]
      · cases hqk : queue_of cache_org_t.sc a.accesstype
        · rw [hqk] at hq
          rw [Memory.queue_commit, Memory.queue_commit]
          exact hq
        · rw [hqk] at hq
          rw [Memory.queue_commit_ne _ _ _ _ _ (by decide),
            Memory.queue_commit_ne _ _ _ _ _ (by decide)]
          exact hq
      · rw [Memory.hits_commit, Memory.hits_commit]
        cases r.2 <;> simp [Memory.add_access]

theorem run_calls_cons_ok (step : mem_access_t → Memory → Except Fault Memory)
    (a : mem_access_t) (rest : List mem_access_t) (m : Memory) (l : List (Bool × Memory))
    (h : run_calls step (a :: rest) m = .ok l) :
    ∃ m1 l0, step a m = .ok m1 ∧ run_calls step rest m1 = .ok l0 ∧
      l = (decide (m1.cache_statistics.hits ≠ m.cache_statistics.hits), m1) :: l0 := by
  simp only [run_calls] at h
  split at h
  · cases h
  · rename_i m1 h1
    split at h
    · cases h
    · rename_i l0 h2
      injection h with h
      exact ⟨m1, l0, h1, h2, h.symm⟩

theorem split_run_filter (N : Nat) (cache_mapping : cache_map_t) (k : access_t) :
    ∀ (trace : List mem_access_t) (m n : Memory) (l : List (Bool × Memory)),
      m.blocks (bank_of cache_org_t.sc k) = n.blocks (bank_of cache_org_t.sc k) →
      m.queue (queue_of cache_org_t.sc k) = n.queue (queue_of cache_org_t.sc k) →
      run_calls (cache_access N cache_mapping cache_org_t.sc) trace m = .ok l →
      ∃ l1, run_calls (cache_access N cache_mapping cache_org_t.sc)
          (trace.filter (fun a => decide (a.accesstype = k))) n = .ok l1 ∧
        l1.map (fun x => x.1) = kind_outcomes k trace l := by
  intro trace
  induction trace with
  | nil =>
    intro m n l _ _ h
    simp only [run_calls] at h
    injection h with h
    subst h
    exact ⟨[], rfl, rfl⟩
  | cons a rest ih =>
    intro m n l hb hq h
    obtain ⟨m1, l0, h1, h2, hl⟩ := run_calls_cons_ok _ a rest m l h
    subst hl
    by_cases hk : a.accesstype = k
    · subst hk
      obtain ⟨n1, hn1, hb1, hq1, ho⟩ := split_step_congr N cache_mapping a m m1 n hb hq h1
      obtain ⟨l1, hl1, hout⟩ := ih m1 n1 l0 hb1 hq1 h2
      refine ⟨(decide (n1.cache_statistics.hits ≠ n.cache_statistics.hits), n1) :: l1, ?_, ?_⟩
      · simp only [List.filter_cons, decide_True, if_true, run_calls, hn1, hl1]
      · simp only [kind_outcomes, List.zip_cons_cons, List.filter_cons, decide_True, if_true,
          List.map_cons, ho]
        exact congrArg _ hout
    · obtain ⟨hb1, hq1⟩ := split_step_frame N cache_mapping k a m m1 hk h1
      obtain ⟨l1, hl1, hout⟩ := ih m1 n l0 (hb1.trans hb) (hq1.trans hq) h2
      refine ⟨l1, ?_, ?_⟩
      · simp only [List.filter_cons, hk, decide_False]
        exact hl1
      · simp only [kind_outcomes, List.zip_cons_cons, List.filter_cons, hk, decide_False]
        exact hout

/-- C10: under split organisation, for both mappings, every block count and
every state: an access handed to the cache that returns leaves, when it is an
Instruction access, the data array and the data queue as they were, and when
it is a Data access, the instruction array and the instruction queue as they
were; and in every run that returns, the outcomes of the accesses of one kind
are the outcomes of the run on the trace with the accesses of the other kind
deleted.  From the empty banks of `N ≥ 1` slots every run returns. -/
theorem split_isolation (N : Nat) (hN : 1 ≤ N) (hN32 : N < 4294967296)
    (cache_mapping : cache_map_t) :
    (∀ access m m1, cache_access N cache_mapping cache_org_t.sc access m = .ok m1 →
      (access.accesstype = access_t.instruction →
        m1.data_blocks = m.data_blocks ∧ m1.queue_data = m.queue_data) ∧
      (access.accesstype = access_t.data →
        m1.instruction_blocks = m.instruction_blocks ∧
        m1.queue_instructions = m.queue_instructions)) ∧
    (∀ (kind : access_t) (trace : List mem_access_t) (m : Memory) (l : List (Bool × Memory)),
      run_calls (cache_access N cache_mapping cache_org_t.sc) trace m = .ok l →
      ∃ l1, run_calls (cache_access N cache_mapping cache_org_t.sc)
          (trace.filter (fun a => decide (a.accesstype = kind))) m = .ok l1 ∧
        l1.map (fun x => x.1) = kind_outcomes kind trace l) ∧
    (∀ (g1 g2 : Nat → Int) (trace : List mem_access_t),
      ∃ l, run_calls (cache_access N cache_mapping cache_org_t.sc) trace
          (init_memory N g1 g2) = .ok l ∧ l.length = trace.length) := by
  refine ⟨?_, ?_, ?_⟩
  · intro access m m1 h
    constructor
    · intro hk
      exact split_step_frame N cache_mapping access_t.data access m m1 (by simp [hk]) h
    · intro hk
      exact split_step_frame N cache_mapping access_t.instruction access m m1
        (by simp [hk]) h
  · intro kind trace m l h
    exact split_run_filter N cache_mapping kind trace m m l rfl rfl h
  · intro g1 g2 trace
    obtain ⟨l, hrun, hl, _⟩ := cache_access_run N hN hN32 cache_mapping cache_org_t.sc trace _
      (Ready.of_init_memory N hN cache_mapping g1 g2) (Nat.le_refl _)
    exact ⟨l, hrun, hl⟩

theorem split_isolation_witness :
    (1 ≤ 2 ∧ 2 < 4294967296) ∧
    ((∀ access m m1, cache_access 2 cache_map_t.fa cache_org_t.sc access m = .ok m1 →
      (access.accesstype = access_t.instruction →
        m1.data_blocks = m.data_blocks ∧ m1.queue_data = m.queue_data) ∧
      (access.accesstype = access_t.data →
        m1.instruction_blocks = m.instruction_blocks ∧
        m1.queue_instructions = m.queue_instructions)) ∧
    (∀ (kind : access_t) (trace : List mem_access_t) (m : Memory) (l : List (Bool × Memory)),
      run_calls (cache_access 2 cache_map_t.fa cache_org_t.sc) trace m = .ok l →
      ∃ l1, run_calls (cache_access 2 cache_map_t.fa cache_org_t.sc)
          (trace.filter (fun a => decide (a.accesstype = kind))) m = .ok l1 ∧
        l1.map (fun x => x.1) = kind_outcomes kind trace l) ∧
    (∀ (g1 g2 : Nat → Int) (trace : List mem_access_t),
      ∃ l, run_calls (cache_access 2 cache_map_t.fa cache_org_t.sc) trace
          (init_memory 2 g1 g2) = .ok l ∧ l.length = trace.length)) :=
  ⟨⟨by decide, by decide⟩, split_isolation 2 (by decide) (by decide) cache_map_t.fa⟩

/-! ## Filling the bank and the first eviction -/

theorem forall₂_getElem? {α β : Type} {R : α → β → Prop} :
    ∀ {l1 : List α} {l2 : List β}, List.Forall₂ R l1 l2 →
      ∀ (k : Nat) (y : β), l2[k]? = some y → ∃ x, l1[k]? = some x ∧ R x y := by
  intro l1 l2 h
  induction h with
  | nil =>
    intro k y hy
    simp at hy
  | cons hxy _ ih =>
    intro k y hy
    cases k with
    | zero =>
      simp only [List.getElem?_cons_zero, Option.some.injEq] at hy
      subst hy
      exact ⟨_, by simp, hxy⟩
    | succ j =>
      simp only [List.getElem?_cons_succ] at hy
      obtain ⟨x, hx, hr⟩ := ih j y hy
      exact ⟨x, by simpa using hx, hr⟩

theorem forall₂_all_false {α β : Type} {R : (Bool × α) → (Bool × β) → Prop}
    (hR : ∀ x y, R x y → x.1 = y.1) :
    ∀ {l1 : List (Bool × α)} {l2 : List (Bool × β)}, List.Forall₂ R l1 l2 →
      (∀ y ∈ l2, y.1 = false) → ∀ x ∈ l1, x.1 = false := by
  intro l1 l2 h
  induction h with
  | nil =>
    intro _ x hx
    simp at hx
  | cons hxy _ ih =>
    intro hall x hx
    rcases List.mem_cons.mp hx with hx | hx
    · subst hx
      rw [hR _ _ hxy]
      exact hall _ (List.mem_cons_self _ _)
    · exact ih (fun y hy => hall y (List.mem_cons_of_mem _ hy)) x hx

theorem fifo_run_length (N : Nat) : ∀ (xs L : List Nat), (fifo_run N L xs).length = xs.length := by
  intro xs
  induction xs with
  | nil => intro L; rfl
  | cons x xs ih => intro L; simp [fifo_run, ih]

theorem fifo_access_fill (N : Nat) (L : List Nat) (x : Nat) (hx : x ∉ L)
    (hlen : L.length < N) : fifo_access N L x = (false, L ++ [x]) := by
  unfold fifo_access
  rw [if_neg hx, if_neg (by omega)]

theorem fifo_access_full (N : Nat) (L : List Nat) (x : Nat) (hx : x ∉ L)
    (hlen : L.length = N) : fifo_access N L x = (false, L.tail ++ [x]) := by
  unfold fifo_access
  rw [if_neg hx, if_pos hlen]

theorem fifo_run_fill (N : Nat) :
    ∀ (xs ys L : List Nat), (L ++ xs).Nodup → L.length + xs.length ≤ N →
      fifo_run N L (xs ++ ys) = fifo_run N L xs ++ fifo_run N (L ++ xs) ys ∧
      (∀ y ∈ fifo_run N L xs, y.1 = false) ∧
      (∀ o M, (fifo_run N L xs)[xs.length - 1]? = some (o, M) → M = L ++ xs) := by
  intro xs
  induction xs with
  | nil =>
    intro ys L _ _
    refine ⟨by simp [fifo_run], by simp [fifo_run], ?_⟩
    intro o M h
    simp [fifo_run] at h
  | cons x xs ih =>
    intro ys L hnd hlen
    have hx : x ∉ L := by
      intro hmem
      have := List.nodup_append.mp hnd
      exact this.2.2 hmem (List.mem_cons_self _ _)
    simp only [List.length_cons] at hlen
    have hacc := fifo_access_fill N L x hx (by omega)
    have hnd2 : ((L ++ [x]) ++ xs).Nodup := by simpa using hnd
    obtain ⟨h1, h2, h3⟩ := ih ys (L ++ [x]) hnd2 (by simp; omega)
    refine ⟨?_, ?_, ?_⟩
    · simp only [List.cons_append, fifo_run, hacc, h1]
      simp [h1]
    · intro y hy
      simp only [fifo_run, hacc, List.mem_cons] at hy
      rcases hy with hy | hy
      · rw [hy]
      · exact h2 y hy
    · intro o M h
      simp only [fifo_run, hacc, List.length_cons, Nat.add_sub_cancel] at h
      by_cases hxs : xs = []
      · subst hxs
        simp [fifo_run] at h
        simp [h.2]
      · have hpos : xs.length = (xs.length - 1) + 1 := by
          have := List.length_pos.mpr hxs
          omega
        rw [hpos, List.getElem?_cons_succ] at h
        have := h3 o M h
        simpa using this

theorem FAInv.all_valid {N : Nat} {blocks : List block} {q : block_queue} {L : List Nat}
    {h : Nat} (inv : FAInv N blocks q L h) (hfull : L.length = N) :
    ∀ b ∈ blocks, b.valid ≠ 0 := by
  intro b hb
  obtain ⟨i, hi⟩ := List.mem_iff_getElem?.mp hb
  have hil : i < blocks.length := (List.getElem?_eq_some_iff.mp hi).1
  rw [inv.len_blocks] at hil
  obtain ⟨u, _, hb2⟩ := inv.slot_used i hil (by omega)
  rw [hi] at hb2
  injection hb2 with hb2
  subst hb2
  simp

/-- C7: for every block count `N ≥ 1`, a bank that starts with every slot
invalid and an empty queue, `N` accesses `first` followed by `last`, all with
pairwise distinct block addresses, and then an access `again` to the block
address of the first one: the run returns and every access is a miss; after
the `N`-th access all `N` slots are valid and the resident tags are exactly the
block addresses of `first`; after `last` the resident tags are exactly those
of `first` without its first element, plus that of `last`, so the
earliest-inserted tag and no other is gone. -/
theorem fully_associative_fifo_eviction (N : Nat) (hN : 1 ≤ N) (hN32 : N < 4294967296)
    (dc : cache) (dq : queue_ptr) (ic : cache) (iq : queue_ptr) (c : cache) (qp : queue_ptr)
    (first : List mem_access_t) (last again : mem_access_t) (m : Memory)
    (hfirst : first.length = N)
    (hdistinct : ((first ++ [last]).map (fun a => a.address >>> 6)).Nodup)
    (hagain : first.head?.map (fun a => a.address >>> 6) = some (again.address >>> 6))
    (hroute : ∀ a ∈ first ++ [last, again],
      select dc ic a.accesstype = c ∧ select dq iq a.accesstype = qp)
    (hlen : (m.blocks c).length = N) (hempty : ∀ b ∈ m.blocks c, b.valid = 0)
    (hqlen : (m.queue qp).block_indexes.length = N)
    (hhead : (m.queue qp).head = -1) (htail : (m.queue qp).tail = -1) :
    ∃ l x y z, run_calls (fully_associative N dc dq ic iq) (first ++ [last, again]) m = .ok l ∧
      (∀ e ∈ l, e.1 = false) ∧
      l[N - 1]? = some x ∧ l[N]? = some y ∧ l[N + 1]? = some z ∧
      (x.2.blocks c).length = N ∧ (∀ b ∈ x.2.blocks c, b.valid ≠ 0) ∧
      (∀ t, (∃ b ∈ x.2.blocks c, b.valid ≠ 0 ∧ b.tag = t)
        ↔ t ∈ first.map (fun a => a.address >>> 6)) ∧
      (∀ t, (∃ b ∈ y.2.blocks c, b.valid ≠ 0 ∧ b.tag = t)
        ↔ t ∈ (first.tail ++ [last]).map (fun a => a.address >>> 6)) ∧
      ¬ (∃ b ∈ y.2.blocks c, b.valid ≠ 0 ∧ b.tag = again.address >>> 6) := by
  obtain ⟨l, hrun, hrel⟩ := fa_run_inv hN hN32 dc dq ic iq c qp _ m [] 0 hroute
    (FAInv.of_empty N hN _ _ hlen hempty hqlen hhead htail)
  -- the reference run on the block addresses
  cases first with
  | nil => simp at hfirst; omega
  | cons a0 rest =>
    simp only [List.head?_cons, Option.map_some', Option.some.injEq] at hagain
    simp only [List.map_append, List.map_cons, List.map_nil, List.tail_cons] at hrel hdistinct ⊢
    have hTlen : (a0.address >>> 6 :: rest.map (fun a => a.address >>> 6)).length = N := by
      simpa using hfirst
    have hnd := List.nodup_append.mp hdistinct
    obtain ⟨hsplit, hfalse1, hlast1⟩ := fifo_run_fill N
      (a0.address >>> 6 :: rest.map (fun a => a.address >>> 6))
      [last.address >>> 6, again.address >>> 6] [] (by simpa using hnd.1)
      (by simp only [List.length_nil, Nat.zero_add]; omega)
    have hlastnot : last.address >>> 6 ∉
        (a0.address >>> 6 :: rest.map (fun a => a.address >>> 6)) := by
      intro hmem
      exact hnd.2.2 hmem (List.mem_singleton.mpr rfl)
    have hagainnot : again.address >>> 6 ∉
        rest.map (fun a => a.address >>> 6) ++ [last.address >>> 6] := by
      rw [← hagain]
      intro hmem
      rcases List.mem_append.mp hmem with h | h
      · exact (List.nodup_cons.mp hnd.1).1 h
      · exact hlastnot (by rw [List.mem_singleton.mp h]; exact List.mem_cons_self _ _)
    have hS : fifo_run N ([] ++ (a0.address >>> 6 :: rest.map (fun a => a.address >>> 6)))
        [last.address >>> 6, again.address >>> 6]
        = [(false, rest.map (fun a => a.address >>> 6) ++ [last.address >>> 6]),
           (false, (rest.map (fun a => a.address >>> 6) ++ [last.address >>> 6]).tail
              ++ [again.address >>> 6])] := by
      simp only [List.nil_append, fifo_run]
      rw [fifo_access_full N _ _ hlastnot hTlen]
      simp only [List.tail_cons]
      rw [fifo_access_full N _ _ hagainnot (by simp at hTlen ⊢; omega)]
    rw [hsplit, hS] at hrel
    have hlen1 := fifo_run_length N
      (a0.address >>> 6 :: rest.map (fun a => a.address >>> 6)) []
    rw [hTlen] at hlen1
    -- the three entries of the reference run
    obtain ⟨e1, he1⟩ : ∃ e, (fifo_run N []
        (a0.address >>> 6 :: rest.map (fun a => a.address >>> 6)))[N - 1]? = some e :=
      ⟨_, List.getElem?_eq_getElem (by omega)⟩
    have hM := hlast1 e1.1 e1.2 (by rw [hTlen]; exact he1)
    obtain ⟨x, hx, hox, h1, invx⟩ := forall₂_getElem? hrel (N - 1) e1
      (by rw [List.getElem?_append_left (by omega)]; exact he1)
    obtain ⟨y, hy, hoy, h2, invy⟩ := forall₂_getElem? hrel N _
      (by rw [List.getElem?_append_right (by omega), hlen1]; simp; rfl)
    obtain ⟨z, hz, hoz, h3, invz⟩ := forall₂_getElem? hrel (N + 1) _
      (by
        rw [List.getElem?_append_right (by omega), hlen1]
        have : N + 1 - N = 1 := by omega
        rw [this]
        rfl)
    rw [hM] at invx
    simp only [List.nil_append] at invx
    refine ⟨l, x, y, z, hrun, ?_, hx, hy, hz, invx.len_blocks, invx.all_valid hTlen,
      fun t => invx.valid_tags t, fun t => invy.valid_tags t, ?_⟩
    · refine forall₂_all_false (fun _ _ h => h.1) hrel ?_
      intro e he
      rcases List.mem_append.mp he with he | he
      · exact hfalse1 e he
      · simp only [List.mem_cons, List.mem_singleton, List.not_mem_nil, or_false] at he
        rcases he with he | he <;> rw [he]
    · rw [invy.valid_tags]
      exact hagainnot

theorem fully_associative_fifo_eviction_witness :
    (1 ≤ 2 ∧ 2 < 4294967296 ∧
      (List.map (fun a => a.address >>> 6)
        ([(⟨0, access_t.data⟩ : mem_access_t), ⟨64, access_t.data⟩]
          ++ [⟨128, access_t.data⟩])).Nodup) ∧
    ∃ l x y z, run_calls
        (fully_associative 2 cache.data_blocks queue_ptr.queue_data cache.data_blocks
          queue_ptr.queue_data)
        ([⟨0, access_t.data⟩, ⟨64, access_t.data⟩]
          ++ [⟨128, access_t.data⟩, ⟨1, access_t.data⟩])
        sample_memory = .ok l ∧
      (∀ e ∈ l, e.1 = false) ∧
      l[2 - 1]? = some x ∧ l[2]? = some y ∧ l[2 + 1]? = some z ∧
      (x.2.blocks cache.data_blocks).length = 2 ∧
      (∀ b ∈ x.2.blocks cache.data_blocks, b.valid ≠ 0) ∧
      (∀ t, (∃ b ∈ x.2.blocks cache.data_blocks, b.valid ≠ 0 ∧ b.tag = t)
        ↔ t ∈ [(⟨0, access_t.data⟩ : mem_access_t), ⟨64, access_t.data⟩].map
          (fun a => a.address >>> 6)) ∧
      (∀ t, (∃ b ∈ y.2.blocks cache.data_blocks, b.valid ≠ 0 ∧ b.tag = t)
        ↔ t ∈ List.map (fun a => a.address >>> 6)
          ([(⟨0, access_t.data⟩ : mem_access_t), ⟨64, access_t.data⟩].tail
            ++ [⟨128, access_t.data⟩])) ∧
      ¬ (∃ b ∈ y.2.blocks cache.data_blocks,
        b.valid ≠ 0 ∧ b.tag = (⟨1, access_t.data⟩ : mem_access_t).address >>> 6) :=
  ⟨⟨by decide, by decide, by decide⟩,
    fully_associative_fifo_eviction 2 (by decide) (by decide) cache.data_blocks
      queue_ptr.queue_data cache.data_blocks queue_ptr.queue_data cache.data_blocks
      queue_ptr.queue_data [⟨0, access_t.data⟩, ⟨64, access_t.data⟩] ⟨128, access_t.data⟩
      ⟨1, access_t.data⟩ sample_memory rfl (by decide) rfl (by decide) rfl (by decide) rfl rfl rfl⟩

/-! ## Ring semantics of the replacement queue -/

theorem ring_succ_emod (N : Nat) (t : Int) (h1 : -1 ≤ t) (h2 : t ≤ (N : Int) - 1) :
    (t + 1) % (N : Int) = if t = (N : Int) - 1 then 0 else t + 1 := by
  by_cases h : t = (N : Int) - 1
  · rw [if_pos h, h]
    simp
  · rw [if_neg h]
    exact Int.emod_eq_of_lt (by omega) (by omega)

theorem enqueue_ring (N : Nat) (hN : 1 ≤ N) (hN32 : N < 4294967296)
    (q : block_queue) (hlen : q.block_indexes.length = N) (x : Int)
    (h1 : -1 ≤ q.tail) (h2 : q.tail ≤ (N : Int) - 1) :
    ∃ q1, enqueue N q x = .ok q1 ∧
      q1.tail = (q.tail + 1) % (N : Int) ∧
      q1.block_indexes = q.block_indexes.set ((q.tail + 1) % (N : Int)).toNat x ∧
      q1.block_indexes[((q.tail + 1) % (N : Int)).toNat]? = some x ∧
      q1.head = (if q.head = -1 then 0 else q.head) := by
  have hT : (q.tail + 1).toNat ≤ N := by omega
  have htail : q.tail = ((q.tail + 1).toNat : Int) - 1 := by omega
  have heq := enqueue_eq N hN hN32 q x (q.tail + 1).toNat hT htail hlen
  have hmod := ring_succ_emod N q.tail h1 h2
  have hpos : (if (q.tail + 1).toNat = N then 0 else (q.tail + 1).toNat)
      = ((q.tail + 1) % (N : Int)).toNat := by
    rw [hmod]
    by_cases h : q.tail = (N : Int) - 1
    · rw [if_pos h, if_pos (by omega)]
      rfl
    · rw [if_neg h, if_neg (by omega)]
  rw [hpos] at heq
  have hin : ((q.tail + 1) % (N : Int)).toNat < q.block_indexes.length := by
    rw [hmod, hlen]
    split <;> omega
  refine ⟨_, heq, ?_, rfl, ?_, rfl⟩
  · show (((q.tail + 1) % (N : Int)).toNat : Int) = (q.tail + 1) % (N : Int)
    rw [hmod]
    split <;> omega
  · exact List.getElem?_set_self hin

theorem dequeue_ring (N : Nat) (hN32 : N < 4294967296)
    (q : block_queue) (hlen : q.block_indexes.length = N)
    (h1 : 0 ≤ q.head) (h2 : q.head ≤ (N : Int) - 1) :
    ∃ v q1, dequeue N q = .ok (v, q1) ∧
      q.block_indexes[q.head.toNat]? = some v ∧
      q1.head = (q.head + 1) % (N : Int) ∧
      q1.tail = q.tail ∧ q1.block_indexes = q.block_indexes := by
  have hH : q.head.toNat < N := by omega
  have hhead : q.head = (q.head.toNat : Int) := by omega
  have hv : q.block_indexes[q.head.toNat]?
      = some (q.block_indexes.get ⟨q.head.toNat, by omega⟩) :=
    List.getElem?_eq_getElem (by omega)
  have heq := dequeue_eq N hN32 q q.head.toNat _ hH hhead hv
  refine ⟨_, _, heq, hv, ?_, rfl, rfl⟩
  show (((if q.head.toNat + 1 < N then q.head.toNat + 1 else 0 : Nat)) : Int)
    = (q.head + 1) % (N : Int)
  rw [ring_succ_emod N q.head (by omega) h2]
  by_cases h : q.head = (N : Int) - 1
  · rw [if_pos h, if_neg (by omega)]
    rfl
  · rw [if_neg h, if_pos (by omega)]
    omega

/-- C18: for a queue over an array of `N ≥ 1` cells (`N` a `uint32_t` value):
`enqueue` with `tail` in `{-1, ..., N-1}` returns, sets `tail` to
`(tail + 1) mod N`, stores the given index in the cell at the new `tail` and
changes no other cell, and sets `head` to 0 when it was `-1` and leaves it
otherwise; `dequeue` with `head` in `{0, ..., N-1}` returns the entry in the
cell at `head`, sets `head` to `(head + 1) mod N` and leaves `tail` and all
cells as they were. -/
theorem queue_ring_semantics (N : Nat) (hN : 1 ≤ N) (hN32 : N < 4294967296)
    (q : block_queue) (hlen : q.block_indexes.length = N) :
    (∀ x : Int, -1 ≤ q.tail → q.tail ≤ (N : Int) - 1 →
      ∃ q1, enqueue N q x = .ok q1 ∧
        q1.tail = (q.tail + 1) % (N : Int) ∧
        q1.block_indexes = q.block_indexes.set ((q.tail + 1) % (N : Int)).toNat x ∧
        q1.block_indexes[((q.tail + 1) % (N : Int)).toNat]? = some x ∧
        q1.head = (if q.head = -1 then 0 else q.head)) ∧
    (0 ≤ q.head → q.head ≤ (N : Int) - 1 →
      ∃ v q1, dequeue N q = .ok (v, q1) ∧
        q.block_indexes[q.head.toNat]? = some v ∧
        q1.head = (q.head + 1) % (N : Int) ∧
        q1.tail = q.tail ∧ q1.block_indexes = q.block_indexes) :=
  ⟨fun x h1 h2 => enqueue_ring N hN hN32 q hlen x h1 h2,
    fun h1 h2 => dequeue_ring N hN32 q hlen h1 h2⟩

theorem queue_ring_semantics_witness :
    (1 ≤ 2 ∧ 2 < 4294967296 ∧ sample_queue.block_indexes.length = 2) ∧
    ((∀ x : Int, -1 ≤ sample_queue.tail →
      sample_queue.tail ≤ ((2 : Nat) : Int) - 1 →
      ∃ q1, enqueue 2 sample_queue x = .ok q1 ∧
        q1.tail = (sample_queue.tail + 1) % ((2 : Nat) : Int) ∧
        q1.block_indexes = sample_queue.block_indexes.set
          ((sample_queue.tail + 1) % ((2 : Nat) : Int)).toNat x ∧
        q1.block_indexes[
          ((sample_queue.tail + 1) % ((2 : Nat) : Int)).toNat]? = some x ∧
        q1.head = (if sample_queue.head = -1 then 0
          else sample_queue.head)) ∧
    (0 ≤ sample_queue.head →
      sample_queue.head ≤ ((2 : Nat) : Int) - 1 →
      ∃ v q1, dequeue 2 sample_queue = .ok (v, q1) ∧
        sample_queue.block_indexes[
          sample_queue.head.toNat]? = some v ∧
        q1.head = (sample_queue.head + 1) % ((2 : Nat) : Int) ∧
        q1.tail = sample_queue.tail ∧
        q1.block_indexes = sample_queue.block_indexes)) :=
  ⟨⟨by decide, by decide, rfl⟩,
    queue_ring_semantics 2 (by decide) (by decide) sample_queue rfl⟩

/-! ## A hit leaves bank and queue alone: FIFO, not LRU -/

theorem fa_bank_hit_unchanged (N : Nat) (blocks : List block) (q : block_queue) (t : Nat)
    (r : List block × block_queue × Bool) (h : fa_bank N blocks q t = .ok r)
    (hit : r.2.2 = true) : r.1 = blocks ∧ r.2.1 = q := by
  unfold fa_bank at h
  split at h
  · cases h
  · injection h with h
    subst h
    exact ⟨rfl, rfl⟩
  · split at h
    · split at h
      · cases h
      · split at h
        · cases h
        · injection h with h
          subst h
          cases hit
    · split at h
      · cases h
      · split at h
        · cases h
        · split at h
          · cases h
          · split at h
            · cases h
            · injection h with h
              subst h
              cases hit

theorem forall₂_map_fst {α β : Type} {R : (Bool × α) → (Bool × β) → Prop}
    (hR : ∀ x y, R x y → x.1 = y.1) :
    ∀ {l1 : List (Bool × α)} {l2 : List (Bool × β)}, List.Forall₂ R l1 l2 →
      l1.map (fun x => x.1) = l2.map (fun y => y.1) := by
  intro l1 l2 h
  induction h with
  | nil => rfl
  | cons hxy _ ih =>
    simp only [List.map_cons, hR _ _ hxy, ih]

/-- C19: a `fully_associative` call that registers a hit leaves both block
arrays and both queues (cells, `head`, `tail`) exactly as they were and adds 1
to `hits`, for every block count and every state.  With two blocks, from a
bank with both slots invalid and the empty queue, accesses `a`, `b`, `c` with
pairwise distinct block addresses routed to that bank give for the sequence
`a, b, a, c, b, a` the outcomes miss, miss, hit, miss, hit, miss: the hit on
`a` did not postpone its eviction. -/
theorem fully_associative_hit_frame (dc : cache) (dq : queue_ptr) (ic : cache)
    (iq : queue_ptr) (c : cache) (qp : queue_ptr) (a b c3 : mem_access_t) (m : Memory)
    (hroute : ∀ x ∈ [a, b, c3],
      select dc ic x.accesstype = c ∧ select dq iq x.accesstype = qp)
    (hab : a.address >>> 6 ≠ b.address >>> 6) (hac : a.address >>> 6 ≠ c3.address >>> 6)
    (hbc : b.address >>> 6 ≠ c3.address >>> 6)
    (hlen : (m.blocks c).length = 2) (hempty : ∀ x ∈ m.blocks c, x.valid = 0)
    (hqlen : (m.queue qp).block_indexes.length = 2)
    (hhead : (m.queue qp).head = -1) (htail : (m.queue qp).tail = -1) :
    (∀ (N : Nat) (dc1 : cache) (dq1 : queue_ptr) (ic1 : cache) (iq1 : queue_ptr)
        (access : mem_access_t) (m0 m1 : Memory),
      fully_associative N dc1 dq1 ic1 iq1 access m0 = .ok m1 →
      m1.cache_statistics.hits ≠ m0.cache_statistics.hits →
      m1.data_blocks = m0.data_blocks ∧ m1.instruction_blocks = m0.instruction_blocks ∧
      m1.queue_data = m0.queue_data ∧ m1.queue_instructions = m0.queue_instructions ∧
      m1.cache_statistics.hits = m0.cache_statistics.hits + 1) ∧
    ∃ l, run_calls (fully_associative 2 dc dq ic iq) [a, b, a, c3, b, a] m = .ok l ∧
      l.map (fun x => x.1) = [false, false, true, false, true, false] := by
  constructor
  · intro N dc1 dq1 ic1 iq1 access m0 m1 h hne
    rw [fully_associative_eq] at h
    split at h
    · cases h
    · rename_i r hr
      injection h with h
      subst h
      have hit : r.2.2 = true := by
        rw [Memory.hits_commit] at hne
        cases hb : r.2.2
        · rw [hb] at hne
          simp at hne
        · rfl
      obtain ⟨h1, h2⟩ := fa_bank_hit_unchanged N _ _ _ r hr hit
      have hm : m0.commit (select dc1 ic1 access.accesstype) (select dq1 iq1 access.accesstype) r
          = m0.add_hit := by
        unfold Memory.commit
        rw [if_pos hit, h1, h2, Memory.set_blocks_self, Memory.set_queue_self]
      rw [hm]
      exact ⟨rfl, rfl, rfl, rfl, rfl⟩
  · have hroute6 : ∀ x ∈ [a, b, a, c3, b, a],
        select dc ic x.accesstype = c ∧ select dq iq x.accesstype = qp := by
      intro x hx
      apply hroute x
      simp only [List.mem_cons, List.mem_singleton, List.not_mem_nil, or_false] at hx ⊢
      tauto
    obtain ⟨l, hrun, hrel⟩ := fa_run_inv (by decide) (by decide) dc dq ic iq c qp
      [a, b, a, c3, b, a] m [] 0 hroute6
      (FAInv.of_empty 2 (by decide) _ _ hlen hempty hqlen hhead htail)
    refine ⟨l, hrun, ?_⟩
    rw [forall₂_map_fst (fun _ _ h => h.1) hrel]
    simp [fifo_run, fifo_access, hab, hac, hbc, Ne.symm hab, Ne.symm hac, Ne.symm hbc]

theorem fully_associative_hit_frame_witness :
    ((0 : Nat) >>> 6 ≠ 64 >>> 6 ∧ (0 : Nat) >>> 6 ≠ 128 >>> 6 ∧ (64 : Nat) >>> 6 ≠ 128 >>> 6 ∧
      (sample_memory.blocks cache.data_blocks).length = 2 ∧
      (∀ x ∈ sample_memory.blocks cache.data_blocks, x.valid = 0)) ∧
    ((∀ (N : Nat) (dc1 : cache) (dq1 : queue_ptr) (ic1 : cache) (iq1 : queue_ptr)
        (access : mem_access_t) (m0 m1 : Memory),
      fully_associative N dc1 dq1 ic1 iq1 access m0 = .ok m1 →
      m1.cache_statistics.hits ≠ m0.cache_statistics.hits →
      m1.data_blocks = m0.data_blocks ∧ m1.instruction_blocks = m0.instruction_blocks ∧
      m1.queue_data = m0.queue_data ∧ m1.queue_instructions = m0.queue_instructions ∧
      m1.cache_statistics.hits = m0.cache_statistics.hits + 1) ∧
    ∃ l, run_calls
        (fully_associative 2 cache.data_blocks queue_ptr.queue_data cache.data_blocks
          queue_ptr.queue_data)
        [⟨0, access_t.data⟩, ⟨64, access_t.instruction⟩, ⟨0, access_t.data⟩,
          ⟨128, access_t.data⟩, ⟨64, access_t.instruction⟩, ⟨0, access_t.data⟩]
        sample_memory = .ok l ∧
      l.map (fun x => x.1) = [false, false, true, false, true, false]) :=
  ⟨⟨by decide, by decide, by decide, rfl, by decide⟩,
    fully_associative_hit_frame cache.data_blocks queue_ptr.queue_data cache.data_blocks
      queue_ptr.queue_data cache.data_blocks queue_ptr.queue_data ⟨0, access_t.data⟩
      ⟨64, access_t.instruction⟩ ⟨128, access_t.data⟩ sample_memory (by decide) (by decide)
      (by decide) (by decide) rfl (by decide) rfl rfl rfl⟩

/-! ## The cold insert goes to the last invalid slot -/

theorem scan_last_invalid (blocks : List block) (t j : Nat)
    (hvalid : ∀ k b, j < k → blocks[k]? = some b → b.valid ≠ 0) :
    ∀ (remaining i : Nat) (li : Int), i + remaining = blocks.length →
      (∀ k b, i ≤ k → blocks[k]? = some b → b.valid ≠ 0 → b.tag ≠ t) →
      (if i ≤ j then ∃ b, blocks[j]? = some b ∧ b.valid = 0 else li = (j : Int)) →
      scan blocks t remaining i li = .ok (.no_hit (j : Int)) := by
  intro remaining
  induction remaining with
  | zero =>
    intro i li hlen _ hj
    by_cases hij : i ≤ j
    · rw [if_pos hij] at hj
      obtain ⟨b, hb, _⟩ := hj
      have := (List.getElem?_eq_some_iff.mp hb).1
      omega
    · rw [if_neg hij] at hj
      simp [scan, hj]
  | succ r ih =>
    intro i li hlen hmiss hj
    have hi : i < blocks.length := by omega
    have hb := List.getElem?_eq_getElem hi
    unfold scan
    rw [load_ok_of_getElem? _ _ _ hb]
    simp only []
    by_cases hv : (blocks[i]).valid ≠ 0
    · rw [if_pos hv, if_neg (hmiss i _ (Nat.le_refl _) hb hv)]
      refine ih (i + 1) li (by omega) (fun k b hk => hmiss k b (by omega)) ?_
      by_cases hij : i ≤ j
      · rw [if_pos hij] at hj
        obtain ⟨b, hbj, hbv⟩ := hj
        have hne : i ≠ j := by
          intro h
          subst h
          rw [hb] at hbj
          injection hbj with hbj
          exact hv (by rw [hbj]; exact hbv)
        rw [if_pos (by omega)]
        exact ⟨b, hbj, hbv⟩
      · rw [if_neg hij] at hj
        rw [if_neg (by omega)]
        exact hj
    · rw [if_neg hv]
      have hle : i ≤ j := by
        by_contra hlt
        exact hv (hvalid i _ (by omega) hb)
      refine ih (i + 1) i (by omega) (fun k b hk => hmiss k b (by omega)) ?_
      rw [if_pos hle] at hj
      by_cases hij : i + 1 ≤ j
      · rw [if_pos hij]
        exact hj
      · rw [if_neg hij]
        have : i = j := by omega
        rw [this]

theorem fa_bank_cold_insert (N : Nat) (blocks : List block) (q : block_queue) (t j : Nat)
    (hlen : blocks.length = N)
    (hj : ∃ b, blocks[j]? = some b ∧ b.valid = 0)
    (hlast : ∀ k b, j < k → blocks[k]? = some b → b.valid ≠ 0)
    (hmiss : ∀ b ∈ blocks, b.valid ≠ 0 → b.tag ≠ t) :
    fa_bank N blocks q t =
      match enqueue N q (j : Int) with
      | .error e => .error e
      | .ok q1 => .ok (blocks.set j ⟨1, t⟩, q1, false) := by
  have hjlt : j < blocks.length := by
    obtain ⟨b, hb, _⟩ := hj
    exact (List.getElem?_eq_some_iff.mp hb).1
  have hs : scan blocks t N 0 (-1) = .ok (.no_hit (j : Int)) :=
    scan_last_invalid blocks t j hlast N 0 (-1) (by omega)
      (fun k b _ hb hv => hmiss b (List.mem_iff_getElem?.mpr ⟨k, hb⟩) hv)
      (by rw [if_pos (Nat.zero_le _)]; exact hj)
  unfold fa_bank
  rw [hs]
  simp only []
  rw [if_pos (by omega), store_nat _ _ hjlt]

/-- C15 (amended): for every block count `N` and every state of an `N`-slot
bank in which slot `j` is invalid, every slot above `j` is valid and no valid
slot holds the accessed tag, `fully_associative` writes the tag into slot `j`,
the invalid slot with the highest index, marks it valid, leaves every other
slot alone, and enqueues `j`; when the queue has `N` cells and `tail` in
`{-1, ..., N-1}` the call returns, `j` is stored at the new tail
`(tail + 1) mod N`, and `hits` is unchanged (a miss). -/
theorem fully_associative_cold_insert (N : Nat) (hN32 : N < 4294967296)
    (dc : cache) (dq : queue_ptr) (ic : cache) (iq : queue_ptr) (access : mem_access_t)
    (m : Memory) (j : Nat)
    (hlen : (m.blocks (select dc ic access.accesstype)).length = N)
    (hj : ∃ b, (m.blocks (select dc ic access.accesstype))[j]? = some b ∧ b.valid = 0)
    (hlast : ∀ k b, j < k →
      (m.blocks (select dc ic access.accesstype))[k]? = some b → b.valid ≠ 0)
    (hmiss : ∀ b ∈ m.blocks (select dc ic access.accesstype),
      b.valid ≠ 0 → b.tag ≠ access.address >>> 6) :
    fully_associative N dc dq ic iq access m =
      (match enqueue N (m.queue (select dq iq access.accesstype)) (j : Int) with
      | .error e => .error e
      | .ok q1 =>
        .ok ((m.set_blocks (select dc ic access.accesstype)
          ((m.blocks (select dc ic access.accesstype)).set j
            ⟨1, access.address >>> 6⟩)).set_queue (select dq iq access.accesstype) q1)) ∧
    ((m.queue (select dq iq access.accesstype)).block_indexes.length = N →
      -1 ≤ (m.queue (select dq iq access.accesstype)).tail →
      (m.queue (select dq iq access.accesstype)).tail ≤ (N : Int) - 1 →
      ∃ m1, fully_associative N dc dq ic iq access m = .ok m1 ∧
        m1.cache_statistics.hits = m.cache_statistics.hits ∧
        m1.blocks (select dc ic access.accesstype)
          = (m.blocks (select dc ic access.accesstype)).set j ⟨1, access.address >>> 6⟩ ∧
        (m1.queue (select dq iq access.accesstype)).tail
          = ((m.queue (select dq iq access.accesstype)).tail + 1) % (N : Int) ∧
        (m1.queue (select dq iq access.accesstype)).block_indexes[
          (((m.queue (select dq iq access.accesstype)).tail + 1) % (N : Int)).toNat]?
          = some (j : Int)) := by
  have hbank := fa_bank_cold_insert N _ (m.queue (select dq iq access.accesstype))
    (access.address >>> 6) j hlen hj hlast hmiss
  have hN : 1 ≤ N := by
    obtain ⟨b, hb, _⟩ := hj
    have := (List.getElem?_eq_some_iff.mp hb).1
    omega
  have hfirst : fully_associative N dc dq ic iq access m =
      (match enqueue N (m.queue (select dq iq access.accesstype)) (j : Int) with
      | .error e => .error e
      | .ok q1 =>
        .ok ((m.set_blocks (select dc ic access.accesstype)
          ((m.blocks (select dc ic access.accesstype)).set j
            ⟨1, access.address >>> 6⟩)).set_queue (select dq iq access.accesstype) q1)) := by
    rw [fully_associative_eq, hbank]
    cases enqueue N (m.queue (select dq iq access.accesstype)) (j : Int) <;> rfl
  refine ⟨hfirst, ?_⟩
  intro hqlen h1 h2
  obtain ⟨q1, hq1, htail, _, hcell, _⟩ := enqueue_ring N hN hN32 _ hqlen (j : Int) h1 h2
  rw [hfirst, hq1]
  refine ⟨_, rfl, ?_, ?_, ?_, ?_⟩
  · generalize select dc ic access.accesstype = c
    generalize select dq iq access.accesstype = qp
    cases c <;> cases qp <;> rfl
  · generalize select dc ic access.accesstype = c
    generalize select dq iq access.accesstype = qp
    cases c <;> cases qp <;> rfl
  · have e : ∀ (m0 : Memory) (qp : queue_ptr) (v : block_queue),
        (m0.set_queue qp v).queue qp = v := by
      intro m0 qp v
      cases qp <;> rfl
    rw [e]
    exact htail
  · have e : ∀ (m0 : Memory) (qp : queue_ptr) (v : block_queue),
        (m0.set_queue qp v).queue qp = v := by
      intro m0 qp v
      cases qp <;> rfl
    rw [e]
    exact hcell

theorem fully_associative_cold_insert_witness :
    ((sample_memory.blocks cache.data_blocks).length = 2 ∧
      (∃ b, (sample_memory.blocks cache.data_blocks)[1]? = some b ∧ b.valid = 0) ∧
      (∀ b ∈ sample_memory.blocks cache.data_blocks, b.valid ≠ 0 → b.tag ≠ 64 >>> 6)) ∧
    (fully_associative 2 cache.data_blocks queue_ptr.queue_data cache.data_blocks
        queue_ptr.queue_data ⟨64, access_t.data⟩ sample_memory =
      (match enqueue 2 (sample_memory.queue queue_ptr.queue_data) ((1 : Nat) : Int) with
      | .error e => .error e
      | .ok q1 =>
        .ok ((sample_memory.set_blocks cache.data_blocks
          ((sample_memory.blocks cache.data_blocks).set 1
            ⟨1, 64 >>> 6⟩)).set_queue queue_ptr.queue_data q1)) ∧
    ((sample_memory.queue queue_ptr.queue_data).block_indexes.length = 2 →
      -1 ≤ (sample_memory.queue queue_ptr.queue_data).tail →
      (sample_memory.queue queue_ptr.queue_data).tail ≤ ((2 : Nat) : Int) - 1 →
      ∃ m1, fully_associative 2 cache.data_blocks queue_ptr.queue_data cache.data_blocks
        queue_ptr.queue_data ⟨64, access_t.data⟩ sample_memory = .ok m1 ∧
        m1.cache_statistics.hits = sample_memory.cache_statistics.hits ∧
        m1.blocks cache.data_blocks
          = (sample_memory.blocks cache.data_blocks).set 1 ⟨1, 64 >>> 6⟩ ∧
        (m1.queue queue_ptr.queue_data).tail
          = ((sample_memory.queue queue_ptr.queue_data).tail + 1) % ((2 : Nat) : Int) ∧
        (m1.queue queue_ptr.queue_data).block_indexes[
          (((sample_memory.queue queue_ptr.queue_data).tail + 1) % ((2 : Nat) : Int)).toNat]?
          = some ((1 : Nat) : Int))) :=
  ⟨⟨rfl, ⟨⟨0, 0⟩, rfl, rfl⟩, by decide⟩,
    fully_associative_cold_insert 2 (by decide) cache.data_blocks queue_ptr.queue_data
      cache.data_blocks queue_ptr.queue_data ⟨64, access_t.data⟩ sample_memory 1 rfl
      ⟨⟨0, 0⟩, rfl, rfl⟩
      (by
        intro k b hk hb
        have hlt : k < 2 := (List.getElem?_eq_some_iff.mp hb).1
        omega)
      (by decide)⟩

/-- C15 (as stated, refuted): with two blocks, both slots invalid and the
empty queue, the access to block address 1 leaves slot 0, the invalid slot
with the lowest index, invalid and untouched; the tag goes to slot 1, and 1 is
the index that is enqueued. -/
theorem cold_insert_skips_first_invalid_slot :
    sample_memory.data_blocks = [⟨0, 0⟩, ⟨0, 0⟩] ∧
    (fully_associative 2 cache.data_blocks queue_ptr.queue_data cache.data_blocks
        queue_ptr.queue_data ⟨64, access_t.data⟩ sample_memory).map (fun m1 => (m1.data_blocks, m1.queue_data, m1.cache_statistics.hits))
      = .ok ([⟨0, 0⟩, ⟨1, 1⟩], ⟨[1, 0], 0, 0⟩, 0) := by
  decide

/-! ## Direct-mapped address decoding -/

/-- The body of `direct_mapped` reads and writes the slot `decode_index` and
compares and stores `decode_tag`. -/
theorem direct_mapped_decoding (N : Nat) (dc ic : cache) (access : mem_access_t) (m : Memory) :
    direct_mapped N dc ic access m =
      match load (m.blocks (select dc ic access.accesstype))
          (decode_index N access.address : Int) with
      | .error e => .error e
      | .ok b =>
        if b.valid = 0 then
          match store (m.blocks (select dc ic access.accesstype))
              (decode_index N access.address : Int) ⟨1, decode_tag N access.address⟩ with
          | .error e => .error e
          | .ok bs => .ok (m.set_blocks (select dc ic access.accesstype) bs)
        else if b.tag = decode_tag N access.address then .ok m.add_hit
        else
          match store (m.blocks (select dc ic access.accesstype))
              (decode_index N access.address : Int)
              ⟨b.valid, decode_tag N access.address⟩ with
          | .error e => .error e
          | .ok bs => .ok (m.set_blocks (select dc ic access.accesstype) bs) :=
  rfl

theorem and_or_and_not32 (x m : Nat) (hx : x < 4294967296) (hm : m < 4294967296) :
    (x &&& m) ||| (x &&& (4294967295 - m)) = x := by
  apply Nat.eq_of_testBit_eq
  intro i
  have e : 4294967295 - m = 2 ^ 32 - (m + 1) := by omega
  rw [e, Nat.testBit_or, Nat.testBit_and, Nat.testBit_and,
    Nat.testBit_two_pow_sub_succ (by omega : m < 2 ^ 32)]
  by_cases hi : i < 32
  · simp [hi]
    cases x.testBit i <;> cases m.testBit i <;> rfl
  · have : x.testBit i = false := by
      apply Nat.testBit_eq_false_of_lt
      calc x < 2 ^ 32 := by omega
        _ ≤ 2 ^ i := Nat.pow_le_pow_right (by decide) (by omega)
    simp [this]

theorem shiftRight_six_lt (a : Nat) (ha : a < 4294967296) : a >>> 6 < 4294967296 := by
  rw [Nat.shiftRight_eq_div_pow]
  exact lt_of_le_of_lt (Nat.div_le_self _ _) ha

theorem decode_index_eq (N a : Nat) (hN : 1 ≤ N) (hN32 : N < 4294967296) :
    decode_index N a = (a >>> 6) &&& (N - 1) := by
  unfold decode_index
  rw [sub32_one N hN hN32]

theorem decode_tag_eq (N a : Nat) (hN : 1 ≤ N) (hN32 : N < 4294967296) :
    decode_tag N a = (a >>> 6) &&& (4294967295 - (N - 1)) := by
  unfold decode_tag
  rw [sub32_one N hN hN32, not32_of_lt _ (by omega)]

theorem decode_index_or_tag (N a : Nat) (hN : 1 ≤ N) (hN32 : N < 4294967296)
    (ha : a < 4294967296) : decode_index N a ||| decode_tag N a = a >>> 6 := by
  rw [decode_index_eq N a hN hN32, decode_tag_eq N a hN hN32]
  exact and_or_and_not32 _ _ (shiftRight_six_lt a ha) (by omega)

theorem clear_low_bits (x k : Nat) (hx : x < 4294967296) (hk : 2 ^ k < 4294967296) :
    x &&& (4294967295 - (2 ^ k - 1)) = (x >>> k) <<< k := by
  apply Nat.eq_of_testBit_eq
  intro i
  have hpos : 0 < 2 ^ k := Nat.pos_pow_of_pos k (by decide)
  have e : 4294967295 - (2 ^ k - 1) = 2 ^ 32 - ((2 ^ k - 1) + 1) := by omega
  rw [e, Nat.testBit_and, Nat.testBit_two_pow_sub_succ (by omega : 2 ^ k - 1 < 2 ^ 32),
    Nat.testBit_two_pow_sub_one, Nat.testBit_shiftLeft, Nat.testBit_shiftRight]
  by_cases hik : i < k
  · simp [hik, Nat.not_le.mpr hik]
  · have hki : k + (i - k) = i := by omega
    rw [hki]
    by_cases hi : i < 32
    · simp [hik, hi, Nat.not_lt.mp hik]
    · have : x.testBit i = false := by
        apply Nat.testBit_eq_false_of_lt
        calc x < 2 ^ 32 := by omega
          _ ≤ 2 ^ i := Nat.pow_le_pow_right (by decide) (by omega)
      simp [this]

/-- C13: for a power-of-two block count `2 ^ k` (a `uint32_t` value) and
every 32-bit address `a`, the decoding of `direct_mapped` gives
`index = (a >> 6) mod 2 ^ k` and `tag = (a >> 6)` with its `k` low bits
cleared, `index | tag = a >> 6`, and two addresses decode to the same index
and tag exactly when their block addresses `a >> 6` are equal. -/
theorem power_of_two_decoding (k a : Nat) (hk : 2 ^ k < 4294967296) (ha : a < 4294967296) :
    decode_index (2 ^ k) a = (a >>> 6) % 2 ^ k ∧
    decode_tag (2 ^ k) a = ((a >>> 6) >>> k) <<< k ∧
    decode_index (2 ^ k) a ||| decode_tag (2 ^ k) a = a >>> 6 ∧
    ∀ b, b < 4294967296 →
      ((decode_index (2 ^ k) a = decode_index (2 ^ k) b ∧
        decode_tag (2 ^ k) a = decode_tag (2 ^ k) b) ↔ a >>> 6 = b >>> 6) := by
  have hpos : 1 ≤ 2 ^ k := Nat.pos_pow_of_pos k (by decide)
  refine ⟨?_, ?_, decode_index_or_tag _ a hpos hk ha, ?_⟩
  · rw [decode_index_eq _ a hpos hk, Nat.and_pow_two_sub_one_eq_mod]
  · rw [decode_tag_eq _ a hpos hk]
    exact clear_low_bits _ k (shiftRight_six_lt a ha) hk
  · intro b hb
    constructor
    · rintro ⟨h1, h2⟩
      rw [← decode_index_or_tag _ a hpos hk ha, ← decode_index_or_tag _ b hpos hk hb, h1, h2]
    · intro h
      unfold decode_index decode_tag
      rw [h]
      exact ⟨rfl, rfl⟩

theorem power_of_two_decoding_witness :
    (2 ^ 3 < 4294967296 ∧ 1000 < 4294967296) ∧
    (decode_index (2 ^ 3) 1000 = (1000 >>> 6) % 2 ^ 3 ∧
    decode_tag (2 ^ 3) 1000 = ((1000 >>> 6) >>> 3) <<< 3 ∧
    decode_index (2 ^ 3) 1000 ||| decode_tag (2 ^ 3) 1000 = 1000 >>> 6 ∧
    ∀ b, b < 4294967296 →
      ((decode_index (2 ^ 3) 1000 = decode_index (2 ^ 3) b ∧
        decode_tag (2 ^ 3) 1000 = decode_tag (2 ^ 3) b) ↔ 1000 >>> 6 = b >>> 6)) :=
  ⟨⟨by decide, by decide⟩, power_of_two_decoding 3 1000 (by decide) (by decide)⟩

/-- C14: for a power-of-two block count `2 ^ k` (a `uint32_t` value) and every
address, the index that `direct_mapped` decodes is below `2 ^ k`, and on a
bank of `2 ^ k` slots the call returns: neither its read nor its write leaves
the bank. -/
theorem power_of_two_index_in_bounds (k a : Nat) (hk : 2 ^ k < 4294967296) :
    decode_index (2 ^ k) a < 2 ^ k ∧
    ∀ (dc ic : cache) (kind : access_t) (m : Memory),
      (m.blocks (select dc ic kind)).length = 2 ^ k →
      ∃ m1, direct_mapped (2 ^ k) dc ic ⟨a, kind⟩ m = .ok m1 := by
  have hpos : 1 ≤ 2 ^ k := Nat.pos_pow_of_pos k (by decide)
  constructor
  · rw [decode_index_eq _ a hpos hk]
    exact dm_index_lt _ _ hpos
  · intro dc ic kind m hlen
    obtain ⟨m1, _, h1, _⟩ := direct_mapped_first (2 ^ k) hpos hk dc ic ⟨a, kind⟩ m hlen
    exact ⟨m1, h1⟩

theorem power_of_two_index_in_bounds_witness :
    2 ^ 1 < 4294967296 ∧
    (decode_index (2 ^ 1) 4294967295 < 2 ^ 1 ∧
    ∀ (dc ic : cache) (kind : access_t) (m : Memory),
      (m.blocks (select dc ic kind)).length = 2 ^ 1 →
      ∃ m1, direct_mapped (2 ^ 1) dc ic ⟨4294967295, kind⟩ m = .ok m1) :=
  ⟨by decide, power_of_two_index_in_bounds 1 4294967295 (by decide)⟩

/-! ## Unified organisation: the access kind does not matter -/

theorem cache_access_uc_kind (N : Nat) (cache_mapping : cache_map_t) (addr : Nat)
    (k1 k2 : access_t) (m : Memory) :
    cache_access N cache_mapping cache_org_t.uc ⟨addr, k1⟩ m
      = cache_access N cache_mapping cache_org_t.uc ⟨addr, k2⟩ m := by
  cases cache_mapping <;> cases k1 <;> cases k2 <;> rfl

theorem run_calls_uc_kind (N : Nat) (cache_mapping : cache_map_t) :
    ∀ (t1 t2 : List mem_access_t) (m : Memory),
      t1.map (fun a => a.address) = t2.map (fun a => a.address) →
      run_calls (cache_access N cache_mapping cache_org_t.uc) t1 m
        = run_calls (cache_access N cache_mapping cache_org_t.uc) t2 m := by
  intro t1
  induction t1 with
  | nil =>
    intro t2 m h
    cases t2 with
    | nil => rfl
    | cons b rest => simp at h
  | cons a rest ih =>
    intro t2 m h
    cases t2 with
    | nil => simp at h
    | cons b rest2 =>
      simp only [List.map_cons, List.cons.injEq] at h
      obtain ⟨hab, hrest⟩ := h
      have hstep : cache_access N cache_mapping cache_org_t.uc a m
          = cache_access N cache_mapping cache_org_t.uc b m := by
        obtain ⟨aa, ak⟩ := a
        obtain ⟨ba, bk⟩ := b
        simp only [] at hab
        subst hab
        exact cache_access_uc_kind N cache_mapping aa ak bk m
      simp only [run_calls, hstep]
      cases cache_access N cache_mapping cache_org_t.uc b m with
      | error e => rfl
      | ok m1 =>
        simp only []
        rw [ih rest2 m1 hrest]

theorem known_type_not_unknown (ty : Char) (h : ty = 'I' ∨ ty = 'D') :
    ¬ (ty ≠ 'I' ∧ ty ≠ 'D') := by
  rcases h with h | h <;> simp [h]

theorem main_loop_uc_kind (N : Nat) (cache_mapping : cache_map_t) :
    ∀ (tr1 tr2 : List (Char × Nat)) (fuel : Nat) (m : Memory),
      (∀ r ∈ tr1, r.1 = 'I' ∨ r.1 = 'D') → (∀ r ∈ tr2, r.1 = 'I' ∨ r.1 = 'D') →
      tr1.map (fun r => r.2) = tr2.map (fun r => r.2) →
      main_loop N cache_mapping cache_org_t.uc fuel tr1 m
        = main_loop N cache_mapping cache_org_t.uc fuel tr2 m := by
  intro tr1
  induction tr1 with
  | nil =>
    intro tr2 fuel m _ _ h
    cases tr2 with
    | nil => rfl
    | cons b rest => simp at h
  | cons r1 rest1 ih =>
    intro tr2 fuel m hw1 hw2 h
    cases tr2 with
    | nil => simp at h
    | cons r2 rest2 =>
      simp only [List.map_cons, List.cons.injEq] at h
      obtain ⟨hadr, hrest⟩ := h
      obtain ⟨ty1, a1⟩ := r1
      obtain ⟨ty2, a2⟩ := r2
      simp only [] at hadr
      subst hadr
      cases fuel with
      | zero => rfl
      | succ f =>
        have h1 : ¬ (ty1 ≠ 'I' ∧ ty1 ≠ 'D') :=
          known_type_not_unknown ty1 (hw1 (ty1, a1) (List.mem_cons_self _ _))
        have h2 : ¬ (ty2 ≠ 'I' ∧ ty2 ≠ 'D') :=
          known_type_not_unknown ty2 (hw2 (ty2, a1) (List.mem_cons_self _ _))
        simp only [main_loop, read_transaction, h1, h2, if_false]
        by_cases h0 : a1 = 0
        · simp only [h0, if_true]
        · simp only [h0, if_false]
          rw [cache_access_uc_kind N cache_mapping a1
            (if ty1 = 'I' then access_t.instruction else access_t.data)
            (if ty2 = 'I' then access_t.instruction else access_t.data) m]
          cases cache_access N cache_mapping cache_org_t.uc
              ⟨a1, if ty2 = 'I' then access_t.instruction else access_t.data⟩ m with
          | error e => rfl
          | ok m1 =>
            simp only []
            exact ih rest2 f m1 (fun x hx => hw1 x (List.mem_cons_of_mem _ hx))
              (fun x hx => hw2 x (List.mem_cons_of_mem _ hx)) hrest

/-- C11: under unified organisation, for both mappings and every block count
`N ≥ 1` (a `uint32_t` value): two access sequences with the same addresses and
arbitrary kinds give, from every state, the same result of the run, outcome
by outcome and memory by memory; from the empty banks every run returns; two
traces of `I`/`D` records with the same addresses give the same statistics
from `main`, which returns; and a line inserted by an access of one kind is
evicted by an access of the other kind (two blocks, address `0x40` again
after conflicting addresses: no hit). -/
theorem unified_kind_independence (N : Nat) (hN : 1 ≤ N) (hN32 : N < 4294967296)
    (cache_mapping : cache_map_t) (g1 g2 : Nat → Int) :
    (∀ (t1 t2 : List mem_access_t) (m : Memory),
      t1.map (fun a => a.address) = t2.map (fun a => a.address) →
      run_calls (cache_access N cache_mapping cache_org_t.uc) t1 m
        = run_calls (cache_access N cache_mapping cache_org_t.uc) t2 m) ∧
    (∀ t : List mem_access_t,
      ∃ l, run_calls (cache_access N cache_mapping cache_org_t.uc) t (init_memory N g1 g2)
          = .ok l ∧ l.length = t.length) ∧
    (∀ (cache_size : Nat) (tr1 tr2 : List (Char × Nat)),
      block_count cache_size cache_org_t.uc = N →
      (∀ r ∈ tr1, r.1 = 'I' ∨ r.1 = 'D') → (∀ r ∈ tr2, r.1 = 'I' ∨ r.1 = 'D') →
      tr1.map (fun r => r.2) = tr2.map (fun r => r.2) →
      main cache_size cache_mapping cache_org_t.uc g1 g2 tr1
        = main cache_size cache_mapping cache_org_t.uc g1 g2 tr2 ∧
      ∃ stats, main cache_size cache_mapping cache_org_t.uc g1 g2 tr1 = .ok stats) ∧
    (main 128 cache_map_t.dm cache_org_t.uc (fun _ => 0) (fun _ => 0)
        [('D', 0x40), ('I', 0xc0), ('D', 0x40)] = .ok ⟨3, 0⟩ ∧
      main 128 cache_map_t.dm cache_org_t.uc (fun _ => 0) (fun _ => 0)
        [('I', 0x40), ('D', 0xc0), ('I', 0x40)] = .ok ⟨3, 0⟩ ∧
      main 128 cache_map_t.fa cache_org_t.uc (fun _ => 0) (fun _ => 0)
        [('D', 0x40), ('I', 0x80), ('I', 0xc0), ('D', 0x40)] = .ok ⟨4, 0⟩ ∧
      main 128 cache_map_t.fa cache_org_t.uc (fun _ => 0) (fun _ => 0)
        [('I', 0x40), ('D', 0x80), ('D', 0xc0), ('I', 0x40)] = .ok ⟨4, 0⟩) := by
  refine ⟨run_calls_uc_kind N cache_mapping, ?_, ?_, by decide⟩
  · intro t
    obtain ⟨l, hrun, hl, _⟩ := cache_access_run N hN hN32 cache_mapping cache_org_t.uc t _
      (Ready.of_init_memory N hN cache_mapping g1 g2) (Nat.le_refl _)
    exact ⟨l, hrun, hl⟩
  · intro cache_size tr1 tr2 hbc hw1 hw2 h
    have hlen : tr1.length = tr2.length := by
      have := congrArg List.length h
      simpa using this
    have heq : main cache_size cache_mapping cache_org_t.uc g1 g2 tr1
        = main cache_size cache_mapping cache_org_t.uc g1 g2 tr2 := by
      simp only [main, hlen]
      rw [main_loop_uc_kind _ cache_mapping tr1 tr2 _ _ hw1 hw2 h]
    refine ⟨heq, ?_⟩
    rcases main_loop_counts N hN hN32 cache_mapping cache_org_t.uc tr1
      (tr1.length + 1) (init_memory N g1 g2) (Nat.lt_succ_self _)
      (Ready.of_init_memory N hN cache_mapping g1 g2) (Nat.le_refl _) with
      ⟨⟨r, hr, hbad⟩, _⟩ | ⟨m1, hrun, _⟩
    · exact absurd hbad (known_type_not_unknown r.1 (hw1 r hr))
    · exact ⟨m1.cache_statistics, by simp only [main, hbc, hrun]⟩

theorem unified_kind_independence_witness :
    (1 ≤ 2 ∧ 2 < 4294967296) ∧
    (
(∀ (t1 t2 : List mem_access_t) (m : Memory),
      t1.map (fun a => a.address) = t2.map (fun a => a.address) →
      run_calls (cache_access 2 cache_map_t.fa cache_org_t.uc) t1 m
        = run_calls (cache_access 2 cache_map_t.fa cache_org_t.uc) t2 m) ∧
    (∀ t : List mem_access_t,
      ∃ l, run_calls (cache_access 2 cache_map_t.fa cache_org_t.uc) t (init_memory 2 (fun _ => 0) (fun _ => 0))
          = .ok l ∧ l.length = t.length) ∧
    (∀ (cache_size : Nat) (tr1 tr2 : List (Char × Nat)),
      block_count cache_size cache_org_t.uc = 2 →
      (∀ r ∈ tr1, r.1 = 'I' ∨ r.1 = 'D') → (∀ r ∈ tr2, r.1 = 'I' ∨ r.1 = 'D') →
      tr1.map (fun r => r.2) = tr2.map (fun r => r.2) →
      main cache_size cache_map_t.fa cache_org_t.uc (fun _ => 0) (fun _ => 0) tr1
        = main cache_size cache_map_t.fa cache_org_t.uc (fun _ => 0) (fun _ => 0) tr2 ∧
      ∃ stats, main cache_size cache_map_t.fa cache_org_t.uc (fun _ => 0) (fun _ => 0) tr1 = .ok stats) ∧
    (main 128 cache_map_t.dm cache_org_t.uc (fun _ => 0) (fun _ => 0)
        [('D', 0x40), ('I', 0xc0), ('D', 0x40)] = .ok ⟨3, 0⟩ ∧
      main 128 cache_map_t.dm cache_org_t.uc (fun _ => 0) (fun _ => 0)
        [('I', 0x40), ('D', 0xc0), ('I', 0x40)] = .ok ⟨3, 0⟩ ∧
      main 128 cache_map_t.fa cache_org_t.uc (fun _ => 0) (fun _ => 0)
        [('D', 0x40), ('I', 0x80), ('I', 0xc0), ('D', 0x40)] = .ok ⟨4, 0⟩ ∧
      main 128 cache_map_t.fa cache_org_t.uc (fun _ => 0) (fun _ => 0)
        [('I', 0x40), ('D', 0x80), ('D', 0xc0), ('I', 0x40)] = .ok ⟨4, 0⟩)) :=
  ⟨⟨by decide, by decide⟩,
    unified_kind_independence 2 (by decide) (by decide) cache_map_t.fa
      (fun _ => 0) (fun _ => 0)⟩

/-! ## The hit rate of a run without accesses -/

theorem main_loop_cut (N : Nat) (cache_mapping : cache_map_t) (cache_org : cache_org_t)
    (ty : Char) (post : List (Char × Nat)) (hty : ty = 'I' ∨ ty = 'D') :
    ∀ (pre : List (Char × Nat)) (fuel1 fuel2 : Nat) (m : Memory),
      pre.length < fuel1 → pre.length < fuel2 → (∀ r ∈ pre, r.2 ≠ 0) →
      main_loop N cache_mapping cache_org fuel1 (pre ++ (ty, 0) :: post) m
        = main_loop N cache_mapping cache_org fuel2 pre m := by
  intro pre
  induction pre with
  | nil =>
    intro fuel1 fuel2 m h1 h2 _
    cases fuel1 with
    | zero => simp at h1
    | succ f1 =>
      cases fuel2 with
      | zero => simp at h2
      | succ f2 =>
        simp [main_loop, read_transaction, known_type_not_unknown ty hty]
  | cons r rest ih =>
    intro fuel1 fuel2 m h1 h2 hnz
    cases fuel1 with
    | zero => simp at h1
    | succ f1 =>
      cases fuel2 with
      | zero => simp at h2
      | succ f2 =>
        obtain ⟨rt, ra⟩ := r
        have hra : ra ≠ 0 := hnz (rt, ra) (List.mem_cons_self _ _)
        simp only [List.cons_append, main_loop, read_transaction]
        by_cases hbad : rt ≠ 'I' ∧ rt ≠ 'D'
        · simp only [if_pos hbad]
        · simp only [if_neg hbad, hra, if_false]
          cases cache_access N cache_mapping cache_org
              ⟨ra, if rt = 'I' then access_t.instruction else access_t.data⟩ m with
          | error e => rfl
          | ok m1 =>
            simp only []
            exact ih f1 f2 m1 (by simp at h1; omega) (by simp at h2; omega)
              (fun x hx => hnz x (List.mem_cons_of_mem _ hx))

theorem main_loop_run_final (N : Nat) (cache_mapping : cache_map_t)
    (cache_org : cache_org_t) :
    ∀ (pre : List (Char × Nat)) (fuel : Nat) (m : Memory),
      pre.length < fuel → (∀ r ∈ pre, r.2 ≠ 0) → (∀ r ∈ pre, r.1 = 'I' ∨ r.1 = 'D') →
      main_loop N cache_mapping cache_org fuel pre m
        = run_final (cache_access N cache_mapping cache_org) (pre.map record_access) m := by
  intro pre
  induction pre with
  | nil =>
    intro fuel m h _ _
    cases fuel with
    | zero => simp at h
    | succ f => simp [main_loop, read_transaction, run_final]
  | cons r rest ih =>
    intro fuel m h hnz hwf
    cases fuel with
    | zero => simp at h
    | succ f =>
      obtain ⟨rt, ra⟩ := r
      have hra : ra ≠ 0 := hnz (rt, ra) (List.mem_cons_self _ _)
      have hbad := known_type_not_unknown rt (hwf (rt, ra) (List.mem_cons_self _ _))
      simp only [main_loop, read_transaction, List.map_cons, run_final, record_access]
      rw [if_neg hbad]
      simp only [hra, if_false]
      cases cache_access N cache_mapping cache_org
          ⟨ra, if rt = 'I' then access_t.instruction else access_t.data⟩ m with
      | error e => rfl
      | ok m1 =>
        simp only []
        exact ih f m1 (by simp at h; omega)
          (fun x hx => hnz x (List.mem_cons_of_mem _ hx))
          (fun x hx => hwf x (List.mem_cons_of_mem _ hx))

theorem run_final_ready (N : Nat) (hN : 1 ≤ N) (hN32 : N < 4294967296)
    (cache_mapping : cache_map_t) (cache_org : cache_org_t) :
    ∀ (accs : List mem_access_t) (m : Memory), Ready N cache_mapping m →
      ∃ m1, run_final (cache_access N cache_mapping cache_org) accs m = .ok m1 ∧
        m1.cache_statistics.accesses = m.cache_statistics.accesses + accs.length := by
  intro accs
  induction accs with
  | nil =>
    intro m _
    exact ⟨m, rfl, rfl⟩
  | cons a rest ih =>
    intro m hr
    obtain ⟨m1, hstep, hr1⟩ := cache_access_ready N hN hN32 cache_mapping cache_org a m hr
    obtain ⟨hacc, _⟩ := cache_access_counts N cache_mapping cache_org a m m1 hstep
    obtain ⟨m2, hrun, hcount⟩ := ih m1 hr1
    refine ⟨m2, by simp only [run_final, hstep, hrun], ?_⟩
    rw [hcount, hacc, List.length_cons]
    omega

/-- C20: the replay loop of `main` treats a record whose address is 0 as the
end of the input.  For every trace `pre ++ (ty, 0) :: post` whose records in
`pre` have non-zero addresses, the loop leaves the memory (statistics, banks,
queues) that it leaves on `pre` alone, whatever `post` holds; on records of
type `I` or `D` with non-zero addresses it leaves the memory obtained by
handing every record, in order, to the cache; for a block count `N ≥ 1` (a
`uint32_t` value) `main` then returns with `accesses` equal to the number of
records before the first address 0; and a record with an address from 1 to 63
is processed like any other. -/
theorem replay_ends_at_zero_address (N : Nat) (hN : 1 ≤ N) (hN32 : N < 4294967296)
    (cache_mapping : cache_map_t) (cache_org : cache_org_t) (g1 g2 : Nat → Int) :
    (∀ (pre post : List (Char × Nat)) (ty : Char) (m : Memory),
      (∀ r ∈ pre, r.2 ≠ 0) → (ty = 'I' ∨ ty = 'D') →
      main_loop N cache_mapping cache_org ((pre ++ (ty, 0) :: post).length + 1)
          (pre ++ (ty, 0) :: post) m
        = main_loop N cache_mapping cache_org (pre.length + 1) pre m) ∧
    (∀ (pre : List (Char × Nat)) (m : Memory),
      (∀ r ∈ pre, r.2 ≠ 0) → (∀ r ∈ pre, r.1 = 'I' ∨ r.1 = 'D') →
      main_loop N cache_mapping cache_org (pre.length + 1) pre m
        = run_final (cache_access N cache_mapping cache_org) (pre.map record_access) m) ∧
    (∀ (cache_size : Nat) (pre post : List (Char × Nat)) (ty : Char),
      block_count cache_size cache_org = N →
      (∀ r ∈ pre, r.2 ≠ 0) → (∀ r ∈ pre, r.1 = 'I' ∨ r.1 = 'D') → (ty = 'I' ∨ ty = 'D') →
      ∃ stats, main cache_size cache_mapping cache_org g1 g2 pre = .ok stats ∧
        main cache_size cache_mapping cache_org g1 g2 (pre ++ (ty, 0) :: post) = .ok stats ∧
        stats.accesses = pre.length) ∧
    (∀ (cache_size : Nat) (ty : Char) (a : Nat),
      block_count cache_size cache_org = N → (ty = 'I' ∨ ty = 'D') → 1 ≤ a → a ≤ 63 →
      ∃ stats, main cache_size cache_mapping cache_org g1 g2 [(ty, a)] = .ok stats ∧
        stats.accesses = 1) := by
  have hmain : ∀ (cache_size : Nat) (pre : List (Char × Nat)),
      block_count cache_size cache_org = N →
      (∀ r ∈ pre, r.2 ≠ 0) → (∀ r ∈ pre, r.1 = 'I' ∨ r.1 = 'D') →
      ∃ stats, main cache_size cache_mapping cache_org g1 g2 pre = .ok stats ∧
        stats.accesses = pre.length := by
    intro cache_size pre hbc hnz hwf
    obtain ⟨m1, hrun, hcount⟩ := run_final_ready N hN hN32 cache_mapping cache_org
      (pre.map record_access) _ (Ready.of_init_memory N hN cache_mapping g1 g2)
    refine ⟨m1.cache_statistics, ?_, ?_⟩
    · simp only [main, hbc]
      rw [main_loop_run_final N cache_mapping cache_org pre _ _ (Nat.lt_succ_self _) hnz hwf,
        hrun]
    · rw [hcount]
      simp [init_memory]
  refine ⟨?_, ?_, ?_, ?_⟩
  · intro pre post ty m hnz hty
    exact main_loop_cut N cache_mapping cache_org ty post hty pre _ _ m
      (by simp; omega) (Nat.lt_succ_self _) hnz
  · intro pre m hnz hwf
    exact main_loop_run_final N cache_mapping cache_org pre _ m (Nat.lt_succ_self _) hnz hwf
  · intro cache_size pre post ty hbc hnz hwf hty
    obtain ⟨stats, hstats, hcount⟩ := hmain cache_size pre hbc hnz hwf
    refine ⟨stats, hstats, ?_, hcount⟩
    rw [← hstats]
    simp only [main, hbc]
    rw [main_loop_cut N cache_mapping cache_org ty post hty pre _ (pre.length + 1) _
      (by simp; omega) (Nat.lt_succ_self _) hnz]
  · intro cache_size ty a hbc hty h1 h63
    obtain ⟨stats, hstats, hcount⟩ := hmain cache_size [(ty, a)] hbc
      (by
        intro r hr
        rw [List.mem_singleton.mp hr]
        show a ≠ 0
        omega)
      (by
        intro r hr
        rw [List.mem_singleton.mp hr]
        exact hty)
    exact ⟨stats, hstats, hcount⟩

theorem replay_ends_at_zero_address_witness :
    (1 ≤ 2 ∧ 2 < 4294967296) ∧
    (
(∀ (pre post : List (Char × Nat)) (ty : Char) (m : Memory),
      (∀ r ∈ pre, r.2 ≠ 0) → (ty = 'I' ∨ ty = 'D') →
      main_loop 2 cache_map_t.dm cache_org_t.uc ((pre ++ (ty, 0) :: post).length + 1)
          (pre ++ (ty, 0) :: post) m
        = main_loop 2 cache_map_t.dm cache_org_t.uc (pre.length + 1) pre m) ∧
    (∀ (pre : List (Char × Nat)) (m : Memory),
      (∀ r ∈ pre, r.2 ≠ 0) → (∀ r ∈ pre, r.1 = 'I' ∨ r.1 = 'D') →
      main_loop 2 cache_map_t.dm cache_org_t.uc (pre.length + 1) pre m
        = run_final (cache_access 2 cache_map_t.dm cache_org_t.uc) (pre.map record_access) m) ∧
    (∀ (cache_size : Nat) (pre post : List (Char × Nat)) (ty : Char),
      block_count cache_size cache_org_t.uc = 2 →
      (∀ r ∈ pre, r.2 ≠ 0) → (∀ r ∈ pre, r.1 = 'I' ∨ r.1 = 'D') → (ty = 'I' ∨ ty = 'D') →
      ∃ stats, main cache_size cache_map_t.dm cache_org_t.uc (fun _ => 0) (fun _ => 0) pre = .ok stats ∧
        main cache_size cache_map_t.dm cache_org_t.uc (fun _ => 0) (fun _ => 0) (pre ++ (ty, 0) :: post) = .ok stats ∧
        stats.accesses = pre.length) ∧
    (∀ (cache_size : Nat) (ty : Char) (a : Nat),
      block_count cache_size cache_org_t.uc = 2 → (ty = 'I' ∨ ty = 'D') → 1 ≤ a → a ≤ 63 →
      ∃ stats, main cache_size cache_map_t.dm cache_org_t.uc (fun _ => 0) (fun _ => 0) [(ty, a)] = .ok stats ∧
        stats.accesses = 1)) :=
  ⟨⟨by decide, by decide⟩,
    replay_ends_at_zero_address 2 (by decide) (by decide) cache_map_t.dm cache_org_t.uc
      (fun _ => 0) (fun _ => 0)⟩

/-! ## Reachable states of the fully-associative banks -/

theorem fifo_access_nodup (N : Nat) (L : List Nat) (t : Nat) (h : L.Nodup) :
    (fifo_access N L t).2.Nodup := by
  unfold fifo_access
  by_cases ht : t ∈ L
  · rw [if_pos ht]
    exact h
  · rw [if_neg ht]
    by_cases hl : L.length = N
    · rw [if_pos hl]
      exact List.Nodup.append (List.Nodup.sublist (List.tail_sublist L) h)
        (List.nodup_singleton t)
        (List.disjoint_singleton.mpr (fun hm => ht (List.mem_of_mem_tail hm)))
    · rw [if_neg hl]
      exact List.Nodup.append h (List.nodup_singleton t) (List.disjoint_singleton.mpr ht)

theorem FAGood.of_empty_bank (N : Nat) (hN : 1 ≤ N) (blocks : List block) (q : block_queue)
    (hlen : blocks.length = N) (hfree : ∀ b ∈ blocks, b.valid = 0)
    (hq : q.block_indexes.length = N) (hhead : q.head = -1) (htail : q.tail = -1) :
    FAGood N blocks q :=
  ⟨[], 0, FAInv.of_empty N hN blocks q hlen hfree hq hhead htail, List.nodup_nil⟩

theorem FAGood.step {N : Nat} (hN : 1 ≤ N) (hN32 : N < 4294967296) {blocks : List block}
    {q : block_queue} (hg : FAGood N blocks q) (t : Nat) :
    ∃ r, fa_bank N blocks q t = .ok r ∧ FAGood N r.1 r.2.1 := by
  obtain ⟨L, h, inv, hnd⟩ := hg
  obtain ⟨bs, q1, h1, heq, inv1⟩ := fa_bank_step inv hN hN32 t
  exact ⟨_, heq, _, h1, inv1, fifo_access_nodup N L t hnd⟩

theorem fa_routed_run_good {N : Nat} (hN : 1 ≤ N) (hN32 : N < 4294967296)
    (dc : cache) (dq : queue_ptr) (ic : cache) (iq : queue_ptr) (c : cache) (qp : queue_ptr) :
    ∀ (trace : List mem_access_t) (m : Memory),
      (∀ a ∈ trace, select dc ic a.accesstype = c ∧ select dq iq a.accesstype = qp) →
      FAGood N (m.blocks c) (m.queue qp) →
      ∃ l, run_calls (fully_associative N dc dq ic iq) trace m = .ok l ∧
        ∀ x ∈ l, FAGood N (x.2.blocks c) (x.2.queue qp) := by
  intro trace
  induction trace with
  | nil =>
    intro m _ _
    exact ⟨[], rfl, by simp⟩
  | cons a rest ih =>
    intro m hroute hg
    obtain ⟨hc, hq⟩ := hroute a (List.mem_cons_self _ _)
    obtain ⟨r, hr, hg1⟩ := hg.step hN hN32 (a.address >>> 6)
    have hstep : fully_associative N dc dq ic iq a m = .ok (m.commit c qp r) := by
      rw [fully_associative_eq, hc, hq, hr]
    have hg2 : FAGood N ((m.commit c qp r).blocks c) ((m.commit c qp r).queue qp) := by
      rw [Memory.blocks_commit, Memory.queue_commit]
      exact hg1
    obtain ⟨l, hrun, hall⟩ := ih (m.commit c qp r)
      (fun x hx => hroute x (List.mem_cons_of_mem _ hx)) hg2
    refine ⟨(decide ((m.commit c qp r).cache_statistics.hits ≠ m.cache_statistics.hits),
      m.commit c qp r) :: l, by simp only [run_calls, hstep, hrun], ?_⟩
    intro x hx
    rcases List.mem_cons.mp hx with hx | hx
    · subst hx
      exact hg2
    · exact hall x hx

theorem cache_access_fa_good {N : Nat} (hN : 1 ≤ N) (hN32 : N < 4294967296)
    (cache_org : cache_org_t) (a : mem_access_t) (m : Memory)
    (hd : FAGood N m.data_blocks m.queue_data)
    (hi : FAGood N m.instruction_blocks m.queue_instructions) :
    ∃ m1, cache_access N cache_map_t.fa cache_org a m = .ok m1 ∧
      FAGood N m1.data_blocks m1.queue_data ∧
      FAGood N m1.instruction_blocks m1.queue_instructions := by
  rcases route_pair cache_org a.accesstype with ⟨hc, hq⟩ | ⟨hc, hq⟩
  · obtain ⟨r, hr, hg1⟩ := hd.step hN hN32 (a.address >>> 6)
    refine ⟨m.add_access.commit cache.data_blocks queue_ptr.queue_data r, ?_, ?_⟩
    · rw [cache_access_fa, hc, hq]
      simp only [Memory.blocks, Memory.queue]
      rw [hr]
    · rw [Memory.commit_data_blocks, Memory.commit_instruction_blocks,
        Memory.commit_queue_data, Memory.commit_queue_instructions]
      exact ⟨hg1, hi⟩
  · obtain ⟨r, hr, hg1⟩ := hi.step hN hN32 (a.address >>> 6)
    refine ⟨m.add_access.commit cache.instruction_blocks queue_ptr.queue_instructions r,
      ?_, ?_⟩
    · rw [cache_access_fa, hc, hq]
      simp only [Memory.blocks, Memory.queue]
      rw [hr]
    · rw [Memory.commit_data_blocks, Memory.commit_instruction_blocks,
        Memory.commit_queue_data, Memory.commit_queue_instructions]
      exact ⟨hd, hg1⟩

theorem cache_access_fa_run_good {N : Nat} (hN : 1 ≤ N) (hN32 : N < 4294967296)
    (cache_org : cache_org_t) :
    ∀ (trace : List mem_access_t) (m : Memory),
      FAGood N m.data_blocks m.queue_data →
      FAGood N m.instruction_blocks m.queue_instructions →
      ∃ l, run_calls (cache_access N cache_map_t.fa cache_org) trace m = .ok l ∧
        ∀ x ∈ l, FAGood N x.2.data_blocks x.2.queue_data ∧
          FAGood N x.2.instruction_blocks x.2.queue_instructions := by
  intro trace
  induction trace with
  | nil =>
    intro m _ _
    exact ⟨[], rfl, by simp⟩
  | cons a rest ih =>
    intro m hd hi
    obtain ⟨m1, hstep, hd1, hi1⟩ := cache_access_fa_good hN hN32 cache_org a m hd hi
    obtain ⟨l, hrun, hall⟩ := ih m1 hd1 hi1
    refine ⟨(decide (m1.cache_statistics.hits ≠ m.cache_statistics.hits), m1) :: l,
      by simp only [run_calls, hstep, hrun], ?_⟩
    intro x hx
    rcases List.mem_cons.mp hx with hx | hx
    · subst hx
      exact ⟨hd1, hi1⟩
    · exact hall x hx

theorem init_memory_good (N : Nat) (hN : 1 ≤ N) (g1 g2 : Nat → Int) :
    FAGood N (init_memory N g1 g2).data_blocks (init_memory N g1 g2).queue_data ∧
    FAGood N (init_memory N g1 g2).instruction_blocks
      (init_memory N g1 g2).queue_instructions := by
  have hfree : ∀ b ∈ List.replicate N (⟨0, 0⟩ : block), b.valid = 0 := by
    intro b hb
    rw [List.eq_of_mem_replicate hb]
  exact ⟨FAGood.of_empty_bank N hN _ _ (by simp [init_memory]) hfree
      (by simp [init_memory, empty_queue]) rfl rfl,
    FAGood.of_empty_bank N hN _ _ (by simp [init_memory]) hfree
      (by simp [init_memory, empty_queue]) rfl rfl⟩

theorem FAInv.slot_rank {N : Nat} {blocks : List block} {q : block_queue} {L : List Nat}
    {h : Nat} (inv : FAInv N blocks q L h) (i : Nat) (hi : i < N) (hu : N ≤ i + L.length) :
    ∃ j t, j < L.length ∧ ring_pos N h j = N - 1 - i ∧ L[j]? = some t ∧
      blocks[i]? = some ⟨1, t⟩ := by
  have hlt := inv.head_lt
  have hll := inv.len_list
  have hfill := inv.fill
  let j := if h ≤ N - 1 - i then N - 1 - i - h else N - 1 - i + N - h
  have hj : j < L.length := by
    show (if h ≤ N - 1 - i then N - 1 - i - h else N - 1 - i + N - h) < L.length
    split <;> omega
  have hp : ring_pos N h j = N - 1 - i := by
    show ring_pos N h (if h ≤ N - 1 - i then N - 1 - i - h else N - 1 - i + N - h) = N - 1 - i
    unfold ring_pos
    split <;> split <;> omega
  have hget : L[j]? = some (L.get ⟨j, hj⟩) := List.getElem?_eq_getElem hj
  have h2 := (inv.live j _ hget).2
  rw [hp] at h2
  have hi2 : N - 1 - (N - 1 - i) = i := by omega
  rw [hi2] at h2
  exact ⟨j, _, hj, hp, hget, h2⟩

theorem FAGood.distinct_tags {N : Nat} {blocks : List block} {q : block_queue}
    (hg : FAGood N blocks q) (i1 i2 : Nat) (b1 b2 : block) (hne : i1 ≠ i2)
    (h1 : blocks[i1]? = some b1) (h2 : blocks[i2]? = some b2)
    (hv1 : b1.valid ≠ 0) (hv2 : b2.valid ≠ 0) : b1.tag ≠ b2.tag := by
  obtain ⟨L, h, inv, hnd⟩ := hg
  have hl1 : i1 < N := by
    rw [← inv.len_blocks]
    exact (List.getElem?_eq_some_iff.mp h1).1
  have hl2 : i2 < N := by
    rw [← inv.len_blocks]
    exact (List.getElem?_eq_some_iff.mp h2).1
  have hu : ∀ (i : Nat) (b : block), blocks[i]? = some b → b.valid ≠ 0 → N ≤ i + L.length := by
    intro i b hb hv
    by_contra hc
    obtain ⟨b0, hb0, hz⟩ := inv.free i (by omega)
    rw [hb] at hb0
    injection hb0 with hb0
    subst hb0
    exact hv hz
  obtain ⟨j1, t1, hj1, hp1, hL1, hs1⟩ := inv.slot_rank i1 hl1 (hu i1 b1 h1 hv1)
  obtain ⟨j2, t2, hj2, hp2, hL2, hs2⟩ := inv.slot_rank i2 hl2 (hu i2 b2 h2 hv2)
  rw [h1] at hs1
  rw [h2] at hs2
  injection hs1 with hs1
  injection hs2 with hs2
  subst hs1
  subst hs2
  have hjne : j1 ≠ j2 := by
    intro hj
    rw [hj] at hp1
    omega
  intro htag
  simp only [] at htag
  have hnd2 := List.nodup_iff_getElem?_ne_getElem?.mp hnd
  rcases Nat.lt_or_gt_of_ne hjne with hlt | hgt
  · exact hnd2 j1 j2 hlt hj2 (by rw [hL1, hL2, htag])
  · exact hnd2 j2 j1 hgt hj1 (by rw [hL1, hL2, htag])

/-- C16: for every block count `N ≥ 1` (a `uint32_t` value), in every state
that a run of fully-associative accesses reaches, no two distinct valid slots
of a bank hold the same tag: for the runs of the dispatch of `main` (both
organisations, any mix of kinds) from the memory `main` sets up, and for the
runs of `fully_associative` calls routed to one bank and queue that start
with every slot invalid and the queue empty.  All these runs return. -/
theorem valid_tags_distinct (N : Nat) (hN : 1 ≤ N) (hN32 : N < 4294967296) :
    (∀ (cache_org : cache_org_t) (g1 g2 : Nat → Int) (trace : List mem_access_t),
      ∃ l, run_calls (cache_access N cache_map_t.fa cache_org) trace (init_memory N g1 g2)
          = .ok l ∧
        ∀ x ∈ l, ∀ (c : cache) (i1 i2 : Nat) (b1 b2 : block), i1 ≠ i2 →
          (x.2.blocks c)[i1]? = some b1 → (x.2.blocks c)[i2]? = some b2 →
          b1.valid ≠ 0 → b2.valid ≠ 0 → b1.tag ≠ b2.tag) ∧
    (∀ (dc : cache) (dq : queue_ptr) (ic : cache) (iq : queue_ptr) (c : cache)
        (qp : queue_ptr) (trace : List mem_access_t) (m : Memory),
      (∀ a ∈ trace, select dc ic a.accesstype = c ∧ select dq iq a.accesstype = qp) →
      (m.blocks c).length = N → (∀ b ∈ m.blocks c, b.valid = 0) →
      (m.queue qp).block_indexes.length = N →
      (m.queue qp).head = -1 → (m.queue qp).tail = -1 →
      ∃ l, run_calls (fully_associative N dc dq ic iq) trace m = .ok l ∧
        ∀ x ∈ l, ∀ (i1 i2 : Nat) (b1 b2 : block), i1 ≠ i2 →
          (x.2.blocks c)[i1]? = some b1 → (x.2.blocks c)[i2]? = some b2 →
          b1.valid ≠ 0 → b2.valid ≠ 0 → b1.tag ≠ b2.tag) := by
  constructor
  · intro cache_org g1 g2 trace
    obtain ⟨hd, hi⟩ := init_memory_good N hN g1 g2
    obtain ⟨l, hrun, hall⟩ := cache_access_fa_run_good hN hN32 cache_org trace _ hd hi
    refine ⟨l, hrun, ?_⟩
    intro x hx c i1 i2 b1 b2 hne h1 h2 hv1 hv2
    cases c
    · exact (hall x hx).1.distinct_tags i1 i2 b1 b2 hne h1 h2 hv1 hv2
    · exact (hall x hx).2.distinct_tags i1 i2 b1 b2 hne h1 h2 hv1 hv2
  · intro dc dq ic iq c qp trace m hroute hlen hempty hqlen hhead htail
    obtain ⟨l, hrun, hall⟩ := fa_routed_run_good hN hN32 dc dq ic iq c qp trace m hroute
      (FAGood.of_empty_bank N hN _ _ hlen hempty hqlen hhead htail)
    exact ⟨l, hrun, fun x hx i1 i2 b1 b2 hne h1 h2 hv1 hv2 =>
      (hall x hx).distinct_tags i1 i2 b1 b2 hne h1 h2 hv1 hv2⟩

theorem valid_tags_distinct_witness :
    (1 ≤ 2 ∧ 2 < 4294967296) ∧
    (
(∀ (cache_org : cache_org_t) (g1 g2 : Nat → Int) (trace : List mem_access_t),
      ∃ l, run_calls (cache_access 2 cache_map_t.fa cache_org) trace (init_memory 2 g1 g2)
          = .ok l ∧
        ∀ x ∈ l, ∀ (c : cache) (i1 i2 : Nat) (b1 b2 : block), i1 ≠ i2 →
          (x.2.blocks c)[i1]? = some b1 → (x.2.blocks c)[i2]? = some b2 →
          b1.valid ≠ 0 → b2.valid ≠ 0 → b1.tag ≠ b2.tag) ∧
    (∀ (dc : cache) (dq : queue_ptr) (ic : cache) (iq : queue_ptr) (c : cache)
        (qp : queue_ptr) (trace : List mem_access_t) (m : Memory),
      (∀ a ∈ trace, select dc ic a.accesstype = c ∧ select dq iq a.accesstype = qp) →
      (m.blocks c).length = 2 → (∀ b ∈ m.blocks c, b.valid = 0) →
      (m.queue qp).block_indexes.length = 2 →
      (m.queue qp).head = -1 → (m.queue qp).tail = -1 →
      ∃ l, run_calls (fully_associative 2 dc dq ic iq) trace m = .ok l ∧
        ∀ x ∈ l, ∀ (i1 i2 : Nat) (b1 b2 : block), i1 ≠ i2 →
          (x.2.blocks c)[i1]? = some b1 → (x.2.blocks c)[i2]? = some b2 →
          b1.valid ≠ 0 → b2.valid ≠ 0 → b1.tag ≠ b2.tag)) :=
  ⟨⟨by decide, by decide⟩, valid_tags_distinct 2 (by decide) (by decide)⟩

/-! ## The live entries of the replacement queue -/

theorem ring_pos_eq_mod (N h j : Nat) (hh : h < N) (hj : j < N) :
    (h + j) % N = ring_pos N h j := by
  unfold ring_pos
  by_cases hlt : h + j < N
  · rw [if_pos hlt, Nat.mod_eq_of_lt hlt]
  · rw [if_neg hlt, Nat.mod_eq_sub_mod (by omega), Nat.mod_eq_of_lt (by omega)]

theorem FAInv.live_count_eq {N : Nat} {blocks : List block} {q : block_queue} {L : List Nat}
    {h : Nat} (inv : FAInv N blocks q L h) : live_count N q = L.length := by
  have hlt := inv.head_lt
  have hll := inv.len_list
  unfold live_count
  by_cases hL : L = []
  · have hh := inv.head_eq
    rw [if_pos hL] at hh
    rw [if_pos hh, hL]
    rfl
  · have hh := inv.head_eq
    have ht := inv.tail_eq
    rw [if_neg hL] at hh ht
    have hpos : 0 < L.length := List.length_pos.mpr hL
    rw [if_neg (by omega), hh, ht, Int.toNat_ofNat, Int.toNat_ofNat]
    have : (ring_pos N h (L.length - 1) + N - h) % N = L.length - 1 := by
      unfold ring_pos
      by_cases hc : h + (L.length - 1) < N
      · rw [if_pos hc]
        have e : h + (L.length - 1) + N - h = (L.length - 1) + N := by omega
        rw [e, Nat.add_mod_right, Nat.mod_eq_of_lt (by omega)]
      · rw [if_neg hc]
        have e : h + (L.length - 1) - N + N - h = L.length - 1 := by omega
        rw [e, Nat.mod_eq_of_lt (by omega)]
    rw [this]
    omega

theorem FAInv.live_positions_eq {N : Nat} {blocks : List block} {q : block_queue}
    {L : List Nat} {h : Nat} (inv : FAInv N blocks q L h) :
    live_positions N q = (List.range L.length).map (ring_pos N h) := by
  have hlt := inv.head_lt
  have hll := inv.len_list
  unfold live_positions
  rw [inv.live_count_eq]
  apply List.map_congr_left
  intro j hj
  have hjl : j < L.length := List.mem_range.mp hj
  have hL : L ≠ [] := by
    intro h0
    rw [h0] at hjl
    simp at hjl
  have hh := inv.head_eq
  rw [if_neg hL] at hh
  rw [hh, Int.toNat_ofNat]
  exact ring_pos_eq_mod N h j hlt (by omega)

theorem FAInv.live_entries_eq {N : Nat} {blocks : List block} {q : block_queue}
    {L : List Nat} {h : Nat} (inv : FAInv N blocks q L h) :
    live_entries N q
      = (List.range L.length).map (fun j => ((N - 1 - ring_pos N h j : Nat) : Int)) := by
  unfold live_entries
  rw [inv.live_positions_eq, List.map_map]
  apply List.map_congr_left
  intro j hj
  have hjl : j < L.length := List.mem_range.mp hj
  have hget : L[j]? = some (L.get ⟨j, hjl⟩) := List.getElem?_eq_getElem hjl
  have hcell := (inv.live j _ hget).1
  simp only [Function.comp, List.getD_eq_getElem?_getD, hcell, Option.getD_some]

theorem countP_valid_of_shape :
    ∀ (blocks : List block) (F : Nat), F ≤ blocks.length →
      (∀ i, i < F → ∃ b, blocks[i]? = some b ∧ b.valid = 0) →
      (∀ i b, F ≤ i → blocks[i]? = some b → b.valid ≠ 0) →
      blocks.countP (fun b => decide (b.valid ≠ 0)) = blocks.length - F := by
  intro blocks
  induction blocks with
  | nil =>
    intro F _ _ _
    simp
  | cons b bs ih =>
    intro F hF hfree hused
    cases F with
    | zero =>
      have : List.countP (fun b => decide (b.valid ≠ 0)) (b :: bs) = (b :: bs).length := by
        rw [List.countP_eq_length]
        intro a ha
        obtain ⟨i, hi⟩ := List.mem_iff_getElem?.mp ha
        exact decide_eq_true (hused i a (Nat.zero_le _) hi)
      rw [this]
      rfl
    | succ F1 =>
      obtain ⟨b0, hb0, hz⟩ := hfree 0 (Nat.succ_pos _)
      simp only [List.getElem?_cons_zero, Option.some.injEq] at hb0
      subst hb0
      rw [List.countP_cons_of_neg _ _ (by simp [hz])]
      rw [ih F1 (by simpa using hF)
        (fun i hi => by
          obtain ⟨x, hx, hxz⟩ := hfree (i + 1) (by omega)
          exact ⟨x, by simpa using hx, hxz⟩)
        (fun i x hi hx => hused (i + 1) x (by omega) (by simpa using hx))]
      simp

theorem FAInv.count_valid {N : Nat} {blocks : List block} {q : block_queue} {L : List Nat}
    {h : Nat} (inv : FAInv N blocks q L h) :
    blocks.countP (fun b => decide (b.valid ≠ 0)) = L.length := by
  have hlb := inv.len_blocks
  have hll := inv.len_list
  rw [countP_valid_of_shape blocks (N - L.length) (by omega)
    (fun i hi => inv.free i (by omega))
    (fun i b hi hb => by
      have hiN : i < N := by
        rw [← hlb]
        exact (List.getElem?_eq_some_iff.mp hb).1
      obtain ⟨t, _, hs⟩ := inv.slot_used i hiN (by omega)
      rw [hb] at hs
      injection hs with hs
      subst hs
      simp)]
  omega

theorem ring_pos_lt (N h j : Nat) (hh : h < N) (hj : j < N) : ring_pos N h j < N := by
  unfold ring_pos
  split <;> omega

theorem ring_pos_inj (N h j1 j2 : Nat) (h1 : j1 < N) (h2 : j2 < N)
    (he : ring_pos N h j1 = ring_pos N h j2) : j1 = j2 := by
  unfold ring_pos at he
  split at he <;> split at he <;> omega

theorem FAInv.queue_ops {N : Nat} {blocks : List block} {q : block_queue} {L : List Nat}
    {h : Nat} (inv : FAInv N blocks q L h) (hN : 1 ≤ N) (hN32 : N < 4294967296) (t : Nat) :
    scan blocks t N 0 (-1) = .ok .hit ∨
    (∃ li q1, scan blocks t N 0 (-1) = .ok (.no_hit li) ∧ li > -1 ∧
      enqueue N q li = .ok q1 ∧ q1.tail.toNat ∉ live_positions N q) ∨
    (∃ li r q1 q2, scan blocks t N 0 (-1) = .ok (.no_hit li) ∧ ¬ li > -1 ∧
      live_count N q = N ∧ dequeue N q = .ok (r, q1) ∧ 0 ≤ r ∧ r < (N : Int) ∧
      enqueue N q1 r = .ok q2 ∧ q2.tail.toNat ∉ (live_positions N q).tail) := by
  have hlt := inv.head_lt
  have hll := inv.len_list
  by_cases ht : t ∈ L
  · left
    obtain ⟨j, hj⟩ := List.mem_iff_getElem?.mp ht
    have hb := (inv.live j t hj).2
    exact scan_hit blocks t N 0 (-1) (by rw [inv.len_blocks]; omega)
      ⟨_, _, Nat.zero_le _, hb, by simp, rfl⟩
  · right
    have hs := fa_bank_scan_miss inv t ht
    by_cases hlen : L.length = N
    · right
      rw [if_neg (by omega)] at hs
      have hL : L ≠ [] := by
        intro h0
        rw [h0] at hlen
        simp at hlen
        omega
      have hhead : q.head = (h : Int) := by
        have := inv.head_eq
        rwa [if_neg hL] at this
      have htail : q.tail = (ring_pos N h (N - 1) : Int) := by
        have := inv.tail_eq
        rwa [if_neg hL, hlen] at this
      have h0 : L[0]? = some (L.get ⟨0, by omega⟩) := List.getElem?_eq_getElem (by omega)
      have hr0 : ring_pos N h 0 = h := by
        unfold ring_pos
        split <;> omega
      have hlive := inv.live 0 _ h0
      rw [hr0] at hlive
      have hT : ring_pos N h (N - 1) + 1 ≤ N ∧
          (if ring_pos N h (N - 1) + 1 = N then 0 else ring_pos N h (N - 1) + 1) = h := by
        unfold ring_pos
        split <;> split <;> omega
      have hdq := dequeue_eq N hN32 q h _ hlt hhead hlive.1
      have henq := enqueue_eq N hN hN32
        ⟨q.block_indexes, ((if h + 1 < N then h + 1 else 0 : Nat) : Int), q.tail⟩
        ((N - 1 - h : Nat) : Int) (ring_pos N h (N - 1) + 1) hT.1 (by simp [htail])
        (by simp [inv.len_queue])
      refine ⟨_, _, _, _, hs, by omega, by rw [inv.live_count_eq, hlen], hdq, by omega,
        by omega, henq, ?_⟩
      simp only [hT.2, Int.toNat_ofNat]
      rw [inv.live_positions_eq, hlen]
      intro hmem
      obtain ⟨k, hk⟩ := List.mem_iff_getElem?.mp hmem
      rw [List.getElem?_tail, List.getElem?_map] at hk
      have hk1 : k + 1 < N := by
        by_contra hc
        rw [List.getElem?_eq_none (by simp; omega)] at hk
        simp at hk
      rw [List.getElem?_range hk1] at hk
      simp only [Option.map_some', Option.some.injEq] at hk
      have := ring_pos_inj N h (k + 1) 0 hk1 (by omega) (by rw [hk, hr0])
      omega
    · left
      have hlt2 : L.length < N := lt_of_le_of_ne hll hlen
      rw [if_pos (by omega)] at hs
      have h0 := inv.fill hlt2
      have htail := inv.tail_succ_of_fill hlt2
      have henq := enqueue_eq N hN hN32 q ((N - L.length - 1 : Nat) : Int) L.length
        (by omega) (by omega) inv.len_queue
      rw [if_neg hlen] at henq
      refine ⟨_, _, hs, by omega, henq, ?_⟩
      simp only [Int.toNat_ofNat]
      rw [inv.live_positions_eq, h0]
      intro hmem
      obtain ⟨j, hj, hje⟩ := List.mem_map.mp hmem
      have hjl : j < L.length := List.mem_range.mp hj
      unfold ring_pos at hje
      split at hje <;> omega

theorem FAInv.queue_sound_of {N : Nat} {blocks : List block} {q : block_queue} {L : List Nat}
    {h : Nat} (inv : FAInv N blocks q L h) (hN : 1 ≤ N) (hN32 : N < 4294967296) :
    queue_sound N blocks q := by
  have hlt := inv.head_lt
  have hll := inv.len_list
  refine ⟨?_, ?_, ?_, ?_, fun t => inv.queue_ops hN hN32 t⟩
  · rw [inv.live_entries_eq]
    refine List.Nodup.map_on ?_ (List.nodup_range _)
    intro x hx y hy hxy
    have hx1 : x < L.length := List.mem_range.mp hx
    have hy1 : y < L.length := List.mem_range.mp hy
    have hpx := ring_pos_lt N h x hlt (by omega)
    have hpy := ring_pos_lt N h y hlt (by omega)
    exact ring_pos_inj N h x y (by omega) (by omega) (by omega)
  · intro e he
    rw [inv.live_entries_eq] at he
    obtain ⟨j, hj, hje⟩ := List.mem_map.mp he
    have hjl : j < L.length := List.mem_range.mp hj
    have hp := ring_pos_lt N h j hlt (by omega)
    have hget : L[j]? = some (L.get ⟨j, hjl⟩) := List.getElem?_eq_getElem hjl
    have hslot := (inv.live j _ hget).2
    subst hje
    refine ⟨by omega, by omega, ⟨1, L.get ⟨j, hjl⟩⟩, ?_, by simp⟩
    rw [Int.toNat_ofNat]
    exact hslot
  · rw [inv.live_entries_eq, inv.count_valid]
    simp
  · rw [inv.live_entries_eq]
    simpa using hll

theorem FAGood.queue_sound_of_good {N : Nat} {blocks : List block} {q : block_queue}
    (hg : FAGood N blocks q) (hN : 1 ≤ N) (hN32 : N < 4294967296) :
    queue_sound N blocks q := by
  obtain ⟨L, h, inv, _⟩ := hg
  exact inv.queue_sound_of hN hN32

/-- C17: for every block count `N ≥ 1` (a `uint32_t` value), the memory that
`main` sets up and every state that a run of fully-associative accesses
reaches from it (both organisations, any mix of kinds) satisfy `queue_sound`
for each bank with its queue, and so do the states of runs of
`fully_associative` calls routed to one bank and queue that start with every
slot invalid and the queue empty (`head = tail = -1`): the live entries of the
queue are pairwise distinct indices below `N` of valid slots, as many as there
are valid slots and at most `N`; `enqueue` never writes at a live position;
`dequeue` is called only with exactly `N` live entries and returns an index
below `N`.  All these runs return. -/
theorem replacement_queue_sound (N : Nat) (hN : 1 ≤ N) (hN32 : N < 4294967296) :
    (∀ (cache_org : cache_org_t) (g1 g2 : Nat → Int) (trace : List mem_access_t),
      ∃ l, run_calls (cache_access N cache_map_t.fa cache_org) trace (init_memory N g1 g2)
          = .ok l ∧
        queue_sound N (init_memory N g1 g2).data_blocks (init_memory N g1 g2).queue_data ∧
        queue_sound N (init_memory N g1 g2).instruction_blocks
          (init_memory N g1 g2).queue_instructions ∧
        ∀ x ∈ l, queue_sound N x.2.data_blocks x.2.queue_data ∧
          queue_sound N x.2.instruction_blocks x.2.queue_instructions) ∧
    (∀ (dc : cache) (dq : queue_ptr) (ic : cache) (iq : queue_ptr) (c : cache)
        (qp : queue_ptr) (trace : List mem_access_t) (m : Memory),
      (∀ a ∈ trace, select dc ic a.accesstype = c ∧ select dq iq a.accesstype = qp) →
      (m.blocks c).length = N → (∀ b ∈ m.blocks c, b.valid = 0) →
      (m.queue qp).block_indexes.length = N →
      (m.queue qp).head = -1 → (m.queue qp).tail = -1 →
      ∃ l, run_calls (fully_associative N dc dq ic iq) trace m = .ok l ∧
        queue_sound N (m.blocks c) (m.queue qp) ∧
        ∀ x ∈ l, queue_sound N (x.2.blocks c) (x.2.queue qp)) := by
  constructor
  · intro cache_org g1 g2 trace
    obtain ⟨hd, hi⟩ := init_memory_good N hN g1 g2
    obtain ⟨l, hrun, hall⟩ := cache_access_fa_run_good hN hN32 cache_org trace _ hd hi
    exact ⟨l, hrun, hd.queue_sound_of_good hN hN32, hi.queue_sound_of_good hN hN32,
      fun x hx => ⟨(hall x hx).1.queue_sound_of_good hN hN32,
        (hall x hx).2.queue_sound_of_good hN hN32⟩⟩
  · intro dc dq ic iq c qp trace m hroute hlen hempty hqlen hhead htail
    have hg := FAGood.of_empty_bank N hN _ _ hlen hempty hqlen hhead htail
    obtain ⟨l, hrun, hall⟩ := fa_routed_run_good hN hN32 dc dq ic iq c qp trace m hroute hg
    exact ⟨l, hrun, hg.queue_sound_of_good hN hN32,
      fun x hx => (hall x hx).queue_sound_of_good hN hN32⟩

theorem replacement_queue_sound_witness :
    (1 ≤ 2 ∧ 2 < 4294967296) ∧
    (
(∀ (cache_org : cache_org_t) (g1 g2 : Nat → Int) (trace : List mem_access_t),
      ∃ l, run_calls (cache_access 2 cache_map_t.fa cache_org) trace (init_memory 2 g1 g2)
          = .ok l ∧
        queue_sound 2 (init_memory 2 g1 g2).data_blocks (init_memory 2 g1 g2).queue_data ∧
        queue_sound 2 (init_memory 2 g1 g2).instruction_blocks
          (init_memory 2 g1 g2).queue_instructions ∧
        ∀ x ∈ l, queue_sound 2 x.2.data_blocks x.2.queue_data ∧
          queue_sound 2 x.2.instruction_blocks x.2.queue_instructions) ∧
    (∀ (dc : cache) (dq : queue_ptr) (ic : cache) (iq : queue_ptr) (c : cache)
        (qp : queue_ptr) (trace : List mem_access_t) (m : Memory),
      (∀ a ∈ trace, select dc ic a.accesstype = c ∧ select dq iq a.accesstype = qp) →
      (m.blocks c).length = 2 → (∀ b ∈ m.blocks c, b.valid = 0) →
      (m.queue qp).block_indexes.length = 2 →
      (m.queue qp).head = -1 → (m.queue qp).tail = -1 →
      ∃ l, run_calls (fully_associative 2 dc dq ic iq) trace m = .ok l ∧
        queue_sound 2 (m.blocks c) (m.queue qp) ∧
        ∀ x ∈ l, queue_sound 2 (x.2.blocks c) (x.2.queue qp))) :=
  ⟨⟨by decide, by decide⟩, replacement_queue_sound 2 (by decide) (by decide)⟩

/-! ## Direct mapping for any block count -/

theorem decode_index_and_mask (N a : Nat) (hN : 1 ≤ N) (hN32 : N < 4294967296) :
    decode_index N a &&& (N - 1) = decode_index N a := by
  rw [decode_index_eq N a hN hN32, Nat.and_assoc, Nat.and_self]

theorem decode_index_le (N a : Nat) (hN : 1 ≤ N) (hN32 : N < 4294967296) :
    decode_index N a ≤ N - 1 := by
  rw [decode_index_eq N a hN hN32]
  exact Nat.and_le_right

theorem decode_index_ne (N a i : Nat) (hN : 1 ≤ N) (hN32 : N < 4294967296)
    (hi : i &&& (N - 1) ≠ i) : decode_index N a ≠ i := by
  intro h
  apply hi
  rw [← h]
  exact decode_index_and_mask N a hN hN32

theorem decode_inj (N a b : Nat) (hN : 1 ≤ N) (hN32 : N < 4294967296)
    (ha : a < 4294967296) (hb : b < 4294967296) :
    (decode_index N a = decode_index N b ∧ decode_tag N a = decode_tag N b) ↔
      a >>> 6 = b >>> 6 := by
  constructor
  · rintro ⟨h1, h2⟩
    rw [← decode_index_or_tag N a hN hN32 ha, ← decode_index_or_tag N b hN hN32 hb, h1, h2]
  · intro h
    unfold decode_index decode_tag
    rw [h]
    exact ⟨rfl, rfl⟩

theorem Ready.bank_length (N : Nat) (m : Memory) (hr : Ready N cache_map_t.dm m) (c : cache) :
    (m.blocks c).length = N := by
  cases c
  · exact hr.1
  · exact hr.2

theorem cache_access_dm_ready (N : Nat) (hN : 1 ≤ N) (hN32 : N < 4294967296)
    (cache_org : cache_org_t) (access : mem_access_t) (m : Memory)
    (hr : Ready N cache_map_t.dm m) :
    ∃ b, (m.blocks (bank_of cache_org access.accesstype))[decode_index N access.address]?
        = some b ∧
      cache_access N cache_map_t.dm cache_org access m =
        .ok (m.add_access.commit (bank_of cache_org access.accesstype) queue_ptr.queue_data
          (if b.valid = 0 then
            ((m.blocks (bank_of cache_org access.accesstype)).set
              (decode_index N access.address) ⟨1, decode_tag N access.address⟩,
              m.queue_data, false)
          else if b.tag = decode_tag N access.address then
            (m.blocks (bank_of cache_org access.accesstype), m.queue_data, true)
          else
            ((m.blocks (bank_of cache_org access.accesstype)).set
              (decode_index N access.address) ⟨b.valid, decode_tag N access.address⟩,
              m.queue_data, false))) := by
  have hidx : decode_index N access.address
      < (m.blocks (bank_of cache_org access.accesstype)).length := by
    rw [Ready.bank_length N m hr]
    have := decode_index_le N access.address hN hN32
    omega
  refine ⟨_, List.getElem?_eq_getElem hidx, ?_⟩
  have hb := List.getElem?_eq_getElem hidx
  rw [cache_access_dm]
  simp only [decode_index_eq N _ hN hN32, decode_tag_eq N _ hN hN32] at hb ⊢
  rw [dm_bank_eq N hN hN32 _ _ _ hb]
  simp only []
  split_ifs <;> rfl

theorem Memory.blocks_add_access (m : Memory) (c : cache) :
    m.add_access.blocks c = m.blocks c := by
  cases c <;> rfl

/-- One direct-mapped access on a memory with `N`-slot banks: it returns; the
banks keep their length; every slot other than the decoded one of the routed
bank is unchanged; a slot that is valid afterwards is the old slot or holds the
decoded tag at the decoded index of the routed bank; and a hit finds the
decoded tag in a valid slot at the decoded index. -/
theorem cache_access_dm_step (N : Nat) (hN : 1 ≤ N) (hN32 : N < 4294967296)
    (cache_org : cache_org_t) (access : mem_access_t) (m : Memory)
    (hr : Ready N cache_map_t.dm m) :
    ∃ m1, cache_access N cache_map_t.dm cache_org access m = .ok m1 ∧
      Ready N cache_map_t.dm m1 ∧
      (∀ c i, (c ≠ bank_of cache_org access.accesstype ∨ i ≠ decode_index N access.address) →
        (m1.blocks c)[i]? = (m.blocks c)[i]?) ∧
      (∀ c i b, (m1.blocks c)[i]? = some b →
        (m.blocks c)[i]? = some b ∨
        (c = bank_of cache_org access.accesstype ∧ i = decode_index N access.address ∧
          b.tag = decode_tag N access.address)) ∧
      (m1.cache_statistics.hits ≠ m.cache_statistics.hits →
        ∃ b, (m.blocks (bank_of cache_org access.accesstype))[decode_index N access.address]?
            = some b ∧ b.valid ≠ 0 ∧ b.tag = decode_tag N access.address) := by
  obtain ⟨b, hb, hstep⟩ := cache_access_dm_ready N hN hN32 cache_org access m hr
  obtain ⟨m1, h1, hr1⟩ := cache_access_ready N hN hN32 cache_map_t.dm cache_org access m hr
  refine ⟨m1, h1, hr1, ?_, ?_, ?_⟩
  · intro c i hci
    rw [hstep] at h1
    injection h1 with h1
    subst h1
    by_cases hc : c = bank_of cache_org access.accesstype
    · subst hc
      rw [Memory.blocks_commit]
      have hi : i ≠ decode_index N access.address := by
        rcases hci with h | h
        · exact absurd rfl h
        · exact h
      split_ifs
      · exact List.getElem?_set_ne (Ne.symm hi)
      · rfl
      · exact List.getElem?_set_ne (Ne.symm hi)
    · rw [Memory.blocks_commit_ne _ _ _ _ _ hc, Memory.blocks_add_access]
  · intro c i b1 hb1
    rw [hstep] at h1
    injection h1 with h1
    subst h1
    by_cases hc : c = bank_of cache_org access.accesstype
    · subst hc
      rw [Memory.blocks_commit] at hb1
      by_cases hi : i = decode_index N access.address
      · subst hi
        split_ifs at hb1 with hv ht
        · rw [List.getElem?_set_eq_of_lt _ (List.getElem?_eq_some_iff.mp hb).1] at hb1
          injection hb1 with hb1
          subst hb1
          exact Or.inr ⟨rfl, rfl, rfl⟩
        · exact Or.inl hb1
        · rw [List.getElem?_set_eq_of_lt _ (List.getElem?_eq_some_iff.mp hb).1] at hb1
          injection hb1 with hb1
          subst hb1
          exact Or.inr ⟨rfl, rfl, rfl⟩
      · left
        split_ifs at hb1
        · rwa [List.getElem?_set_ne (Ne.symm hi)] at hb1
        · exact hb1
        · rwa [List.getElem?_set_ne (Ne.symm hi)] at hb1
    · rw [Memory.blocks_commit_ne _ _ _ _ _ hc, Memory.blocks_add_access] at hb1
      exact Or.inl hb1
  · intro hh
    rw [hstep] at h1
    injection h1 with h1
    subst h1
    rw [Memory.hits_commit] at hh
    refine ⟨b, hb, ?_, ?_⟩
    · intro hv
      apply hh
      rw [if_pos hv]
      rfl
    · by_contra ht
      apply hh
      by_cases hv : b.valid = 0
      · rw [if_pos hv]
        rfl
      · rw [if_neg hv, if_neg ht]
        rfl

theorem Provenance.of_fresh_memory (N : Nat) (cache_org : cache_org_t) (g1 g2 : Nat → Int) :
    Provenance N cache_org [] (init_memory N g1 g2) := by
  intro c i b hb hv
  exfalso
  apply hv
  have hmem : b ∈ List.replicate N (⟨0, 0⟩ : block) := by
    cases c <;> exact List.getElem?_mem hb
  rw [List.eq_of_mem_replicate hmem]

/-- A run of direct-mapped accesses from a memory with `N`-slot banks in which
every valid slot stems from an access in `seen`: it returns one outcome per
access, and an access that hits was preceded, in `seen` or in the run, by an
access routed to the same bank that decoded to the same index and tag. -/
theorem dm_run_provenance (N : Nat) (hN : 1 ≤ N) (hN32 : N < 4294967296)
    (cache_org : cache_org_t) :
    ∀ (accs seen : List mem_access_t) (m : Memory), Ready N cache_map_t.dm m →
      Provenance N cache_org seen m →
      ∃ l, run_calls (cache_access N cache_map_t.dm cache_org) accs m = .ok l ∧
        l.length = accs.length ∧
        ∀ k x a, l[k]? = some x → accs[k]? = some a → x.1 = true →
          ∃ y ∈ seen ++ accs.take k,
            bank_of cache_org y.accesstype = bank_of cache_org a.accesstype ∧
            decode_index N y.address = decode_index N a.address ∧
            decode_tag N y.address = decode_tag N a.address := by
  intro accs
  induction accs with
  | nil =>
    intro seen m _ _
    exact ⟨[], rfl, rfl, by simp⟩
  | cons a rest ih =>
    intro seen m hr hp
    obtain ⟨m1, h1, hr1, _, hnew, hhit⟩ := cache_access_dm_step N hN hN32 cache_org a m hr
    have hp1 : Provenance N cache_org (seen ++ [a]) m1 := by
      intro c i b hb hv
      rcases hnew c i b hb with hold | ⟨hc, hi, ht⟩
      · obtain ⟨y, hy, hy1⟩ := hp c i b hold hv
        exact ⟨y, List.mem_append_left _ hy, hy1⟩
      · exact ⟨a, by simp, hc.symm, hi.symm, ht.symm⟩
    obtain ⟨l0, hl0, hlen0, hrest⟩ := ih (seen ++ [a]) m1 hr1 hp1
    refine ⟨(decide (m1.cache_statistics.hits ≠ m.cache_statistics.hits), m1) :: l0, ?_, ?_, ?_⟩
    · simp only [run_calls, h1, hl0]
    · simp [hlen0]
    · intro k x a1 hx ha1 hx1
      cases k with
      | zero =>
        simp only [List.getElem?_cons_zero, Option.some.injEq] at hx ha1
        subst hx
        subst ha1
        have hh : m1.cache_statistics.hits ≠ m.cache_statistics.hits := by
          simpa using hx1
        obtain ⟨b, hb, hv, ht⟩ := hhit hh
        obtain ⟨y, hy, hy1, hy2, hy3⟩ := hp _ _ b hb hv
        exact ⟨y, by simpa using hy, hy1, hy2, hy3.trans ht⟩
      | succ k =>
        simp only [List.getElem?_cons_succ] at hx ha1
        obtain ⟨y, hy, hy1⟩ := hrest k x a1 hx ha1 hx1
        exact ⟨y, by simpa using hy, hy1⟩

/-- A run of direct-mapped accesses from a memory with `N`-slot banks returns,
and in every state it passes through each slot whose index is not a bitwise
sub-mask of `N - 1` holds what it held at the start. -/
theorem dm_run_frame (N : Nat) (hN : 1 ≤ N) (hN32 : N < 4294967296)
    (cache_org : cache_org_t) (i : Nat) (hi : i &&& (N - 1) ≠ i) :
    ∀ (trace : List mem_access_t) (m : Memory), Ready N cache_map_t.dm m →
      ∃ l, run_calls (cache_access N cache_map_t.dm cache_org) trace m = .ok l ∧
        l.length = trace.length ∧
        ∀ x ∈ l, ∀ c, (x.2.blocks c)[i]? = (m.blocks c)[i]? := by
  intro trace
  induction trace with
  | nil =>
    intro m _
    exact ⟨[], rfl, rfl, by simp⟩
  | cons a rest ih =>
    intro m hr
    obtain ⟨m1, h1, hr1, hframe, _, _⟩ := cache_access_dm_step N hN hN32 cache_org a m hr
    have hkeep : ∀ c, (m1.blocks c)[i]? = (m.blocks c)[i]? := fun c =>
      hframe c i (Or.inr (Ne.symm (decode_index_ne N a.address i hN hN32 hi)))
    obtain ⟨l0, hl0, hlen0, hrest⟩ := ih m1 hr1
    refine ⟨(decide (m1.cache_statistics.hits ≠ m.cache_statistics.hits), m1) :: l0, ?_, ?_, ?_⟩
    · simp only [run_calls, h1, hl0]
    · simp [hlen0]
    · intro x hx c
      rcases List.mem_cons.mp hx with hx | hx
      · subst hx
        exact hkeep c
      · rw [hrest x hx c, hkeep c]

theorem dm_bank_set_slot (N : Nat) (hN : 1 ≤ N) (hN32 : N < 4294967296)
    (blocks : List block) (a i : Nat) (x : block) (hlen : blocks.length = N)
    (hi : i &&& (N - 1) ≠ i) :
    dm_bank N (blocks.set i x) a =
      match dm_bank N blocks a with
      | .error e => .error e
      | .ok r => .ok (r.1.set i x, r.2) := by
  have hne : i ≠ (a >>> 6) &&& (N - 1) := by
    have := decode_index_ne N a i hN hN32 hi
    rw [decode_index_eq N a hN hN32] at this
    exact Ne.symm this
  have hidx : (a >>> 6) &&& (N - 1) < blocks.length := by
    rw [hlen]
    exact dm_index_lt N _ hN
  have hb := List.getElem?_eq_getElem hidx
  have hb1 : (blocks.set i x)[(a >>> 6) &&& (N - 1)]? = some (blocks[(a >>> 6) &&& (N - 1)]) := by
    rw [List.getElem?_set_ne hne]
    exact hb
  rw [dm_bank_eq N hN hN32 _ a _ hb1, dm_bank_eq N hN hN32 _ a _ hb]
  split_ifs
  · exact congrArg (fun bs => Except.ok (bs, false)) (List.set_comm _ _ _ hne)
  · rfl
  · exact congrArg (fun bs => Except.ok (bs, false)) (List.set_comm _ _ _ hne)

theorem Memory.set_slot_commit (m : Memory) (c k : cache) (i : Nat) (x : block)
    (r : List block × Bool) :
    (m.set_slot c i x).add_access.commit k queue_ptr.queue_data
        ((if c = k then r.1.set i x else r.1), (m.set_slot c i x).queue_data, r.2)
      = (m.add_access.commit k queue_ptr.queue_data (r.1, m.queue_data, r.2)).set_slot c i x := by
  obtain ⟨bs, o⟩ := r
  cases c <;> cases k <;> cases o <;> rfl

theorem Memory.set_slot_statistics (m : Memory) (c : cache) (i : Nat) (x : block) :
    (m.set_slot c i x).cache_statistics = m.cache_statistics := by
  cases c <;> rfl

theorem Ready.set_slot (N : Nat) (m : Memory) (c : cache) (i : Nat) (x : block)
    (hr : Ready N cache_map_t.dm m) : Ready N cache_map_t.dm (m.set_slot c i x) := by
  obtain ⟨hd, hi⟩ := hr
  cases c
  · exact ⟨by simpa [Memory.set_slot, Memory.set_blocks, Memory.blocks] using hd, hi⟩
  · exact ⟨hd, by simpa [Memory.set_slot, Memory.set_blocks, Memory.blocks] using hi⟩

/-- One direct-mapped access does not read a slot whose index is not a bitwise
sub-mask of `N - 1`: overwriting such a slot before the access gives the same
result as overwriting it afterwards. -/
theorem cache_access_set_slot (N : Nat) (hN : 1 ≤ N) (hN32 : N < 4294967296)
    (cache_org : cache_org_t) (access : mem_access_t) (m : Memory) (c : cache) (i : Nat)
    (x : block) (hr : Ready N cache_map_t.dm m) (hi : i &&& (N - 1) ≠ i) :
    cache_access N cache_map_t.dm cache_org access (m.set_slot c i x) =
      match cache_access N cache_map_t.dm cache_org access m with
      | .error e => .error e
      | .ok m1 => .ok (m1.set_slot c i x) := by
  rw [cache_access_dm, cache_access_dm]
  by_cases hc : c = bank_of cache_org access.accesstype
  · subst hc
    have e : (m.set_slot (bank_of cache_org access.accesstype) i x).blocks
        (bank_of cache_org access.accesstype)
        = (m.blocks (bank_of cache_org access.accesstype)).set i x :=
      Memory.blocks_set_blocks _ _ _
    rw [e, dm_bank_set_slot N hN hN32 _ _ i x (Ready.bank_length N m hr _) hi]
    cases dm_bank N (m.blocks (bank_of cache_org access.accesstype)) access.address with
    | error e => rfl
    | ok r =>
      simp only []
      have := Memory.set_slot_commit m (bank_of cache_org access.accesstype)
        (bank_of cache_org access.accesstype) i x r
      rw [if_pos rfl] at this
      rw [this]
  · have e : (m.set_slot c i x).blocks (bank_of cache_org access.accesstype)
        = m.blocks (bank_of cache_org access.accesstype) :=
      Memory.blocks_set_blocks_ne _ _ _ _ (Ne.symm hc)
    rw [e]
    cases dm_bank N (m.blocks (bank_of cache_org access.accesstype)) access.address with
    | error e => rfl
    | ok r =>
      simp only []
      have := Memory.set_slot_commit m c (bank_of cache_org access.accesstype) i x r
      rw [if_neg hc] at this
      rw [this]

/-- A run of direct-mapped accesses does not read a slot whose index is not a
bitwise sub-mask of `N - 1`: overwriting such a slot before the run changes no
outcome, and every state of the run differs only in that slot. -/
theorem dm_run_set_slot (N : Nat) (hN : 1 ≤ N) (hN32 : N < 4294967296)
    (cache_org : cache_org_t) (c : cache) (i : Nat) (x : block) (hi : i &&& (N - 1) ≠ i) :
    ∀ (accs : List mem_access_t) (m : Memory), Ready N cache_map_t.dm m →
      run_calls (cache_access N cache_map_t.dm cache_org) accs (m.set_slot c i x) =
        match run_calls (cache_access N cache_map_t.dm cache_org) accs m with
        | .error e => .error e
        | .ok l => .ok (l.map (fun p => (p.1, p.2.set_slot c i x))) := by
  intro accs
  induction accs with
  | nil =>
    intro m _
    rfl
  | cons a rest ih =>
    intro m hr
    obtain ⟨m1, h1, hr1⟩ := cache_access_ready N hN hN32 cache_map_t.dm cache_org a m hr
    have h2 := cache_access_set_slot N hN hN32 cache_org a m c i x hr hi
    rw [h1] at h2
    simp only [run_calls, h1, h2, ih m1 hr1, Memory.set_slot_statistics]
    cases run_calls (cache_access N cache_map_t.dm cache_org) rest m1 with
    | error e => rfl
    | ok l => rfl

theorem init_memory_slot (N i : Nat) (g1 g2 : Nat → Int) (c : cache) (hi : i < N) :
    ((init_memory N g1 g2).blocks c)[i]? = some ⟨0, 0⟩ := by
  cases c <;> simp [init_memory, Memory.blocks, hi]

/-- C21: for every block count `N ≥ 1` (a `uint32_t` value, a power of two or
not) the decoding of `direct_mapped` gives `index ≤ N - 1` and
`index & (N - 1) = index` for every address, and `index | tag = address >> 6`
for every 32-bit address, so that two 32-bit addresses decode to the same
index and tag exactly when their block addresses are equal.  On a bank of `N`
slots `direct_mapped` returns and the bank keeps its `N` slots.  In a run of
the replay dispatch over 32-bit addresses from the memory `main` sets up,
every access returns and an access that hits was preceded by an access routed
to the same bank with the same block address.  A slot whose index `i` is not
a bitwise sub-mask of `N - 1` is never used: no address decodes to `i`; in
every state of every run the slot holds what it held at the start (from the
memory `main` sets up: invalid with tag 0); and overwriting the slot before a
run changes no outcome and nothing but that slot in the states of the run.
For `N = 3` (cache size 192, unified) every address decodes to index 0 or 2
and slot 1 of both banks stays invalid in every state of every run. -/
theorem direct_mapped_any_block_count (N : Nat) (hN : 1 ≤ N) (hN32 : N < 4294967296) :
    (∀ a, decode_index N a ≤ N - 1 ∧ decode_index N a &&& (N - 1) = decode_index N a) ∧
    (∀ a, a < 4294967296 → decode_index N a ||| decode_tag N a = a >>> 6) ∧
    (∀ a b, a < 4294967296 → b < 4294967296 →
      ((decode_index N a = decode_index N b ∧ decode_tag N a = decode_tag N b) ↔
        a >>> 6 = b >>> 6)) ∧
    (∀ (dc ic : cache) (access : mem_access_t) (m : Memory),
      (m.blocks (select dc ic access.accesstype)).length = N →
      ∃ m1, direct_mapped N dc ic access m = .ok m1 ∧
        (m1.blocks (select dc ic access.accesstype)).length = N) ∧
    (∀ (cache_org : cache_org_t) (accs : List mem_access_t) (g1 g2 : Nat → Int),
      (∀ a ∈ accs, a.address < 4294967296) →
      ∃ l, run_calls (cache_access N cache_map_t.dm cache_org) accs (init_memory N g1 g2)
          = .ok l ∧
        l.length = accs.length ∧
        ∀ k x a, l[k]? = some x → accs[k]? = some a → x.1 = true →
          ∃ y ∈ accs.take k,
            bank_of cache_org y.accesstype = bank_of cache_org a.accesstype ∧
            y.address >>> 6 = a.address >>> 6) ∧
    (∀ i, i &&& (N - 1) ≠ i →
      (∀ a, decode_index N a ≠ i) ∧
      (∀ (cache_org : cache_org_t) (accs : List mem_access_t) (m : Memory),
        Ready N cache_map_t.dm m →
        ∃ l, run_calls (cache_access N cache_map_t.dm cache_org) accs m = .ok l ∧
          l.length = accs.length ∧
          ∀ x ∈ l, ∀ c, (x.2.blocks c)[i]? = (m.blocks c)[i]?) ∧
      (∀ (cache_org : cache_org_t) (accs : List mem_access_t) (g1 g2 : Nat → Int), i < N →
        ∃ l, run_calls (cache_access N cache_map_t.dm cache_org) accs (init_memory N g1 g2)
            = .ok l ∧
          l.length = accs.length ∧
          ∀ x ∈ l, ∀ c, (x.2.blocks c)[i]? = some ⟨0, 0⟩) ∧
      (∀ (cache_org : cache_org_t) (accs : List mem_access_t) (m : Memory) (c : cache)
          (x : block), Ready N cache_map_t.dm m →
        run_calls (cache_access N cache_map_t.dm cache_org) accs (m.set_slot c i x) =
          match run_calls (cache_access N cache_map_t.dm cache_org) accs m with
          | .error e => .error e
          | .ok l => .ok (l.map (fun p => (p.1, p.2.set_slot c i x))))) ∧
    (block_count 192 cache_org_t.uc = 3 ∧
      (∀ a, decode_index 3 a = 0 ∨ decode_index 3 a = 2) ∧
      ∀ (cache_org : cache_org_t) (accs : List mem_access_t) (g1 g2 : Nat → Int),
        ∃ l, run_calls (cache_access 3 cache_map_t.dm cache_org) accs (init_memory 3 g1 g2)
            = .ok l ∧
          l.length = accs.length ∧
          ∀ x ∈ l, ∀ c, (x.2.blocks c)[1]? = some ⟨0, 0⟩) := by
  refine ⟨?_, ?_, ?_, ?_, ?_, ?_, ?_, ?_, ?_⟩
  · intro a
    exact ⟨decode_index_le N a hN hN32, decode_index_and_mask N a hN hN32⟩
  · intro a ha
    exact decode_index_or_tag N a hN hN32 ha
  · intro a b ha hb
    exact decode_inj N a b hN hN32 ha hb
  · intro dc ic access m hlen
    obtain ⟨m1, _, h1, h2, _⟩ := direct_mapped_first N hN hN32 dc ic access m hlen
    exact ⟨m1, h1, h2⟩
  · intro cache_org accs g1 g2 h32
    obtain ⟨l, hl, hlen, hhit⟩ := dm_run_provenance N hN hN32 cache_org accs []
      (init_memory N g1 g2) (Ready.of_init_memory N hN cache_map_t.dm g1 g2)
      (Provenance.of_fresh_memory N cache_org g1 g2)
    refine ⟨l, hl, hlen, ?_⟩
    intro k x a hx ha hx1
    obtain ⟨y, hy, hy1, hy2, hy3⟩ := hhit k x a hx ha hx1
    rw [List.nil_append] at hy
    exact ⟨y, hy, hy1,
      (decode_inj N y.address a.address hN hN32 (h32 y (List.mem_of_mem_take hy))
        (h32 a (List.getElem?_mem ha))).mp ⟨hy2, hy3⟩⟩
  · intro i hi
    refine ⟨fun a => decode_index_ne N a i hN hN32 hi, ?_, ?_, ?_⟩
    · intro cache_org accs m hr
      exact dm_run_frame N hN hN32 cache_org i hi accs m hr
    · intro cache_org accs g1 g2 hiN
      obtain ⟨l, hl, hlen, hkeep⟩ := dm_run_frame N hN hN32 cache_org i hi accs
        (init_memory N g1 g2) (Ready.of_init_memory N hN cache_map_t.dm g1 g2)
      refine ⟨l, hl, hlen, ?_⟩
      intro x hx c
      rw [hkeep x hx c]
      exact init_memory_slot N i g1 g2 c hiN
    · intro cache_org accs m c x hr
      exact dm_run_set_slot N hN hN32 cache_org c i x hi accs m hr
  · decide
  · intro a
    have h1 := decode_index_le 3 a (by decide) (by decide)
    have h2 := decode_index_ne 3 a 1 (by decide) (by decide) (by decide)
    omega
  · intro cache_org accs g1 g2
    obtain ⟨l, hl, hlen, hkeep⟩ := dm_run_frame 3 (by decide) (by decide) cache_org 1
      (by decide) accs (init_memory 3 g1 g2)
      (Ready.of_init_memory 3 (by decide) cache_map_t.dm g1 g2)
    refine ⟨l, hl, hlen, ?_⟩
    intro x hx c
    rw [hkeep x hx c]
    exact init_memory_slot 3 1 g1 g2 c (by decide)

/-- C21 at `N = 3`: the decoding facts for every address, next to a run on
three blocks in which blocks 1, 2, 3, 1, 0 are accessed: the fourth access
hits, the others miss, slots 0 and 2 end up holding blocks 0 and 3, and slot 1
is still invalid. -/
theorem direct_mapped_any_block_count_witness :
    (1 ≤ 3 ∧ 3 < 4294967296) ∧
    (decode_index 3 64 = 0 ∧ decode_tag 3 64 = 1 ∧ decode_index 3 128 = 2 ∧
      decode_tag 3 128 = 0 ∧ decode_index 3 192 = 2 ∧ decode_tag 3 192 = 1) ∧
    run_calls (cache_access 3 cache_map_t.dm cache_org_t.uc)
        [⟨64, access_t.data⟩, ⟨128, access_t.data⟩, ⟨192, access_t.instruction⟩,
          ⟨64, access_t.data⟩, ⟨0, access_t.data⟩]
        (init_memory 3 (fun _ => 0) (fun _ => 0))
      = .ok [
        (false, { init_memory 3 (fun _ => 0) (fun _ => 0) with
          data_blocks := [⟨1, 1⟩, ⟨0, 0⟩, ⟨0, 0⟩], cache_statistics := ⟨1, 0⟩ }),
        (false, { init_memory 3 (fun _ => 0) (fun _ => 0) with
          data_blocks := [⟨1, 1⟩, ⟨0, 0⟩, ⟨1, 0⟩], cache_statistics := ⟨2, 0⟩ }),
        (false, { init_memory 3 (fun _ => 0) (fun _ => 0) with
          data_blocks := [⟨1, 1⟩, ⟨0, 0⟩, ⟨1, 1⟩], cache_statistics := ⟨3, 0⟩ }),
        (true, { init_memory 3 (fun _ => 0) (fun _ => 0) with
          data_blocks := [⟨1, 1⟩, ⟨0, 0⟩, ⟨1, 1⟩], cache_statistics := ⟨4, 1⟩ }),
        (false, { init_memory 3 (fun _ => 0) (fun _ => 0) with
          data_blocks := [⟨1, 0⟩, ⟨0, 0⟩, ⟨1, 1⟩], cache_statistics := ⟨5, 1⟩ })] ∧
    (∀ a, decode_index 3 a ≤ 3 - 1 ∧ decode_index 3 a &&& (3 - 1) = decode_index 3 a) ∧
    (∀ a, a < 4294967296 → decode_index 3 a ||| decode_tag 3 a = a >>> 6) :=
  ⟨⟨by decide, by decide⟩, by decide, by decide,
    (direct_mapped_any_block_count 3 (by decide) (by decide)).1,
    (direct_mapped_any_block_count 3 (by decide) (by decide)).2.1⟩

end CacheSim

namespace Stetris

/-! ## `nextGameTick` stays positive -/

theorem ulong_sub_of_le (ulong_bits a b : Nat) (hb : b ≤ a) (ha : a < 2 ^ ulong_bits) :
    ulong_sub ulong_bits a b = a - b := by
  unfold ulong_sub
  rw [Nat.mod_eq_of_lt ha, Nat.mod_eq_of_lt (lt_of_le_of_lt hb ha)]
  have e : a + 2 ^ ulong_bits - b = (a - b) + 2 ^ ulong_bits := by omega
  rw [e, Nat.add_mod_right, Nat.mod_eq_of_lt (lt_of_le_of_lt (Nat.sub_le a b) ha)]

theorem advanceLevel_fields (ulong_bits : Nat) (g : gameConfig) :
    (advanceLevel ulong_bits g).initNextGameTick = g.initNextGameTick ∧
    (advanceLevel ulong_bits g).nextGameTick =
      (if g.nextGameTick = 1 then g.nextGameTick
       else if 2 ≤ g.nextGameTick ∧ g.nextGameTick ≤ 10 then
         ulong_sub ulong_bits g.nextGameTick 1
       else if 11 ≤ g.nextGameTick ∧ g.nextGameTick ≤ 20 then
         ulong_sub ulong_bits g.nextGameTick 2
       else ulong_sub ulong_bits g.nextGameTick 10) := by
  unfold advanceLevel
  dsimp only
  constructor
  · split_ifs <;> rfl
  · split_ifs <;> rfl

theorem advanceLevel_tick (ulong_bits : Nat) (g : gameConfig) (h1 : 1 ≤ g.nextGameTick)
    (hlt : g.nextGameTick < 2 ^ ulong_bits) :
    1 ≤ (advanceLevel ulong_bits g).nextGameTick ∧
    (advanceLevel ulong_bits g).nextGameTick ≤ g.nextGameTick ∧
    (advanceLevel ulong_bits g).initNextGameTick = g.initNextGameTick ∧
    (g.nextGameTick = 1 → (advanceLevel ulong_bits g).nextGameTick = 1) := by
  obtain ⟨hinit, htick⟩ := advanceLevel_fields ulong_bits g
  refine ⟨?_, ?_, hinit, ?_⟩
  · rw [htick]
    split_ifs with ha hb hc
    · exact h1
    · rw [ulong_sub_of_le _ _ _ (by omega) hlt]; omega
    · rw [ulong_sub_of_le _ _ _ (by omega) hlt]; omega
    · rw [ulong_sub_of_le _ _ _ (by omega) hlt]; omega
  · rw [htick]
    split_ifs with ha hb hc
    · exact le_refl _
    · rw [ulong_sub_of_le _ _ _ (by omega) hlt]; omega
    · rw [ulong_sub_of_le _ _ _ (by omega) hlt]; omega
    · rw [ulong_sub_of_le _ _ _ (by omega) hlt]; omega
  · intro h
    rw [htick, if_pos h]
    exact h

theorem play_tick (ulong_bits : Nat) (hbits : 32 ≤ ulong_bits) :
    ∀ (calls : List call) (g : gameConfig), g.initNextGameTick = 50 →
      1 ≤ g.nextGameTick → g.nextGameTick ≤ 50 →
      1 ≤ (play ulong_bits calls g).nextGameTick ∧
      (play ulong_bits calls g).nextGameTick ≤ 50 := by
  have hpow : 50 < 2 ^ ulong_bits :=
    lt_of_lt_of_le (by decide : 50 < 2 ^ 32) (Nat.pow_le_pow_right (by decide) hbits)
  intro calls
  induction calls with
  | nil =>
    intro g _ h1 h50
    exact ⟨h1, h50⟩
  | cons c rest ih =>
    intro g hinit h1 h50
    cases c with
    | advanceLevel =>
      obtain ⟨ha, hb, hc, _⟩ := advanceLevel_tick ulong_bits g h1 (by omega)
      exact ih _ (by rw [hc]; exact hinit) ha (by omega)
    | gameOver =>
      exact ih (gameOver g) hinit (by simp [gameOver, hinit]) (by simp [gameOver, hinit])

/-- C22: in the falling-block game `nextGameTick` never reaches 0.  For every
width of `unsigned long` of at least 32 bits and `initNextGameTick = 50`:
`gameOver` sets `nextGameTick` to 50; after every finite sequence of
`advanceLevel` and `gameOver` calls made from that state `nextGameTick` is at
least 1 (and at most 50); the tick update `(tick + 1) % nextGameTick` made in
such a state does not divide by zero, it returns, leaves `nextGameTick` as it
is and stores a tick below it; `advanceLevel` maps every representable value
that is at least 1 to a value that is at least 1, and leaves 1 unchanged. -/
theorem nextGameTick_never_zero (ulong_bits : Nat) (hbits : 32 ≤ ulong_bits)
    (g : gameConfig) (hinit : g.initNextGameTick = 50) (calls : List call) :
    (gameOver g).nextGameTick = 50 ∧
    1 ≤ (play ulong_bits calls (gameOver g)).nextGameTick ∧
    (play ulong_bits calls (gameOver g)).nextGameTick ≤ 50 ∧
    (∃ g' : gameConfig,
      tick_update ulong_bits (play ulong_bits calls (gameOver g)) = some g' ∧
      g'.nextGameTick = (play ulong_bits calls (gameOver g)).nextGameTick ∧
      g'.tick < g'.nextGameTick) ∧
    (∀ s : gameConfig, 1 ≤ s.nextGameTick → s.nextGameTick < 2 ^ ulong_bits →
      1 ≤ (advanceLevel ulong_bits s).nextGameTick) ∧
    (∀ s : gameConfig, s.nextGameTick = 1 →
      (advanceLevel ulong_bits s).nextGameTick = 1) := by
  have hstart : (gameOver g).nextGameTick = 50 := by simp [gameOver, hinit]
  obtain ⟨h1, h50⟩ := play_tick ulong_bits hbits calls (gameOver g) hinit
    (by rw [hstart]; decide) (by rw [hstart])
  have hpow : 1 < 2 ^ ulong_bits :=
    lt_of_lt_of_le (by decide : 1 < 2 ^ 32) (Nat.pow_le_pow_right (by decide) hbits)
  refine ⟨hstart, h1, h50, ?_, ?_, ?_⟩
  · have hne : (play ulong_bits calls (gameOver g)).nextGameTick ≠ 0 := by omega
    refine ⟨{ play ulong_bits calls (gameOver g) with
        tick := (((play ulong_bits calls (gameOver g)).tick + 1) % 2 ^ ulong_bits) %
          (play ulong_bits calls (gameOver g)).nextGameTick },
      by rw [tick_update, if_neg hne], rfl, ?_⟩
    exact Nat.mod_lt _ h1
  · intro s hs hlt
    exact (advanceLevel_tick ulong_bits s hs hlt).1
  · intro s hs
    exact (advanceLevel_tick ulong_bits s (by omega) (by omega)).2.2.2 hs

/-- C22 on a 64-bit `unsigned long`: sixteen level advances after `gameOver`
bring `nextGameTick` from 50 down to 2, the seventeenth to 1, where the
eighteenth leaves it, and a later `gameOver` followed by one advance gives
40. -/
theorem nextGameTick_never_zero_witness :
    (32 ≤ 64 ∧ game.initNextGameTick = 50) ∧
    (play 64 (List.replicate 16 call.advanceLevel) (gameOver game)).nextGameTick = 2 ∧
    (play 64 (List.replicate 17 call.advanceLevel) (gameOver game)).nextGameTick = 1 ∧
    (play 64 (List.replicate 18 call.advanceLevel) (gameOver game)).nextGameTick = 1 ∧
    1 ≤ (play 64 (List.replicate 18 call.advanceLevel ++ [call.gameOver, call.advanceLevel])
      (gameOver game)).nextGameTick ∧
    (play 64 (List.replicate 18 call.advanceLevel ++ [call.gameOver, call.advanceLevel])
      (gameOver game)).nextGameTick = 40 :=
  ⟨⟨by decide, rfl⟩, by decide, by decide, by decide,
    (nextGameTick_never_zero 64 (by decide) game rfl
      (List.replicate 18 call.advanceLevel ++ [call.gameOver, call.advanceLevel])).2.1,
    by decide⟩

end Stetris
